import Mathlib

/-!
# seqpipe: the pipeline loader and the post-load resolution pass

A shallow embedding of `src/Pipeline.cpp` (the data model of `CommandItem`,
`Block`, `Procedure`, `Pipeline`, the loader `Load` / `LoadProc` / `LoadBlock` /
`ReadLeftBracket` / `LoadConf`, the writer `Save`, `SetDefaultBlock` and
`FinalCheckAfterLoad`), followed by the properties proved about it.

Conventions of the embedding:
* the members of the classes are those `Pipeline.cpp` reads and writes (`Pipeline.h` among
  the sources is of another revision); `blockList_{1}` is taken from it;
* `std::string` is `String`, `std::vector<T>` is `List T`; a text file is the list of its
  lines;
* `std::map<std::string, V>` is a list of pairs kept strictly ascending by key, so that
  iteration (used by `Save`) visits the keys in the order `std::map` does;
* a member function that mutates `*this` returns the new object next to its result;
* diagnostics written to the error stream are not part of the state; the place a loader
  gives up at is recorded as a `LoadError` next to the `false` it returns.
-/

namespace SeqPipe

/-! ## `std::map<std::string, V>` -/

/-- A `std::map<std::string, V>`: pairs, ascending by key. -/
abbrev StrMap (V : Type) := List (String × V)

namespace StrMap

/-- `m.find(k)`: the value bound to `k`, if any (`none` stands for `m.end()`). -/
def find {V : Type} : StrMap V → String → Option V
  | [], _ => none
  | (k', v) :: m, k => if k = k' then some v else find m k

/-- `m[k] = v`: bind `k` to `v`, replacing an existing binding, keeping key order (the
order of `std::string`, which compares character by character). -/
def insert {V : Type} : StrMap V → String → V → StrMap V
  | [], k, v => [(k, v)]
  | (k', v') :: m, k, v =>
    if k.data < k'.data then (k, v) :: (k', v') :: m
    else if k = k' then (k, v) :: m
    else (k', v') :: insert m k v

/-- `m.find(k) != m.end()`. -/
def contains {V : Type} (m : StrMap V) (k : String) : Bool := (m.find k).isSome

/-- The keys in iteration order. -/
def keys {V : Type} (m : StrMap V) : List String := m.map Prod.fst

end StrMap

/-! ## Data model (`Pipeline.cpp`, the members it reads and writes) -/

/-- The classification tag of a command item (`CommandItem::TYPE_SHELL`, `TYPE_PROC`). -/
inductive CommandType where
  | TYPE_SHELL
  | TYPE_PROC
deriving DecidableEq, Repr

/-- The members of `CommandItem` used by `Pipeline.cpp`. -/
structure CommandItem where
  type_ : CommandType
  cmdLine_ : String
  shellCmd_ : String
  shellArgs_ : List String
  procName_ : String
  procArgs_ : StrMap String
  procArgsOrder_ : List String
deriving DecidableEq, Repr

/-- The members of `Block`: the items and the parallel flag (initially `false`). -/
structure Block where
  items_ : List CommandItem
  parallel_ : Bool
deriving DecidableEq, Repr

/-- The members of `Procedure`, set by `Initialize(name, blockIndex)`. -/
structure Procedure where
  name_ : String
  blockIndex_ : Nat
deriving DecidableEq, Repr

/-- The members of `Pipeline`: the procedure map and the block pool. -/
structure Pipeline where
  procList_ : StrMap Procedure
  blockList_ : List Block
deriving DecidableEq, Repr

/-- A default-constructed `Block`. -/
def Block.empty : Block := { items_ := [], parallel_ := false }

/-- A freshly constructed `Pipeline`: no procedure, `blockList_{1}`. -/
def Pipeline.fresh : Pipeline := { procList_ := [], blockList_ := [Block.empty] }

/-- The item at position `j` of block `i`, when there is one. -/
def Pipeline.itemAt (p : Pipeline) (i j : Nat) : Option CommandItem :=
  match p.blockList_[i]? with
  | none => none
  | some b => b.items_[j]?

/-- `Pipeline::HasProcedure`. -/
def Pipeline.HasProcedure (p : Pipeline) (name : String) : Bool :=
  p.procList_.contains name

/-! ## `FinalCheckAfterLoad` -/

/-- The class `\w` of `std::regex` in the classic locale. -/
def isWordChar (c : Char) : Bool := c.isAlphanum || c == '_'

/-- The characters `.` does not match in an ECMAScript `std::regex` over `char`. -/
def isLineTerminator (c : Char) : Bool := c == Char.ofNat 10 || c == Char.ofNat 13

/-- `std::regex_match(arg, sm, std::regex("(\\w+)=(.*)"))`: on a match, `sm[1]` and
`sm[2]`. The first group is greedy and `=` is no word character, so the key is the longest
prefix of word characters; the rest must have no line terminator. -/
def regexMatchKeyValue (arg : String) : Option (String × String) :=
  let key := arg.data.takeWhile isWordChar
  match arg.data.dropWhile isWordChar with
  | '=' :: value =>
    if key ≠ [] ∧ value.all (fun c => !isLineTerminator c) then
      some (String.mk key, String.mk value)
    else none
  | _ => none

/-- The inner loop of `FinalCheckAfterLoad` over `item.shellArgs_`: `none` when it leaves
with `failed = true`, otherwise the final `procArgs` and `procArgsOrder`. -/
def parseProcArgs : List String → StrMap String → List String →
    Option (StrMap String × List String)
  | [], procArgs, procArgsOrder => some (procArgs, procArgsOrder)
  | arg :: rest, procArgs, procArgsOrder =>
    match regexMatchKeyValue arg with
    | none => none
    | some (key, value) => parseProcArgs rest (procArgs.insert key value) (procArgsOrder ++ [key])

/-- The body of the loop of `FinalCheckAfterLoad` over the items of a block. -/
def finalCheckItem (procList : StrMap Procedure) (item : CommandItem) : CommandItem :=
  if item.type_ = CommandType.TYPE_SHELL then
    if procList.contains item.shellCmd_ then
      match parseProcArgs item.shellArgs_ [] [] with
      | none => item
      | some (procArgs, procArgsOrder) =>
        { item with
          type_ := CommandType.TYPE_PROC
          procName_ := item.shellCmd_
          procArgs_ := procArgs
          procArgsOrder_ := procArgsOrder }
    else item
  else item

/-- `Pipeline::FinalCheckAfterLoad`. -/
def Pipeline.FinalCheckAfterLoad (p : Pipeline) : Pipeline :=
  { p with
    blockList_ := p.blockList_.map fun block =>
      { block with items_ := block.items_.map (finalCheckItem p.procList_) } }

/-! ## Collaborators

`PipeFile.h`, `StringUtils.h` and the implementation of `System` are not among the sources;
the loader is embedded over an arbitrary implementation of what it calls from them. An
out-parameter that is written on success is the content of the returned `Option`. -/

/-- The functions `Pipeline.cpp` calls from `PipeFile`, `StringUtils` and `System`. -/
structure Ops where
  IsEmptyLine : String → Bool
  IsCommentLine : String → Bool
  IsDescLine : String → Bool
  ParseAttrLine : String → Bool
  IsIncLine : String → Option String
  IsVarLine : String → Option (String × String)
  IsFuncLine : String → Option (String × String)
  IsLeftBracket : String → Option String
  IsRightBracket : String → Option String
  ParseCommandLine : String → Option (String × List String)
  EncodeShell : String → String
  DirName : String → String

/-- The files the loader can see: `content path` is the list of the lines of a file that can
be opened for reading, and `CheckFileExists` is `System::CheckFileExists`. -/
structure FileSystem where
  content : String → Option (List String)
  CheckFileExists : String → Bool

/-- The places at which a loader returns `false`. -/
inductive LoadError where
  | cannotOpen
  | unexpectedAttribute
  | unexpectedLine
  | unexpectedRightBracket
  | invalidConf
  | duplicatedProcedure
  | commandLine
deriving DecidableEq, Repr

/-! ## `CommandItem` and `Block` -/

/-- `CommandItem::CommandItem(cmd, arguments, cmdLine)`. -/
def CommandItem.mkShell (ops : Ops) (cmd : String) (arguments : List String)
    (cmdLine : String) : CommandItem :=
  { type_ := CommandType.TYPE_SHELL
    cmdLine_ :=
      if cmdLine = "" then arguments.foldl (fun s arg => s ++ (" " ++ ops.EncodeShell arg)) cmd
      else cmdLine
    shellCmd_ := cmd
    shellArgs_ := arguments
    procName_ := ""
    procArgs_ := []
    procArgsOrder_ := [] }

/-- `CommandItem::CommandItem(procName, procArgs, procArgsOrder)`. -/
def CommandItem.mkProc (procName : String) (procArgs : StrMap String)
    (procArgsOrder : List String) : CommandItem :=
  { type_ := CommandType.TYPE_PROC
    cmdLine_ := ""
    shellCmd_ := ""
    shellArgs_ := []
    procName_ := procName
    procArgs_ := procArgs
    procArgsOrder_ := procArgsOrder }

/-- `FormatProcCalling`; a name missing from `procArgs` (where the source dereferences
`end()`) contributes the encoding of the empty string. -/
def FormatProcCalling (ops : Ops) (procName : String) (procArgs : StrMap String)
    (procArgsOrder : List String) : String :=
  procArgsOrder.foldl
    (fun s name => s ++ (" " ++ name ++ "=" ++ ops.EncodeShell ((procArgs.find name).getD "")))
    procName

/-- `CommandItem::ToString`. -/
def CommandItem.ToString (ops : Ops) (item : CommandItem) : String :=
  if item.type_ = CommandType.TYPE_SHELL then item.cmdLine_
  else FormatProcCalling ops item.procName_ item.procArgs_ item.procArgsOrder_

/-- `Block::Clear`. -/
def Block.Clear (_block : Block) : Block := { items_ := [], parallel_ := false }

/-- `Block::SetParallel`. -/
def Block.SetParallel (block : Block) (parallel : Bool) : Block :=
  { block with parallel_ := parallel }

/-- `Block::AppendCommand(cmd, arguments)`; the constructor gets its default `cmdLine`. -/
def Block.AppendCommandArgs (ops : Ops) (block : Block) (cmd : String)
    (arguments : List String) : Bool × Block :=
  (true, { block with items_ := block.items_ ++ [CommandItem.mkShell ops cmd arguments ""] })

/-- `Block::AppendCommand(line)`. -/
def Block.AppendCommand (ops : Ops) (block : Block) (line : String) : Bool × Block :=
  match ops.ParseCommandLine line with
  | none => (false, block)
  | some (cmd, arguments) =>
    (true, { block with items_ := block.items_ ++ [CommandItem.mkShell ops cmd arguments ""] })

/-- `Block::AppendCommand(procName, procArgs, procArgsOrder)`. -/
def Block.AppendCommandProc (block : Block) (procName : String) (procArgs : StrMap String)
    (procArgsOrder : List String) : Bool × Block :=
  (true, { block with items_ := block.items_ ++ [CommandItem.mkProc procName procArgs procArgsOrder] })

/-! ## The loader -/

/-- `Pipeline::ReadLeftBracket` over the lines not yet read: the result, `leftBracket`, and
the lines left in the file. -/
def ReadLeftBracket (ops : Ops) : List String → String → Option LoadError × String × List String
  | [], leftBracket => (none, leftBracket, [])
  | line :: rest, leftBracket =>
    if ops.IsEmptyLine line then ReadLeftBracket ops rest leftBracket
    else if ops.IsCommentLine line then
      if ops.IsDescLine line then (some LoadError.unexpectedAttribute, leftBracket, rest)
      else ReadLeftBracket ops rest leftBracket
    else
      match ops.IsLeftBracket line with
      | none => (some LoadError.unexpectedLine, leftBracket, rest)
      | some bracket => (none, bracket, rest)

/-- `Pipeline::LoadBlock` over the lines not yet read: the result, the block, and the lines
left in the file. The result of `AppendCommand` is dropped, as in the source. -/
def LoadBlock (ops : Ops) : List String → Block → Bool → Option LoadError × Block × List String
  | [], block, _ => (none, block, [])
  | line :: rest, block, parallel =>
    match ops.IsRightBracket line with
    | some rightBracket =>
      if !parallel && rightBracket == "\x7d\x7d" then (some LoadError.unexpectedRightBracket, block, rest)
      else if parallel && rightBracket == "\x7d" then
        (some LoadError.unexpectedRightBracket, block, rest)
      else (none, block, rest)
    | none => LoadBlock ops rest (block.AppendCommand ops line).2 parallel

/-- `Pipeline::LoadProc` over the lines not yet read. -/
def LoadProc (ops : Ops) (p : Pipeline) (lines : List String) (name : String)
    (leftBracket : String) : Option LoadError × Pipeline × List String :=
  match (if leftBracket = "" then ReadLeftBracket ops lines leftBracket
         else (none, leftBracket, lines)) with
  | (some e, _, lines1) => (some e, p, lines1)
  | (none, leftBracket1, lines1) =>
    match LoadBlock ops lines1 Block.empty (leftBracket1 == "\x7b\x7b") with
    | (some e, _, lines2) => (some e, p, lines2)
    | (none, block, lines2) =>
      let blockIndex := p.blockList_.length
      (none,
        { procList_ := p.procList_.insert name { name_ := name, blockIndex_ := blockIndex }
          blockList_ := p.blockList_ ++ [block] },
        lines2)

/-- The loop of `Pipeline::LoadConf` over the lines of the opened file. -/
def loadConfLines (ops : Ops) : List String → StrMap String → Option LoadError × StrMap String
  | [], confMap => (none, confMap)
  | line :: rest, confMap =>
    match ops.IsVarLine line with
    | some (name, value) => loadConfLines ops rest (confMap.insert name value)
    | none =>
      if !ops.IsEmptyLine line && !ops.IsCommentLine line then
        (some LoadError.invalidConf, confMap)
      else loadConfLines ops rest confMap

/-- `Pipeline::LoadConf`: the result and `confMap`. -/
def LoadConf (ops : Ops) (fs : FileSystem) (filename : String) (confMap : StrMap String) :
    Option LoadError × StrMap String :=
  match fs.content filename with
  | none => (some LoadError.cannotOpen, confMap)
  | some lines => loadConfLines ops lines confMap

/-- `blockList_[0].AppendCommand(line)`; the pool is never empty (`blockList_{1}`), the
first case only makes the function total. -/
def Pipeline.appendDefault (ops : Ops) (p : Pipeline) (line : String) : Bool × Pipeline :=
  match p.blockList_ with
  | [] => (false, p)
  | block0 :: blocks =>
    ((block0.AppendCommand ops line).1,
      { p with blockList_ := (block0.AppendCommand ops line).2 :: blocks })

/-- The variables `Pipeline::Load` works on: the pipeline itself and the locals `confMap`
and `procAtLineNo` (of which only the keys matter: the positions are diagnostic text). -/
structure LoadState where
  pipeline : Pipeline
  confMap : StrMap String
  procAtLineNo : StrMap Unit
deriving DecidableEq, Repr

/-- What one turn of the loop of `Pipeline::Load` ends in: the next turn (`continue`, or
the end of the body), with the lines left in the file, or `return false`. -/
inductive LoadStep where
  | next (st : LoadState) (rest : List String)
  | stop (e : LoadError) (st : LoadState)
deriving DecidableEq, Repr

/-- The statement `if (PipeFile::IsVarLine(line, name, value)) { confMap[name] = value; }`
of `Pipeline::Load`. -/
def recordVarLine (ops : Ops) (confMap : StrMap String) (line : String) : StrMap String :=
  match ops.IsVarLine line with
  | some (name, value) => confMap.insert name value
  | none => confMap

/-- The body of the loop of `Pipeline::Load` for the line just read (`rest` is the file
after it). `ParseAttrLine` only decides on a warning. After the statement for a variable
line there is no `continue`: the line goes on to the tests below it. -/
def loadLine (ops : Ops) (fs : FileSystem) (filename : String) (st : LoadState)
    (line : String) (rest : List String) : LoadStep :=
  if ops.IsEmptyLine line then LoadStep.next st rest
  else if ops.IsCommentLine line then LoadStep.next st rest
  else
    match ops.IsIncLine line with
    | some includeFilename =>
      match LoadConf ops fs (ops.DirName filename ++ "/" ++ includeFilename) st.confMap with
      | (some e, confMap) => LoadStep.stop e { st with confMap := confMap }
      | (none, confMap) => LoadStep.next { st with confMap := confMap } rest
    | none =>
      match ops.IsFuncLine line with
      | some (name, leftBracket) =>
        if st.procAtLineNo.contains name then
          LoadStep.stop LoadError.duplicatedProcedure
            { st with confMap := recordVarLine ops st.confMap line }
        else
          match LoadProc ops st.pipeline rest name leftBracket with
          | (some e, pipeline, _) =>
            LoadStep.stop e
              { pipeline := pipeline, confMap := recordVarLine ops st.confMap line
                procAtLineNo := st.procAtLineNo.insert name () }
          | (none, pipeline, rest1) =>
            LoadStep.next
              { pipeline := pipeline, confMap := recordVarLine ops st.confMap line
                procAtLineNo := st.procAtLineNo.insert name () }
              rest1
      | none =>
        match st.pipeline.appendDefault ops line with
        | (false, pipeline) =>
          LoadStep.stop LoadError.commandLine
            { st with pipeline := pipeline, confMap := recordVarLine ops st.confMap line }
        | (true, pipeline) =>
          LoadStep.next
            { st with pipeline := pipeline, confMap := recordVarLine ops st.confMap line } rest

/-- What `Pipeline::Load` leaves: `status = none` for `true`, the pipeline, and the local
`confMap` as it was at the return. -/
structure LoadResult where
  status : Option LoadError
  pipeline : Pipeline
  confMap : StrMap String
deriving DecidableEq, Repr

/-- `Load` returned `true`. -/
def LoadResult.ok (r : LoadResult) : Bool := r.status.isNone

/-- The loop `while (file.ReadLine())` of `Pipeline::Load`, by recursion on a bound for the
number of turns (a turn reads at least one line, so the number of lines bounds it; see
`loadLoop_fuel`), and the probe for the sidecar configuration file after it. -/
def loadLoop (ops : Ops) (fs : FileSystem) (filename : String) :
    Nat → LoadState → List String → LoadResult
  | fuel + 1, st, line :: rest =>
    match loadLine ops fs filename st line rest with
    | LoadStep.next st1 rest1 => loadLoop ops fs filename fuel st1 rest1
    | LoadStep.stop e st1 => { status := some e, pipeline := st1.pipeline, confMap := st1.confMap }
  | _, st, _ =>
    if fs.CheckFileExists (filename ++ ".conf") then
      match LoadConf ops fs (filename ++ ".conf") st.confMap with
      | (some e, confMap) => { status := some e, pipeline := st.pipeline, confMap := confMap }
      | (none, confMap) => { status := none, pipeline := st.pipeline, confMap := confMap }
    else { status := none, pipeline := st.pipeline, confMap := st.confMap }

/-- `Pipeline::Load(filename)` on the pipeline `p`. -/
def Pipeline.Load (ops : Ops) (fs : FileSystem) (p : Pipeline) (filename : String) :
    LoadResult :=
  match fs.content filename with
  | none => { status := some LoadError.cannotOpen, pipeline := p, confMap := [] }
  | some lines =>
    loadLoop ops fs filename lines.length
      { pipeline := p, confMap := [], procAtLineNo := [] } lines

/-! ## `Save` and `SetDefaultBlock` -/

/-- The block `blockList_[index]` (the default block value where the source would read out
of range). -/
def Pipeline.blockAt (p : Pipeline) (index : Nat) : Block := p.blockList_.getD index Block.empty

/-- The loop of `Pipeline::Save` over `procList_`; a text file is the list of its lines,
every `<< "\n"` ends one. -/
def saveProcs (p : Pipeline) : StrMap Procedure → Bool → List String
  | [], _ => []
  | (name, proc) :: rest, first =>
    (if first then [] else [""]) ++
      ((name ++ "() \x7b") :: (p.blockAt proc.blockIndex_).items_.map fun cmd => "\t" ++ cmd.cmdLine_) ++
      ("\x7d" :: saveProcs p rest false)

/-- `Pipeline::Save`: the lines written to the file. -/
def Pipeline.Save (ops : Ops) (p : Pipeline) : List String :=
  saveProcs p p.procList_ true ++
    (if (p.blockAt 0).items_ ≠ [] then
      (if p.procList_ ≠ [] then [""] else []) ++
        (p.blockAt 0).items_.map fun item => item.ToString ops
     else [])

/-- The loop of `SetDefaultBlock(cmdList, parallel)` over `cmdList`. -/
def appendCommands (ops : Ops) : List String → Block → Bool × Block
  | [], block => (true, block)
  | cmd :: rest, block =>
    match block.AppendCommand ops cmd with
    | (false, block1) => (false, block1)
    | (true, block1) => appendCommands ops rest block1

/-- `Pipeline::SetDefaultBlock(cmdList, parallel)`. -/
def Pipeline.SetDefaultBlock (ops : Ops) (p : Pipeline) (cmdList : List String)
    (parallel : Bool) : Bool × Pipeline :=
  match p.blockList_ with
  | [] => (false, p)
  | block0 :: blocks =>
    match appendCommands ops cmdList block0.Clear with
    | (false, block1) => (false, { p with blockList_ := block1 :: blocks })
    | (true, block1) => (true, { p with blockList_ := block1.SetParallel parallel :: blocks })

/-- `Pipeline::SetDefaultBlock(cmd, arguments)`. -/
def Pipeline.SetDefaultBlockArgs (ops : Ops) (p : Pipeline) (cmd : String)
    (arguments : List String) : Bool × Pipeline :=
  match p.blockList_ with
  | [] => (false, p)
  | block0 :: blocks =>
    ((block0.Clear.AppendCommandArgs ops cmd arguments).1,
      { p with blockList_ := (block0.Clear.AppendCommandArgs ops cmd arguments).2 :: blocks })

/-- `Pipeline::SetDefaultBlock(procName, procArgs, procArgsOrder)`. -/
def Pipeline.SetDefaultBlockProc (p : Pipeline) (procName : String)
    (procArgs : StrMap String) (procArgsOrder : List String) : Bool × Pipeline :=
  match p.blockList_ with
  | [] => (false, p)
  | block0 :: blocks =>
    ((block0.Clear.AppendCommandProc procName procArgs procArgsOrder).1,
      { p with
        blockList_ := (block0.Clear.AppendCommandProc procName procArgs procArgsOrder).2 :: blocks })

/-! ## The collaborators as the specification describes them

Used to run the loader on concrete files. -/

/-- Drop leading whitespace. -/
def dropSpaces (cs : List Char) : List Char := cs.dropWhile Char.isWhitespace

/-- Modelled from the spec: `PipeFile::IsEmptyLine` (missing from the sources), "whitespace
only". -/
def specIsEmptyLine (line : String) : Bool := line.data.all Char.isWhitespace

/-- Modelled from the spec: `PipeFile::IsCommentLine` (missing from the sources), "first
non-whitespace character is `#`". -/
def specIsCommentLine (line : String) : Bool :=
  match dropSpaces line.data with
  | '#' :: _ => true
  | _ => false

/-- Modelled from the spec: `PipeFile::IsDescLine` (missing from the sources), "a comment
whose body starts with a recognized attribute marker (e.g. `#[desc …]`)". -/
def specIsDescLine (line : String) : Bool :=
  match dropSpaces line.data with
  | '#' :: '[' :: _ => true
  | _ => false

/-- Modelled from the spec: `PipeFile::IsIncLine` (missing from the sources),
`whitespace* 'include' whitespace+ FILENAME`. -/
def specIsIncLine (line : String) : Option String :=
  match dropSpaces line.data with
  | 'i' :: 'n' :: 'c' :: 'l' :: 'u' :: 'd' :: 'e' :: c :: rest =>
    if c.isWhitespace ∧ dropSpaces rest ≠ [] then some (String.mk (dropSpaces rest)) else none
  | _ => none

/-- Modelled from the spec: the token `NAME` of the grammar (missing from the sources), a
non-empty run of word characters not starting with a digit. -/
def specIsName (cs : List Char) : Bool :=
  match cs with
  | [] => false
  | c :: _ => !c.isDigit && cs.all isWordChar

/-- Modelled from the spec: `PipeFile::IsVarLine` (missing from the sources),
`NAME '=' VALUE`. -/
def specIsVarLine (line : String) : Option (String × String) :=
  match line.data.dropWhile isWordChar with
  | '=' :: value =>
    if specIsName (line.data.takeWhile isWordChar) then
      some (String.mk (line.data.takeWhile isWordChar), String.mk value)
    else none
  | _ => none

/-- Modelled from the spec: `PipeFile::IsFuncLine` (missing from the sources),
`NAME '()' whitespace* ('{' | '{{')?`. -/
def specIsFuncLine (line : String) : Option (String × String) :=
  match line.data.dropWhile isWordChar with
  | '(' :: ')' :: rest =>
    if specIsName (line.data.takeWhile isWordChar) ∧
        (dropSpaces rest = [] ∨ dropSpaces rest = ['{'] ∨ dropSpaces rest = ['{', '{']) then
      some (String.mk (line.data.takeWhile isWordChar), String.mk (dropSpaces rest))
    else none
  | _ => none

/-- Modelled from the spec: `PipeFile::IsLeftBracket` (missing from the sources),
`whitespace* ('{' | '{{')`. -/
def specIsLeftBracket (line : String) : Option String :=
  if dropSpaces line.data = ['{'] ∨ dropSpaces line.data = ['{', '{'] then
    some (String.mk (dropSpaces line.data))
  else none

/-- Modelled from the spec: `PipeFile::IsRightBracket` (missing from the sources),
`whitespace* ('}' | '}}')`. -/
def specIsRightBracket (line : String) : Option String :=
  if dropSpaces line.data = ['}'] ∨ dropSpaces line.data = ['}', '}'] then
    some (String.mk (dropSpaces line.data))
  else none

/-- Where the tokenizer is: between tokens or in an unquoted part, right after a backslash
there, inside single quotes, inside double quotes, right after a backslash there. -/
inductive Quoting where
  | plain
  | plainEscape
  | single
  | double
  | doubleEscape
deriving DecidableEq, Repr

/-- Modelled from the spec: the tokenizer behind `StringUtils::ParseCommandLine` (missing
from the sources): "tokens separated by unescaped whitespace; single quotes preserve literal
content; double quotes permit backslash escapes for `"` and `\`. Unterminated quotes fail".
`cur` is the token being read, when there is one. -/
def specTokens : List Char → Quoting → Option (List Char) → List String → Option (List String)
  | [], Quoting.plain, none, done => some done
  | [], Quoting.plain, some cur, done => some (done ++ [String.mk cur])
  | [], Quoting.plainEscape, cur, done => some (done ++ [String.mk (cur.getD [] ++ [Char.ofNat 92])])
  | [], _, _, _ => none
  | c :: rest, Quoting.plain, cur, done =>
    if c.isWhitespace then
      match cur with
      | none => specTokens rest Quoting.plain none done
      | some t => specTokens rest Quoting.plain none (done ++ [String.mk t])
    else if c = Char.ofNat 39 then specTokens rest Quoting.single (some (cur.getD [])) done
    else if c = '"' then specTokens rest Quoting.double (some (cur.getD [])) done
    else if c = Char.ofNat 92 then specTokens rest Quoting.plainEscape (some (cur.getD [])) done
    else specTokens rest Quoting.plain (some (cur.getD [] ++ [c])) done
  | c :: rest, Quoting.plainEscape, cur, done =>
    specTokens rest Quoting.plain (some (cur.getD [] ++ [c])) done
  | c :: rest, Quoting.single, cur, done =>
    if c = Char.ofNat 39 then specTokens rest Quoting.plain cur done
    else specTokens rest Quoting.single (some (cur.getD [] ++ [c])) done
  | c :: rest, Quoting.double, cur, done =>
    if c = '"' then specTokens rest Quoting.plain cur done
    else if c = Char.ofNat 92 then specTokens rest Quoting.doubleEscape cur done
    else specTokens rest Quoting.double (some (cur.getD [] ++ [c])) done
  | c :: rest, Quoting.doubleEscape, cur, done =>
    if c = '"' ∨ c = Char.ofNat 92 then
      specTokens rest Quoting.double (some (cur.getD [] ++ [c])) done
    else specTokens rest Quoting.double (some (cur.getD [] ++ [Char.ofNat 92, c])) done

/-- Modelled from the spec: `StringUtils::ParseCommandLine` (missing from the sources): the
first token is the program name, the others are the arguments; a line without a token has
no program name and is refused. -/
def specParseCommandLine (line : String) : Option (String × List String) :=
  match specTokens line.data Quoting.plain none [] with
  | some (cmd :: arguments) => some (cmd, arguments)
  | _ => none

/-- The characters the shell-quoting contract leaves alone: `[A-Za-z0-9_./=:@-]`. -/
def isShellSafe (c : Char) : Bool :=
  c.isAlphanum || c == '_' || c == '.' || c == '/' || c == '=' || c == ':' || c == '@' || c == '-'

/-- Modelled from the spec: `System::EncodeShell` (its implementation is missing from the
sources): "empty → `''`; strings composed entirely of `[A-Za-z0-9_./=:@-]` are emitted
as-is; otherwise wrap in single quotes and replace every `'` with `'\''`". -/
def specEncodeShell (s : String) : String :=
  if s.data ≠ [] ∧ s.data.all isShellSafe then s
  else
    String.mk ([Char.ofNat 39] ++
      s.data.flatMap (fun c =>
        if c = Char.ofNat 39 then [Char.ofNat 39, Char.ofNat 92, Char.ofNat 39, Char.ofNat 39]
        else [c]) ++
      [Char.ofNat 39])

/-- Modelled from the spec: `System::DirName` (missing from the sources), the part of a path
before its last `/`, or `.` when it has none. -/
def specDirName (path : String) : String :=
  if '/' ∈ path.data then
    String.mk ((path.data.reverse.dropWhile (fun c => c != '/')).drop 1).reverse
  else "."

/-- The collaborators as the specification describes them. -/
def specOps : Ops :=
  { IsEmptyLine := specIsEmptyLine
    IsCommentLine := specIsCommentLine
    IsDescLine := specIsDescLine
    ParseAttrLine := fun _ => true
    IsIncLine := specIsIncLine
    IsVarLine := specIsVarLine
    IsFuncLine := specIsFuncLine
    IsLeftBracket := specIsLeftBracket
    IsRightBracket := specIsRightBracket
    ParseCommandLine := specParseCommandLine
    EncodeShell := specEncodeShell
    DirName := specDirName }

/-- A file system holding the single file `name` with the lines `lines`. -/
def oneFile (name : String) (lines : List String) : FileSystem :=
  { content := fun path => if path = name then some lines else none
    CheckFileExists := fun path => path = name }

/-- `Load` of the lines `lines`, as the file `main.pipe`, into a fresh pipeline. -/
def loadLines (lines : List String) : LoadResult :=
  Pipeline.fresh.Load specOps (oneFile "main.pipe" lines) "main.pipe"

/-! ## Concrete inputs and stated properties -/

/-- The property claim C2 states of a pipeline: no item classified as a shell item has the
name of a procedure as its program name. -/
def NoShellItemNamesProcedure (p : Pipeline) : Prop :=
  ∀ i j item, p.itemAt i j = some item → item.type_ = CommandType.TYPE_SHELL →
    p.HasProcedure item.shellCmd_ = false

/-- A procedure `build` and a call of it with an argument that is no `key=value`. -/
def fileBuildFast : List String :=
  ["build() \x7b", "  echo hi", "\x7d", "build --fast"]

/-- Scenario 4 of the specification with the call placed before the definition. -/
def fileCallBeforeDef : List String :=
  ["build name=pkg opts=-O2", "build() \x7b", "  echo building", "\x7d"]

/-- The form `key=value` of an argument: a non-empty key of word characters, `=`, and a
value without line terminator. The key has no `=`, so the value is the text after the first
`=` of the argument. -/
def KeyValueForm (arg key value : String) : Prop :=
  arg = key ++ "=" ++ value ∧ key ≠ "" ∧ (∀ c ∈ key.data, isWordChar c = true) ∧
    ∀ c ∈ value.data, isLineTerminator c = false

/-- The shell item `Load` makes of the line `build name=pkg opts=-O2`. -/
def itemBuildCall : CommandItem :=
  { type_ := CommandType.TYPE_SHELL, cmdLine_ := "build name=pkg opts=-O2", shellCmd_ := "build"
    shellArgs_ := ["name=pkg", "opts=-O2"], procName_ := "", procArgs_ := []
    procArgsOrder_ := [] }

/-- A procedure body holding a command line with an unterminated quote. -/
def fileBadQuoteInBody : List String :=
  ["f() \x7b", "echo " ++ String.mk [Char.ofNat 39] ++ "x", "\x7d"]

/-- Scenario 5 of the specification: a serial block closed by the parallel bracket. -/
def fileBracketMismatch : List String :=
  ["f() \x7b", "echo x", "\x7d\x7d"]

/-- Every procedure of the procedure map has a block index below the length of the pool. -/
def Pipeline.IndicesInRange (p : Pipeline) : Prop :=
  ∀ entry ∈ p.procList_, entry.2.blockIndex_ < p.blockList_.length

/-- The pipelines that a sequence of `Load`, `LoadProc`, `FinalCheckAfterLoad` and
`SetDefaultBlock` calls (whatever they return, on whatever files) makes of a fresh one. -/
inductive Reachable (ops : Ops) : Pipeline → Prop where
  | fresh : Reachable ops Pipeline.fresh
  | load (fs : FileSystem) (filename : String) (p : Pipeline) :
      Reachable ops p → Reachable ops (p.Load ops fs filename).pipeline
  | loadProc (lines : List String) (name leftBracket : String) (p : Pipeline) :
      Reachable ops p → Reachable ops (LoadProc ops p lines name leftBracket).2.1
  | finalCheck (p : Pipeline) : Reachable ops p → Reachable ops p.FinalCheckAfterLoad
  | setDefaultBlock (cmdList : List String) (parallel : Bool) (p : Pipeline) :
      Reachable ops p → Reachable ops (p.SetDefaultBlock ops cmdList parallel).2
  | setDefaultBlockArgs (cmd : String) (arguments : List String) (p : Pipeline) :
      Reachable ops p → Reachable ops (p.SetDefaultBlockArgs ops cmd arguments).2
  | setDefaultBlockProc (procName : String) (procArgs : StrMap String)
      (procArgsOrder : List String) (p : Pipeline) :
      Reachable ops p → Reachable ops (p.SetDefaultBlockProc procName procArgs procArgsOrder).2

/-- The state `Load` starts its loop in, on the pipeline `p`. -/
def LoadState.init (p : Pipeline) : LoadState :=
  { pipeline := p, confMap := [], procAtLineNo := [] }

/-- The state and the unread lines after `k` turns of the loop of `Load`, when there were
`k` turns and none of them returned. -/
def loadTurns (ops : Ops) (fs : FileSystem) (filename : String) :
    Nat → LoadState → List String → Option (LoadState × List String)
  | 0, st, lines => some (st, lines)
  | _ + 1, _, [] => none
  | k + 1, st, line :: rest =>
    match loadLine ops fs filename st line rest with
    | LoadStep.next st1 rest1 => loadTurns ops fs filename k st1 rest1
    | LoadStep.stop _ _ => none

/-- The line is one the loop of `Load` treats as the header of procedure `name`: it gets
past the tests for empty, comment and include lines and `IsFuncLine` yields `name`. -/
def IsHeaderFor (ops : Ops) (line name : String) : Prop :=
  ops.IsEmptyLine line = false ∧ ops.IsCommentLine line = false ∧ ops.IsIncLine line = none ∧
    (ops.IsFuncLine line).map Prod.fst = some name

instance (ops : Ops) (line name : String) : Decidable (IsHeaderFor ops line name) :=
  inferInstanceAs (Decidable (ops.IsEmptyLine line = false ∧ ops.IsCommentLine line = false ∧
    ops.IsIncLine line = none ∧ (ops.IsFuncLine line).map Prod.fst = some name))

/-- The names of the lines of a file that `IsFuncLine` classifies as procedure headers,
wherever they stand, in file order. -/
def headerNames (ops : Ops) (lines : List String) : List String :=
  lines.filterMap fun line => (ops.IsFuncLine line).map Prod.fst

/-- Scenario 6 of the specification with one header per line: procedure `f` defined twice,
after a top-level command. -/
def fileDuplicate : List String :=
  ["echo a", "f() \x7b", "echo one", "\x7d", "f() \x7b", "echo two", "\x7d"]

/-- The state of `Load` on `fileDuplicate` when it reads the first header of `f`. -/
def stateAtFirstHeader : LoadState :=
  { pipeline :=
      { procList_ := []
        blockList_ := [{ items_ := [CommandItem.mkShell specOps "echo" ["a"] ""], parallel_ := false }] }
    confMap := []
    procAtLineNo := [] }

/-- The state of `Load` on `fileDuplicate` when it reads the second header of `f`. -/
def stateAtSecondHeader : LoadState :=
  { pipeline :=
      { procList_ := [("f", { name_ := "f", blockIndex_ := 1 })]
        blockList_ :=
          [{ items_ := [CommandItem.mkShell specOps "echo" ["a"] ""], parallel_ := false },
           { items_ := [CommandItem.mkShell specOps "echo" ["one"] ""], parallel_ := false }] }
    confMap := []
    procAtLineNo := [("f", ())] }

/-- Structural equality of two pipelines, as claim C4 spells it out: the same procedure
names, each bound to a block with the same parallel flag and the same sequence of command
items, and the same default block. -/
def SameStructure (p q : Pipeline) : Prop :=
  (∀ name, p.HasProcedure name = q.HasProcedure name) ∧
  (∀ name pp pq, p.procList_.find name = some pp → q.procList_.find name = some pq →
    p.blockAt pp.blockIndex_ = q.blockAt pq.blockIndex_) ∧
  p.blockAt 0 = q.blockAt 0

/-- The text `Save` writes for the pipeline reads back as written: the empty separator line
is an empty line and `}` is the right bracket `}`; the header written for a procedure is
read as the header of that procedure with the bracket `{`; a line written for an item of a
procedure body is no right bracket and tokenizes to the program name and the arguments of
the item; a line written for an item of block 0 is read as a command line and tokenizes to
the program name and the arguments of the item. -/
def ReadsBack (ops : Ops) (p : Pipeline) : Prop :=
  ops.IsEmptyLine "" = true ∧
  ops.IsRightBracket "\x7d" = some "\x7d" ∧
  (∀ entry ∈ p.procList_,
    ops.IsEmptyLine (entry.1 ++ "() \x7b") = false ∧
    ops.IsCommentLine (entry.1 ++ "() \x7b") = false ∧
    ops.IsIncLine (entry.1 ++ "() \x7b") = none ∧
    ops.IsFuncLine (entry.1 ++ "() \x7b") = some (entry.1, "\x7b") ∧
    ∀ item ∈ (p.blockAt entry.2.blockIndex_).items_,
      ops.IsRightBracket ("\t" ++ item.cmdLine_) = none ∧
      ops.ParseCommandLine ("\t" ++ item.cmdLine_) = some (item.shellCmd_, item.shellArgs_)) ∧
  (∀ item ∈ (p.blockAt 0).items_,
    ops.IsEmptyLine (item.ToString ops) = false ∧
    ops.IsCommentLine (item.ToString ops) = false ∧
    ops.IsIncLine (item.ToString ops) = none ∧
    ops.IsFuncLine (item.ToString ops) = none ∧
    ops.ParseCommandLine (item.ToString ops) = some (item.shellCmd_, item.shellArgs_))

/-- The block the loader builds from the lines `Save` writes for the block `b`, when they
read back as written. -/
def Block.reload (ops : Ops) (b : Block) : Block :=
  { items_ := b.items_.map fun item => CommandItem.mkShell ops item.shellCmd_ item.shellArgs_ ""
    parallel_ := false }

/-- The keys of a map are strictly ascending. -/
def StrMap.Sorted {V : Type} (m : StrMap V) : Prop :=
  m.Pairwise fun a b => a.1.data < b.1.data

/-- What holds of a pipeline between `Load` calls on a fresh pipeline: the procedure map is
ascending, no block is parallel, and every item is the shell item the constructor makes of
its program name and arguments. -/
def Pipeline.AsLoaded (ops : Ops) (p : Pipeline) : Prop :=
  p.procList_.Sorted ∧
  ∀ b ∈ p.blockList_, b.parallel_ = false ∧
    ∀ item ∈ b.items_, item = CommandItem.mkShell ops item.shellCmd_ item.shellArgs_ ""

/-- A top-level command whose program name needs quoting. -/
def fileQuotedProgram : List String :=
  [String.mk [Char.ofNat 39] ++ "a b" ++ String.mk [Char.ofNat 39] ++ " c"]

/-- Scenario 4 of the specification. -/
def fileScenario4 : List String :=
  ["build() \x7b", "  echo \"building $name with $opts\"", "\x7d", "build name=pkg opts=-O2"]

/-- The pipeline the loader makes of `q` by loading the text `Save` writes for the
procedures `procs` of `p`, when it reads back as written: one new block per procedure. -/
def reloadProcs (ops : Ops) (p : Pipeline) : StrMap Procedure → Pipeline → Pipeline
  | [], q => q
  | (name, proc) :: rest, q =>
    reloadProcs ops p rest
      { procList_ := q.procList_.insert name { name_ := name, blockIndex_ := q.blockList_.length }
        blockList_ := q.blockList_ ++ [(p.blockAt proc.blockIndex_).reload ops] }

/-- The pipeline of scenario 4 after `Load` and `FinalCheckAfterLoad`. -/
def pipelineScenario4 : Pipeline := (loadLines fileScenario4).pipeline.FinalCheckAfterLoad

/-- The pipeline of `fileQuotedProgram` after `Load` and `FinalCheckAfterLoad`. -/
def pipelineQuotedProgram : Pipeline :=
  (loadLines fileQuotedProgram).pipeline.FinalCheckAfterLoad

/-- The token pattern `[A-Za-z_][A-Za-z0-9_]*`: a letter or underscore, then letters, digits
or underscores. -/
def matchesTokenPattern (s : String) : Bool :=
  match s.data with
  | [] => false
  | c :: cs => (c.isAlpha || c == '_') && cs.all fun d => d.isAlpha || d.isDigit || d == '_'

/-- A procedure `build` and a call of it whose key starts with a digit. -/
def fileDigitKey : List String :=
  ["build() \x7b", "echo hi", "\x7d", "build 1a=x"]

/-- A command line with a double-quoted argument. -/
def lineDoubleQuoted : String := "echo \"a b\""

/-- The first command of scenario 2 of the specification. -/
def lineAndAnd : String := "sleep 0.2 && echo A"

/-- A procedure `build` and a call of it that repeats the key `a`. -/
def fileRepeatedKey : List String :=
  ["build() \x7b", "echo hi", "\x7d", "build a=1 b=2 a=3"]

/-- The shell item `AppendCommand(line)` makes of a line the tokenizer accepts. -/
def IsItemOf (ops : Ops) (line : String) (item : CommandItem) : Prop :=
  ∃ cmd arguments, ops.ParseCommandLine line = some (cmd, arguments) ∧
    item = CommandItem.mkShell ops cmd arguments ""

/-- A configuration file with an include line in it. -/
def confWithInclude : List String := ["A=1", "include other.conf"]

/-- A configuration file that sets `A` twice. -/
def confGood : List String := ["A=1", "# comment", "", "B=2", "A=3"]

/-- How a loader leaves the pool of a pipeline whose pool was `block0 :: blocks`: block 0
with items appended, the other blocks as they were, and new blocks after them. -/
def PoolGrows (p q : Pipeline) : Prop :=
  ∀ block0 blocks, p.blockList_ = block0 :: blocks →
    ∃ items extra, q.blockList_ =
      { block0 with items_ := block0.items_ ++ items } :: (blocks ++ extra)

/-- What holds of the state of `Load` on a fresh pipeline: one block per procedure next to
block 0, the block indices within the pool, at least 1 and pairwise different, and every
procedure recorded in `procAtLineNo`. -/
def LoadState.OneBlockPerProc (st : LoadState) : Prop :=
  st.pipeline.blockList_.length = st.pipeline.procList_.length + 1 ∧
  (∀ e ∈ st.pipeline.procList_,
    1 ≤ e.2.blockIndex_ ∧ e.2.blockIndex_ < st.pipeline.blockList_.length) ∧
  (st.pipeline.procList_.map fun e => e.2.blockIndex_).Nodup ∧
  ∀ name, st.pipeline.procList_.contains name = true → st.procAtLineNo.contains name = true

/-- Two procedures, the first one parallel, around top-level commands. -/
def fileTwoProcs : List String :=
  ["echo a", "g() \x7b\x7b", "echo one", "\x7d\x7d", "f() \x7b", "\x7d", "echo b"]

/-- A procedure body that runs to the end of the file without a right bracket. -/
def fileUnclosedBody : List String := ["f() \x7b", "echo a"]

/-- A procedure header without a bracket, at the end of the file. -/
def fileHeaderAtEnd : List String := ["f()"]

/-- A procedure whose parallel bracket stands on the line after the header. -/
def fileParallelNextLine : List String := ["f()", "\x7b\x7b", "echo a", "\x7d\x7d"]

/-- What claim C3 says of the argument map of a promoted item: each argument `key=value`
has its key mapped to its value. -/
def MapsEachKeyToItsValue (item r : CommandItem) : Prop :=
  ∀ arg ∈ item.shellArgs_, ∀ key value, KeyValueForm arg key value →
    r.procArgs_.find key = some value

/-- The prefix of an argument that `FormatProcCalling` writes as it is: the word characters
of a key and `=`. -/
def IsKeyPrefix (s : String) : Prop := ∀ c ∈ s.data, isWordChar c = true ∨ c = '='

/-- The text of a command line in encoded form: the shell encoding of the program name and,
for each argument, a blank, a part written as it is and the shell encoding of the rest of
the argument. The constructor of a shell item writes every argument with an empty first
part, `FormatProcCalling` writes `key=` as the first part. -/
def encodedLine (ops : Ops) (cmd : String) (segs : List (String × String)) : String :=
  segs.foldl (fun s seg => s ++ (" " ++ seg.1 ++ ops.EncodeShell seg.2)) (ops.EncodeShell cmd)

/-- What the round trip needs of the collaborators, which are missing from the sources: the
tokenizer undoes the shell encoding, and the line classifiers read what `Save` writes as
what it is. The empty line is an empty line and `}` is the right bracket `}`; the header
`NAME() {` of a name that `IsFuncLine` reads from some line is read as the header of that
name with the bracket `{`, and is no empty, comment or include line; a command line in
encoded form, with or without a tab before it, is tokenized to its program name and
arguments, is no right bracket after a tab, no empty line, no comment line, no procedure
header and, unless its program name is `include`, no include line. -/
structure Ops.ReadsEncodedText (ops : Ops) : Prop where
  emptyLine : ops.IsEmptyLine "" = true
  rightBracket : ops.IsRightBracket "\x7d" = some "\x7d"
  header : ∀ line name lb, ops.IsFuncLine line = some (name, lb) →
    ops.IsEmptyLine (name ++ "() \x7b") = false ∧
    ops.IsCommentLine (name ++ "() \x7b") = false ∧
    ops.IsIncLine (name ++ "() \x7b") = none ∧
    ops.IsFuncLine (name ++ "() \x7b") = some (name, "\x7b")
  command : ∀ cmd segs, (∀ seg ∈ segs, IsKeyPrefix seg.1) →
    ops.ParseCommandLine (encodedLine ops cmd segs) =
      some (cmd, segs.map fun seg => seg.1 ++ seg.2) ∧
    ops.ParseCommandLine ("\t" ++ encodedLine ops cmd segs) =
      some (cmd, segs.map fun seg => seg.1 ++ seg.2) ∧
    ops.IsRightBracket ("\t" ++ encodedLine ops cmd segs) = none ∧
    ops.IsEmptyLine (encodedLine ops cmd segs) = false ∧
    ops.IsCommentLine (encodedLine ops cmd segs) = false ∧
    ops.IsFuncLine (encodedLine ops cmd segs) = none ∧
    (cmd ≠ "include" → ops.IsIncLine (encodedLine ops cmd segs) = none)

/-- The replacement the shell encoding makes of one character inside single quotes. -/
def quoteChar (c : Char) : List Char :=
  if c = Char.ofNat 39 then [Char.ofNat 39, Char.ofNat 92, Char.ofNat 39, Char.ofNat 39]
  else [c]

/-- The name is one that `IsFuncLine` reads from some line. -/
def IsProcName (ops : Ops) (name : String) : Prop :=
  ∃ line lb, ops.IsFuncLine line = some (name, lb)

/-- The argument map of the item holds, for every argument of the item of the form
`key=value`, that value for the key. For a promoted item it does unless a later argument
has the same key and another value. -/
def CommandItem.KeepsValues (item : CommandItem) : Prop :=
  ∀ arg ∈ item.shellArgs_, ∀ kv ∈ regexMatchKeyValue arg, item.procArgs_.find kv.1 = some kv.2

instance (item : CommandItem) : Decidable item.KeepsValues :=
  inferInstanceAs (Decidable (∀ arg ∈ item.shellArgs_, ∀ kv ∈ regexMatchKeyValue arg,
    item.procArgs_.find kv.1 = some kv.2))

/-- The pipeline of `fileRepeatedKey` after `Load` and `FinalCheckAfterLoad`. -/
def pipelineRepeatedKey : Pipeline := (loadLines fileRepeatedKey).pipeline.FinalCheckAfterLoad

/-- A top-level command whose program name is the quoted word `include`. -/
def fileQuotedInclude : List String :=
  [String.mk [Char.ofNat 39] ++ "include" ++ String.mk [Char.ofNat 39] ++ " x"]

/-- The pipeline of `fileQuotedInclude` after `Load` and `FinalCheckAfterLoad`. -/
def pipelineQuotedInclude : Pipeline :=
  (loadLines fileQuotedInclude).pipeline.FinalCheckAfterLoad

/-- A file system holding the text saved for scenario 4 as `saved.pipe` and, next to it, a
sidecar configuration file with an include line in it. -/
def savedWithBadSidecar : FileSystem :=
  { content := fun path =>
      if path = "saved.pipe" then some (pipelineScenario4.Save specOps)
      else if path = "saved.pipe.conf" then some confWithInclude
      else none
    CheckFileExists := fun path => path = "saved.pipe" ∨ path = "saved.pipe.conf" }

/-! ## Properties of the map operations -/

theorem StrMap.find_insert_self {V : Type} (m : StrMap V) (k : String) (v : V) :
    (m.insert k v).find k = some v := by
  induction m with
  | nil => simp [StrMap.insert, StrMap.find]
  | cons hd tl ih =>
    obtain ⟨k', v'⟩ := hd
    unfold StrMap.insert
    by_cases h1 : k.data < k'.data
    · simp [h1, StrMap.find]
    · by_cases h2 : k = k'
      · simp [h1, h2, StrMap.find]
      · simp [h1, h2, StrMap.find, ih]

theorem StrMap.find_insert_of_ne {V : Type} (m : StrMap V) (k k1 : String) (v : V)
    (h : k1 ≠ k) : (m.insert k v).find k1 = m.find k1 := by
  induction m with
  | nil => simp [StrMap.insert, StrMap.find, h]
  | cons hd tl ih =>
    obtain ⟨k', v'⟩ := hd
    unfold StrMap.insert
    by_cases h1 : k.data < k'.data
    · simp [h1, StrMap.find, h]
    · by_cases h2 : k = k'
      · subst h2
        simp [h1, StrMap.find, h]
      · simp [h1, h2, StrMap.find, ih]

theorem StrMap.contains_insert {V : Type} (m : StrMap V) (k k1 : String) (v : V) :
    (m.insert k v).contains k1 = (decide (k1 = k) || m.contains k1) := by
  unfold StrMap.contains
  by_cases h : k1 = k
  · subst h
    simp [StrMap.find_insert_self]
  · simp [StrMap.find_insert_of_ne m k k1 v h, h]

/-! ## Properties of `FinalCheckAfterLoad` -/

theorem parseProcArgs_eq_none (args : List String) (m : StrMap String) (o : List String)
    (h : ∃ arg ∈ args, regexMatchKeyValue arg = none) : parseProcArgs args m o = none := by
  induction args generalizing m o with
  | nil => simp at h
  | cons a rest ih =>
    unfold parseProcArgs
    cases ha : regexMatchKeyValue a with
    | none => rfl
    | some kv =>
      obtain ⟨key, value⟩ := kv
      simp only
      apply ih
      obtain ⟨arg, harg, hnone⟩ := h
      rcases List.mem_cons.mp harg with rfl | hmem
      · rw [ha] at hnone
        cases hnone
      · exact ⟨arg, hmem, hnone⟩

theorem parseProcArgs_eq_some (args : List String) (m : StrMap String) (o : List String)
    (h : ∀ arg ∈ args, (regexMatchKeyValue arg).isSome = true) :
    ∃ m1, parseProcArgs args m o =
      some (m1, o ++ args.filterMap fun arg => (regexMatchKeyValue arg).map Prod.fst) := by
  induction args generalizing m o with
  | nil => exact ⟨m, by simp [parseProcArgs]⟩
  | cons a rest ih =>
    have ha := h a (List.mem_cons_self a rest)
    cases hm : regexMatchKeyValue a with
    | none => simp [hm] at ha
    | some kv =>
      obtain ⟨key, value⟩ := kv
      obtain ⟨m1, hm1⟩ := ih (m.insert key value) (o ++ [key])
        (fun arg harg => h arg (List.mem_cons_of_mem a harg))
      refine ⟨m1, ?_⟩
      unfold parseProcArgs
      simp [hm, hm1]

theorem parseProcArgs_none_iff (args : List String) (m : StrMap String) (o : List String) :
    parseProcArgs args m o = none ↔ ∃ arg ∈ args, regexMatchKeyValue arg = none := by
  constructor
  · intro hnone
    by_contra hno
    have hall : ∀ arg ∈ args, (regexMatchKeyValue arg).isSome = true := by
      intro arg harg
      cases hr : regexMatchKeyValue arg with
      | none => exact absurd ⟨arg, harg, hr⟩ hno
      | some kv => rfl
    obtain ⟨m1, hm1⟩ := parseProcArgs_eq_some args m o hall
    rw [hnone] at hm1
    cases hm1
  · exact parseProcArgs_eq_none args m o

theorem parseProcArgs_find (args : List String) (m : StrMap String) (o : List String)
    (m1 : StrMap String) (o1 : List String) (h : parseProcArgs args m o = some (m1, o1)) :
    (∀ key, (∀ a ∈ args, ∀ v, regexMatchKeyValue a ≠ some (key, v)) →
        m1.find key = m.find key) ∧
    (∀ pre arg post key value, args = pre ++ arg :: post →
        regexMatchKeyValue arg = some (key, value) →
        (∀ a ∈ post, ∀ v, regexMatchKeyValue a ≠ some (key, v)) →
        m1.find key = some value) := by
  induction args generalizing m o with
  | nil =>
    simp only [parseProcArgs, Option.some.injEq, Prod.mk.injEq] at h
    obtain ⟨rfl, rfl⟩ := h
    refine ⟨fun _ _ => rfl, ?_⟩
    intro pre arg post key value hsplit
    simp at hsplit
  | cons a rest ih =>
    unfold parseProcArgs at h
    cases ha : regexMatchKeyValue a with
    | none => simp [ha] at h
    | some kv =>
      obtain ⟨k, v⟩ := kv
      simp only [ha] at h
      obtain ⟨ih1, ih2⟩ := ih (m.insert k v) (o ++ [k]) h
      constructor
      · intro key hkey
        rw [ih1 key (fun b hb w => hkey b (List.mem_cons_of_mem a hb) w)]
        apply StrMap.find_insert_of_ne
        intro hkk
        subst hkk
        exact hkey a (List.mem_cons_self a rest) v ha
      · intro pre arg post key value hsplit harg hpost
        cases pre with
        | nil =>
          simp only [List.nil_append, List.cons.injEq] at hsplit
          obtain ⟨rfl, rfl⟩ := hsplit
          rw [ha] at harg
          simp only [Option.some.injEq, Prod.mk.injEq] at harg
          obtain ⟨rfl, rfl⟩ := harg
          rw [ih1 k hpost]
          exact StrMap.find_insert_self m k v
        | cons b pre1 =>
          simp only [List.cons_append, List.cons.injEq] at hsplit
          obtain ⟨rfl, hrest⟩ := hsplit
          exact ih2 pre1 arg post key value hrest harg hpost

theorem finalCheckItem_idem (procList : StrMap Procedure) (item : CommandItem) :
    finalCheckItem procList (finalCheckItem procList item) = finalCheckItem procList item := by
  unfold finalCheckItem
  by_cases ht : item.type_ = CommandType.TYPE_SHELL
  · by_cases hp : procList.contains item.shellCmd_ = true
    · cases hargs : parseProcArgs item.shellArgs_ [] [] with
      | none => simp [ht, hp, hargs]
      | some r => simp [ht, hp, hargs]
    · simp [ht, hp]
  · simp [ht]

theorem FinalCheckAfterLoad_procList (p : Pipeline) :
    p.FinalCheckAfterLoad.procList_ = p.procList_ := rfl

theorem FinalCheckAfterLoad_itemAt (p : Pipeline) (i j : Nat) :
    p.FinalCheckAfterLoad.itemAt i j = (p.itemAt i j).map (finalCheckItem p.procList_) := by
  unfold Pipeline.itemAt Pipeline.FinalCheckAfterLoad
  simp only [List.getElem?_map]
  cases p.blockList_[i]? with
  | none => rfl
  | some b => simp [List.getElem?_map]

/-- C1: `FinalCheckAfterLoad` is idempotent: on every pipeline (any procedure map, any block
pool), running it twice gives exactly the pipeline that running it once gives. -/
theorem C1_FinalCheckAfterLoad_idempotent (p : Pipeline) :
    p.FinalCheckAfterLoad.FinalCheckAfterLoad = p.FinalCheckAfterLoad := by
  unfold Pipeline.FinalCheckAfterLoad
  simp only [List.map_map, Pipeline.mk.injEq, true_and]
  apply List.map_congr_left
  intro block _
  simp only [Function.comp_apply, List.map_map, Block.mk.injEq, and_true]
  apply List.map_congr_left
  intro item _
  exact finalCheckItem_idem p.procList_ item

theorem finalCheckItem_shell (procList : StrMap Procedure) (item0 item : CommandItem)
    (h : finalCheckItem procList item0 = item) (hs : item.type_ = CommandType.TYPE_SHELL) :
    item = item0 ∧
      (procList.contains item.shellCmd_ = false ∨
        ∃ arg ∈ item.shellArgs_, regexMatchKeyValue arg = none) := by
  unfold finalCheckItem at h
  by_cases ht : item0.type_ = CommandType.TYPE_SHELL
  · by_cases hp : procList.contains item0.shellCmd_ = true
    · cases hargs : parseProcArgs item0.shellArgs_ [] [] with
      | none =>
        simp only [ht, hp, hargs, if_true] at h
        subst h
        exact ⟨rfl, Or.inr ((parseProcArgs_none_iff _ _ _).mp hargs)⟩
      | some r =>
        simp only [ht, hp, hargs, if_true] at h
        subst h
        simp at hs
    · simp only [ht, hp, if_true] at h
      subst h
      simp only [Bool.not_eq_true] at hp
      exact ⟨rfl, Or.inl hp⟩
  · simp only [ht, if_false] at h
    subst h
    exact absurd hs ht

/-- C2 (counterexample): after loading a procedure `build` and the call `build --fast`,
`FinalCheckAfterLoad` leaves the call a shell item although `build` is a procedure. -/
theorem C2_counterexample :
    (loadLines fileBuildFast).status = none ∧
      ¬ NoShellItemNamesProcedure (loadLines fileBuildFast).pipeline.FinalCheckAfterLoad := by
  refine ⟨by decide, ?_⟩
  intro h
  have h1 := h 0 0
    { type_ := CommandType.TYPE_SHELL, cmdLine_ := "build --fast", shellCmd_ := "build"
      shellArgs_ := ["--fast"], procName_ := "", procArgs_ := [], procArgsOrder_ := [] }
    (by decide) rfl
  revert h1
  decide

/-- C2 (amended): after `FinalCheckAfterLoad`, every item still classified as a shell item
either has a program name that is no procedure name, or has an argument that is not of the
form `key=value`. -/
theorem C2_shell_item_unresolvable (p : Pipeline) (i j : Nat) (item : CommandItem)
    (h : p.FinalCheckAfterLoad.itemAt i j = some item)
    (hs : item.type_ = CommandType.TYPE_SHELL) :
    p.FinalCheckAfterLoad.HasProcedure item.shellCmd_ = false ∨
      ∃ arg ∈ item.shellArgs_, regexMatchKeyValue arg = none := by
  rw [FinalCheckAfterLoad_itemAt] at h
  cases h0 : p.itemAt i j with
  | none => simp [h0] at h
  | some item0 =>
    simp only [h0, Option.map_some', Option.some.injEq] at h
    exact (finalCheckItem_shell p.procList_ item0 item h hs).2

/-- Witness of C2 (amended): the call `build --fast` of the loaded procedure `build` stays a
shell item, and its argument `--fast` is not of the form `key=value`. -/
theorem C2_shell_item_unresolvable_witness :
    (loadLines fileBuildFast).pipeline.FinalCheckAfterLoad.itemAt 0 0 =
        some { type_ := CommandType.TYPE_SHELL, cmdLine_ := "build --fast", shellCmd_ := "build"
               shellArgs_ := ["--fast"], procName_ := "", procArgs_ := []
               procArgsOrder_ := [] } ∧
      ((loadLines fileBuildFast).pipeline.FinalCheckAfterLoad.HasProcedure "build" = false ∨
        ∃ arg ∈ ["--fast"], regexMatchKeyValue arg = none) :=
  ⟨by decide,
   C2_shell_item_unresolvable (loadLines fileBuildFast).pipeline 0 0
     { type_ := CommandType.TYPE_SHELL, cmdLine_ := "build --fast", shellCmd_ := "build"
       shellArgs_ := ["--fast"], procName_ := "", procArgs_ := [], procArgsOrder_ := [] }
     (by decide) rfl⟩

theorem regexMatchKeyValue_iff (arg key value : String) :
    regexMatchKeyValue arg = some (key, value) ↔ KeyValueForm arg key value := by
  unfold regexMatchKeyValue KeyValueForm
  constructor
  · intro h
    have hsplit := List.takeWhile_append_dropWhile isWordChar arg.data
    cases hd : arg.data.dropWhile isWordChar with
    | nil => simp [hd] at h
    | cons c rest =>
      rw [hd] at h hsplit
      by_cases hc : c = '='
      · subst hc
        simp only at h
        split at h
        · rename_i hcond
          simp only [Option.some.injEq, Prod.mk.injEq] at h
          obtain ⟨rfl, rfl⟩ := h
          refine ⟨?_, ?_, ?_, ?_⟩
          · apply String.ext
            simp only [String.data_append]
            refine hsplit.symm.trans ?_
            simp
          · intro hk
            apply hcond.1
            have := congrArg String.data hk
            simpa using this
          · intro c hc
            exact (List.mem_takeWhile_imp hc)
          · intro c hc
            have := List.all_eq_true.mp hcond.2 c hc
            simpa using this
        · cases h
      · split at h
        · rename_i heq
          simp only [List.cons.injEq] at heq
          exact absurd heq.1 hc
        · cases h
  · rintro ⟨harg, hne, hkey, hval⟩
    have hdata : arg.data = key.data ++ '=' :: value.data := by
      rw [harg]
      simp only [String.data_append]
      simp
    have htake : arg.data.takeWhile isWordChar = key.data := by
      rw [hdata, List.takeWhile_append_of_pos hkey]
      simp [List.takeWhile, show isWordChar '=' = false by decide]
    have hdrop : arg.data.dropWhile isWordChar = '=' :: value.data := by
      rw [hdata, List.dropWhile_append_of_pos hkey]
      simp [List.dropWhile, show isWordChar '=' = false by decide]
    rw [hdrop, htake]
    have hk : key.data ≠ [] := by
      intro hk
      apply hne
      apply String.ext
      simpa using hk
    have hv : (value.data.all fun c => !isLineTerminator c) = true := by
      rw [List.all_eq_true]
      intro c hc
      simp [hval c hc]
    simp [hk, hv]

theorem KeyValueForm_key_no_eq (arg key value : String) (h : KeyValueForm arg key value) :
    '=' ∉ key.data := by
  intro hmem
  have := h.2.2.1 '=' hmem
  revert this
  decide

theorem keys_forall₂ (args : List String)
    (h : ∀ arg ∈ args, (regexMatchKeyValue arg).isSome = true) :
    List.Forall₂ (fun arg key => ∃ value, KeyValueForm arg key value) args
      (args.filterMap fun arg => (regexMatchKeyValue arg).map Prod.fst) := by
  induction args with
  | nil => exact List.Forall₂.nil
  | cons a rest ih =>
    have ha := h a (List.mem_cons_self a rest)
    cases hm : regexMatchKeyValue a with
    | none => simp [hm] at ha
    | some kv =>
      obtain ⟨key, value⟩ := kv
      simp only [List.filterMap_cons, hm, Option.map_some']
      exact List.Forall₂.cons ⟨value, (regexMatchKeyValue_iff a key value).mp hm⟩
        (ih fun arg harg => h arg (List.mem_cons_of_mem a harg))

/-- C3 (counterexample): with a procedure `build`, the call `build a=1 b=2 a=3` is
resolvable and is promoted, but the key `a` of its first argument `a=1` is mapped to `3`,
not to its value `1`: the map keeps one value per key, that of the last argument. -/
theorem C3_counterexample :
    (loadLines fileRepeatedKey).status = none ∧
    (loadLines fileRepeatedKey).pipeline.itemAt 0 0 =
      some (CommandItem.mkShell specOps "build" ["a=1", "b=2", "a=3"] "") ∧
    (loadLines fileRepeatedKey).pipeline.HasProcedure "build" = true ∧
    (∀ arg ∈ ["a=1", "b=2", "a=3"], (regexMatchKeyValue arg).isSome = true) ∧
    (loadLines fileRepeatedKey).pipeline.FinalCheckAfterLoad.itemAt 0 0 =
      some { CommandItem.mkShell specOps "build" ["a=1", "b=2", "a=3"] "" with
             type_ := CommandType.TYPE_PROC, procName_ := "build"
             procArgs_ := [("a", "3"), ("b", "2")], procArgsOrder_ := ["a", "b", "a"] } ∧
    KeyValueForm "a=1" "a" "1" ∧
    ¬ MapsEachKeyToItsValue (CommandItem.mkShell specOps "build" ["a=1", "b=2", "a=3"] "")
        { CommandItem.mkShell specOps "build" ["a=1", "b=2", "a=3"] "" with
          type_ := CommandType.TYPE_PROC, procName_ := "build"
          procArgs_ := [("a", "3"), ("b", "2")], procArgsOrder_ := ["a", "b", "a"] } := by
  have hform : KeyValueForm "a=1" "a" "1" :=
    (regexMatchKeyValue_iff "a=1" "a" "1").mp (by decide)
  refine ⟨by decide, by decide, by decide, by decide, by decide, hform, ?_⟩
  intro h
  have h1 := h "a=1" (by decide) "a" "1" hform
  revert h1
  decide

/-- C3 (amended): `FinalCheckAfterLoad` promotes exactly the resolvable calls. For a shell
item at any position of any block: if its program name is a procedure name and every
argument has the form `key=value`, the item at that position becomes a procedure call whose
`procName_` is the program name, whose key list has one key per argument, in the order of
the arguments, and whose map binds each key to the value of the last argument carrying that
key (so to the value of the argument itself when no later argument repeats its key); if the
program name is no procedure name, or some argument is not of that form, the item is left
as it was. Only the final procedure map is consulted, so the order of definition and call in
the file plays no role. -/
theorem C3_promotes_exactly_resolvable (p : Pipeline) (i j : Nat) (item : CommandItem)
    (hitem : p.itemAt i j = some item) (hshell : item.type_ = CommandType.TYPE_SHELL) :
    ((p.HasProcedure item.shellCmd_ = true ∧
        ∀ arg ∈ item.shellArgs_, ∃ key value, KeyValueForm arg key value) →
      ∃ r, p.FinalCheckAfterLoad.itemAt i j = some r ∧
        r.type_ = CommandType.TYPE_PROC ∧ r.procName_ = item.shellCmd_ ∧
        List.Forall₂ (fun arg key => ∃ value, KeyValueForm arg key value)
          item.shellArgs_ r.procArgsOrder_ ∧
        ∀ pre arg post key value, item.shellArgs_ = pre ++ arg :: post →
          KeyValueForm arg key value → (∀ a ∈ post, ∀ v, ¬ KeyValueForm a key v) →
          r.procArgs_.find key = some value) ∧
    ((p.HasProcedure item.shellCmd_ = false ∨
        ∃ arg ∈ item.shellArgs_, ∀ key value, ¬ KeyValueForm arg key value) →
      p.FinalCheckAfterLoad.itemAt i j = some item) := by
  rw [FinalCheckAfterLoad_itemAt, hitem]
  simp only [Option.map_some', Option.some.injEq]
  unfold Pipeline.HasProcedure
  constructor
  · rintro ⟨hproc, hargs⟩
    have hall : ∀ arg ∈ item.shellArgs_, (regexMatchKeyValue arg).isSome = true := by
      intro arg harg
      obtain ⟨key, value, hkv⟩ := hargs arg harg
      rw [(regexMatchKeyValue_iff arg key value).mpr hkv]
      rfl
    obtain ⟨m1, hm1⟩ := parseProcArgs_eq_some item.shellArgs_ [] [] hall
    refine ⟨_, rfl, ?_⟩
    unfold finalCheckItem
    simp only [hshell, hproc, hm1, if_true, List.nil_append, true_and]
    refine ⟨keys_forall₂ item.shellArgs_ hall, ?_⟩
    intro pre arg post key value hsplit hkv hpost
    refine (parseProcArgs_find item.shellArgs_ [] [] m1 _ hm1).2 pre arg post key value hsplit
      ((regexMatchKeyValue_iff arg key value).mpr hkv) ?_
    intro a ha v hv
    exact hpost a ha v ((regexMatchKeyValue_iff a key v).mp hv)
  · intro h
    unfold finalCheckItem
    rcases h with hno | ⟨arg, harg, hform⟩
    · simp [hshell, hno]
    · have hnone : parseProcArgs item.shellArgs_ [] [] = none := by
        apply parseProcArgs_eq_none
        refine ⟨arg, harg, ?_⟩
        cases hr : regexMatchKeyValue arg with
        | none => rfl
        | some kv =>
          exact absurd ((regexMatchKeyValue_iff arg kv.1 kv.2).mp hr) (hform kv.1 kv.2)
      simp [hshell, hnone]

/-- Witness of C3 (amended): the call `build name=pkg opts=-O2`, loaded before the definition of
`build`, is promoted with the keys `name`, `opts` and the values `pkg`, `-O2`. -/
theorem C3_promotes_exactly_resolvable_witness :
    ((loadLines fileCallBeforeDef).pipeline.itemAt 0 0 = some itemBuildCall ∧
      itemBuildCall.type_ = CommandType.TYPE_SHELL) ∧
    (((loadLines fileCallBeforeDef).pipeline.HasProcedure itemBuildCall.shellCmd_ = true ∧
        ∀ arg ∈ itemBuildCall.shellArgs_, ∃ key value, KeyValueForm arg key value) →
      ∃ r, (loadLines fileCallBeforeDef).pipeline.FinalCheckAfterLoad.itemAt 0 0 = some r ∧
        r.type_ = CommandType.TYPE_PROC ∧ r.procName_ = itemBuildCall.shellCmd_ ∧
        List.Forall₂ (fun arg key => ∃ value, KeyValueForm arg key value)
          itemBuildCall.shellArgs_ r.procArgsOrder_ ∧
        ∀ pre arg post key value, itemBuildCall.shellArgs_ = pre ++ arg :: post →
          KeyValueForm arg key value → (∀ a ∈ post, ∀ v, ¬ KeyValueForm a key v) →
          r.procArgs_.find key = some value) ∧
    (((loadLines fileCallBeforeDef).pipeline.HasProcedure itemBuildCall.shellCmd_ = false ∨
        ∃ arg ∈ itemBuildCall.shellArgs_, ∀ key value, ¬ KeyValueForm arg key value) →
      (loadLines fileCallBeforeDef).pipeline.FinalCheckAfterLoad.itemAt 0 0 =
        some itemBuildCall) ∧
    (loadLines fileCallBeforeDef).pipeline.FinalCheckAfterLoad.itemAt 0 0 =
      some { itemBuildCall with
             type_ := CommandType.TYPE_PROC, procName_ := "build"
             procArgs_ := [("name", "pkg"), ("opts", "-O2")]
             procArgsOrder_ := ["name", "opts"] } :=
  ⟨⟨by decide, rfl⟩,
   (C3_promotes_exactly_resolvable (loadLines fileCallBeforeDef).pipeline 0 0 itemBuildCall
      (by decide) rfl).1,
   (C3_promotes_exactly_resolvable (loadLines fileCallBeforeDef).pipeline 0 0 itemBuildCall
      (by decide) rfl).2,
   by decide⟩

/-! ## Properties of the loader -/

theorem LoadBlock_first_bracket (ops : Ops) (pre : List String) (line : String)
    (post : List String) (block : Block) (parallel : Bool) (rb : String)
    (hpre : ∀ l ∈ pre, ops.IsRightBracket l = none) (hline : ops.IsRightBracket line = some rb) :
    ∃ block1, LoadBlock ops (pre ++ line :: post) block parallel =
      (if (!parallel && rb == "\x7d\x7d") || (parallel && rb == "\x7d") then
        some LoadError.unexpectedRightBracket else none, block1, post) := by
  induction pre generalizing block with
  | nil =>
    refine ⟨block, ?_⟩
    simp only [List.nil_append, LoadBlock, hline]
    by_cases h1 : (!parallel && rb == "\x7d\x7d") = true
    · simp [h1]
    · by_cases h2 : (parallel && rb == "\x7d") = true
      · simp [h1, h2]
      · simp [h1, h2]
  | cons a pre1 ih =>
    have ha := hpre a (List.mem_cons_self a pre1)
    obtain ⟨block1, h1⟩ := ih (block.AppendCommand ops a).2
      (fun l hl => hpre l (List.mem_cons_of_mem a hl))
    refine ⟨block1, ?_⟩
    simp only [List.cons_append, LoadBlock, ha]
    exact h1

/-- C8: the closing bracket must match the kind of the block. When the first right-bracket
line `LoadBlock` meets is `}}`, a serial block (`parallel = false`) fails; when it is `}`, a
parallel block fails; when it is `}` for a serial block or `}}` for a parallel one,
`LoadBlock` succeeds and the lines after the bracket are left unread. -/
theorem C8_closing_bracket_matches_kind (ops : Ops) (pre : List String) (line : String)
    (post : List String) (block : Block) (rb : String)
    (hpre : ∀ l ∈ pre, ops.IsRightBracket l = none) (hline : ops.IsRightBracket line = some rb) :
    (rb = "\x7d\x7d" →
      (LoadBlock ops (pre ++ line :: post) block false).1 =
        some LoadError.unexpectedRightBracket) ∧
    (rb = "\x7d" →
      (LoadBlock ops (pre ++ line :: post) block true).1 =
        some LoadError.unexpectedRightBracket) ∧
    (rb = "\x7d" →
      (LoadBlock ops (pre ++ line :: post) block false).1 = none ∧
        (LoadBlock ops (pre ++ line :: post) block false).2.2 = post) ∧
    (rb = "\x7d\x7d" →
      (LoadBlock ops (pre ++ line :: post) block true).1 = none ∧
        (LoadBlock ops (pre ++ line :: post) block true).2.2 = post) := by
  obtain ⟨b1, h1⟩ := LoadBlock_first_bracket ops pre line post block false rb hpre hline
  obtain ⟨b2, h2⟩ := LoadBlock_first_bracket ops pre line post block true rb hpre hline
  rw [h1, h2]
  refine ⟨?_, ?_, ?_, ?_⟩ <;> intro hrb <;> subst hrb <;> simp

/-- Witness of C8: a block whose first right bracket is the line `}}`, and scenario 5 of the
specification run through `Load`. -/
theorem C8_closing_bracket_matches_kind_witness :
    ((∀ l ∈ ["echo x"], specOps.IsRightBracket l = none) ∧
      specOps.IsRightBracket "\x7d\x7d" = some "\x7d\x7d") ∧
    (("\x7d\x7d" = "\x7d\x7d" →
      (LoadBlock specOps (["echo x"] ++ "\x7d\x7d" :: ["echo y"]) Block.empty false).1 =
        some LoadError.unexpectedRightBracket) ∧
    ("\x7d\x7d" = "\x7d" →
      (LoadBlock specOps (["echo x"] ++ "\x7d\x7d" :: ["echo y"]) Block.empty true).1 =
        some LoadError.unexpectedRightBracket) ∧
    ("\x7d\x7d" = "\x7d" →
      (LoadBlock specOps (["echo x"] ++ "\x7d\x7d" :: ["echo y"]) Block.empty false).1 = none ∧
        (LoadBlock specOps (["echo x"] ++ "\x7d\x7d" :: ["echo y"]) Block.empty false).2.2 =
          ["echo y"]) ∧
    ("\x7d\x7d" = "\x7d\x7d" →
      (LoadBlock specOps (["echo x"] ++ "\x7d\x7d" :: ["echo y"]) Block.empty true).1 = none ∧
        (LoadBlock specOps (["echo x"] ++ "\x7d\x7d" :: ["echo y"]) Block.empty true).2.2 =
          ["echo y"])) ∧
    (loadLines fileBracketMismatch).status = some LoadError.unexpectedRightBracket :=
  ⟨⟨by decide, by decide⟩,
   C8_closing_bracket_matches_kind specOps ["echo x"] "\x7d\x7d" ["echo y"] Block.empty
     "\x7d\x7d" (by decide) (by decide),
   by decide⟩

/-- C6 (the code at the failing input): a command line with an unterminated quote is refused
by the tokenizer and makes `Load` fail at top level, but inside a procedure body `Load`
returns success and the line is dropped from the block. -/
theorem C6_bad_line_in_body_is_accepted :
    specOps.ParseCommandLine ("echo " ++ String.mk [Char.ofNat 39] ++ "x") = none ∧
    (loadLines ["echo " ++ String.mk [Char.ofNat 39] ++ "x"]).status =
      some LoadError.commandLine ∧
    (loadLines fileBadQuoteInBody).status = none ∧
    (loadLines fileBadQuoteInBody).pipeline =
      { procList_ := [("f", { name_ := "f", blockIndex_ := 1 })]
        blockList_ := [Block.empty, Block.empty] } := by
  decide

/-- C9 (the code at the failing input): the top-level variable line `A=1` is recorded in the
configuration map and is also appended to block 0 as a command item. -/
theorem C9_variable_line_becomes_command :
    specOps.IsVarLine "A=1" = some ("A", "1") ∧
    (loadLines ["A=1"]).status = none ∧
    (loadLines ["A=1"]).confMap = [("A", "1")] ∧
    (loadLines ["A=1"]).pipeline.blockList_ =
      [{ items_ := [CommandItem.mkShell specOps "A=1" [] ""], parallel_ := false }] := by
  decide

theorem ReadLeftBracket_length (ops : Ops) (lines : List String) (lb : String) :
    (ReadLeftBracket ops lines lb).2.2.length ≤ lines.length := by
  induction lines with
  | nil => simp [ReadLeftBracket]
  | cons line rest ih =>
    unfold ReadLeftBracket
    split
    · exact Nat.le_succ_of_le ih
    · split
      · split
        · simp
        · exact Nat.le_succ_of_le ih
      · split <;> simp

theorem LoadBlock_length (ops : Ops) (lines : List String) (block : Block) (parallel : Bool) :
    (LoadBlock ops lines block parallel).2.2.length ≤ lines.length := by
  induction lines generalizing block with
  | nil => simp [LoadBlock]
  | cons line rest ih =>
    unfold LoadBlock
    split
    · split
      · simp
      · split <;> simp
    · exact Nat.le_succ_of_le (ih _)

theorem LoadProc_cases (ops : Ops) (p : Pipeline) (lines : List String) (name lb : String) :
    (∃ e rest, LoadProc ops p lines name lb = (some e, p, rest)) ∨
    (∃ block rest, LoadProc ops p lines name lb =
      (none,
        { procList_ := p.procList_.insert name { name_ := name, blockIndex_ := p.blockList_.length }
          blockList_ := p.blockList_ ++ [block] },
        rest)) := by
  unfold LoadProc
  split
  · exact Or.inl ⟨_, _, rfl⟩
  · split
    · exact Or.inl ⟨_, _, rfl⟩
    · exact Or.inr ⟨_, _, rfl⟩

theorem LoadProc_length (ops : Ops) (p : Pipeline) (lines : List String) (name lb : String) :
    (LoadProc ops p lines name lb).2.2.length ≤ lines.length := by
  unfold LoadProc
  have h1 : (if lb = "" then ReadLeftBracket ops lines lb else (none, lb, lines)).2.2.length ≤
      lines.length := by
    split
    · exact ReadLeftBracket_length ops lines lb
    · simp
  split
  · rename_i e x lines1 heq
    rw [heq] at h1
    exact h1
  · rename_i lb1 lines1 heq
    rw [heq] at h1
    have h2 := LoadBlock_length ops lines1 Block.empty (lb1 == "\x7b\x7b")
    split
    · rename_i e x lines2 heq2
      rw [heq2] at h2
      exact le_trans h2 h1
    · rename_i block lines2 heq2
      rw [heq2] at h2
      exact le_trans h2 h1

/-- The ways a turn of the loop of `Load` goes on to the next turn. -/
theorem loadLine_next_cases (ops : Ops) (fs : FileSystem) (filename : String) (st : LoadState)
    (line : String) (rest : List String) (st1 : LoadState) (rest1 : List String)
    (h : loadLine ops fs filename st line rest = LoadStep.next st1 rest1) :
    (st1 = st ∧ rest1 = rest ∧ (ops.IsEmptyLine line = true ∨ ops.IsCommentLine line = true)) ∨
    (∃ inc confMap, ops.IsEmptyLine line = false ∧ ops.IsCommentLine line = false ∧
      ops.IsIncLine line = some inc ∧
      LoadConf ops fs (ops.DirName filename ++ "/" ++ inc) st.confMap = (none, confMap) ∧
      st1 = { st with confMap := confMap } ∧ rest1 = rest) ∨
    (∃ name lb pipeline, ops.IsEmptyLine line = false ∧ ops.IsCommentLine line = false ∧
      ops.IsIncLine line = none ∧ ops.IsFuncLine line = some (name, lb) ∧
      st.procAtLineNo.contains name = false ∧
      LoadProc ops st.pipeline rest name lb = (none, pipeline, rest1) ∧
      st1 = { pipeline := pipeline, confMap := recordVarLine ops st.confMap line
              procAtLineNo := st.procAtLineNo.insert name () }) ∨
    (∃ pipeline, ops.IsEmptyLine line = false ∧ ops.IsCommentLine line = false ∧
      ops.IsIncLine line = none ∧ ops.IsFuncLine line = none ∧
      st.pipeline.appendDefault ops line = (true, pipeline) ∧
      st1 = { st with pipeline := pipeline, confMap := recordVarLine ops st.confMap line } ∧
      rest1 = rest) := by
  unfold loadLine at h
  cases he : ops.IsEmptyLine line with
  | true =>
    simp only [he, ↓reduceIte, LoadStep.next.injEq] at h
    exact Or.inl ⟨h.1.symm, h.2.symm, Or.inl rfl⟩
  | false =>
    cases hc : ops.IsCommentLine line with
    | true =>
      simp only [he, hc, Bool.false_eq_true, ↓reduceIte, LoadStep.next.injEq] at h
      exact Or.inl ⟨h.1.symm, h.2.symm, Or.inr rfl⟩
    | false =>
      simp only [he, hc, Bool.false_eq_true, ↓reduceIte] at h
      cases hi : ops.IsIncLine line with
      | some inc =>
        simp only [hi] at h
        cases hconf : LoadConf ops fs (ops.DirName filename ++ "/" ++ inc) st.confMap with
        | mk r confMap =>
          cases r with
          | some e => simp [hconf] at h
          | none =>
            simp only [hconf, LoadStep.next.injEq] at h
            refine Or.inr (Or.inl ⟨inc, confMap, ?_, ?_, ?_, ?_, ?_, ?_⟩)
            all_goals first | rfl | assumption | exact h.1.symm | exact h.2.symm
      | none =>
        simp only [hi] at h
        cases hf : ops.IsFuncLine line with
        | some nb =>
          obtain ⟨name, lb⟩ := nb
          simp only [hf] at h
          cases hd : st.procAtLineNo.contains name with
          | true => simp [hd] at h
          | false =>
            simp only [hd, Bool.false_eq_true, ↓reduceIte] at h
            cases hp : LoadProc ops st.pipeline rest name lb with
            | mk r x =>
              obtain ⟨pipeline, rest2⟩ := x
              cases r with
              | some e => simp [hp] at h
              | none =>
                simp only [hp, LoadStep.next.injEq] at h
                obtain ⟨h1, h2⟩ := h
                subst h2
                refine Or.inr (Or.inr (Or.inl ⟨name, lb, pipeline, ?_, ?_, ?_, ?_, ?_, ?_, ?_⟩))
                all_goals first | rfl | assumption | exact h1.symm
        | none =>
          simp only [hf] at h
          cases ha : st.pipeline.appendDefault ops line with
          | mk b pipeline =>
            cases b with
            | false => simp [ha] at h
            | true =>
              simp only [ha, LoadStep.next.injEq] at h
              refine Or.inr (Or.inr (Or.inr ⟨pipeline, ?_, ?_, ?_, ?_, ?_, ?_, ?_⟩))
              all_goals first | rfl | assumption | exact h.1.symm | exact h.2.symm

/-- The ways a turn of the loop of `Load` returns `false`. -/
theorem loadLine_stop_cases (ops : Ops) (fs : FileSystem) (filename : String) (st : LoadState)
    (line : String) (rest : List String) (e : LoadError) (st1 : LoadState)
    (h : loadLine ops fs filename st line rest = LoadStep.stop e st1) :
    (∃ inc confMap, ops.IsEmptyLine line = false ∧ ops.IsCommentLine line = false ∧
      ops.IsIncLine line = some inc ∧
      LoadConf ops fs (ops.DirName filename ++ "/" ++ inc) st.confMap = (some e, confMap) ∧
      st1 = { st with confMap := confMap }) ∨
    (∃ name lb, ops.IsEmptyLine line = false ∧ ops.IsCommentLine line = false ∧
      ops.IsIncLine line = none ∧ ops.IsFuncLine line = some (name, lb) ∧
      st.procAtLineNo.contains name = true ∧ e = LoadError.duplicatedProcedure ∧
      st1 = { st with confMap := recordVarLine ops st.confMap line }) ∨
    (∃ name lb pipeline rest1, ops.IsEmptyLine line = false ∧ ops.IsCommentLine line = false ∧
      ops.IsIncLine line = none ∧ ops.IsFuncLine line = some (name, lb) ∧
      st.procAtLineNo.contains name = false ∧
      LoadProc ops st.pipeline rest name lb = (some e, pipeline, rest1) ∧
      st1 = { pipeline := pipeline, confMap := recordVarLine ops st.confMap line
              procAtLineNo := st.procAtLineNo.insert name () }) ∨
    (∃ pipeline, ops.IsEmptyLine line = false ∧ ops.IsCommentLine line = false ∧
      ops.IsIncLine line = none ∧ ops.IsFuncLine line = none ∧
      st.pipeline.appendDefault ops line = (false, pipeline) ∧ e = LoadError.commandLine ∧
      st1 = { st with pipeline := pipeline, confMap := recordVarLine ops st.confMap line }) := by
  unfold loadLine at h
  cases he : ops.IsEmptyLine line with
  | true => simp [he] at h
  | false =>
    cases hc : ops.IsCommentLine line with
    | true => simp [he, hc] at h
    | false =>
      simp only [he, hc, Bool.false_eq_true, ↓reduceIte] at h
      cases hi : ops.IsIncLine line with
      | some inc =>
        simp only [hi] at h
        cases hconf : LoadConf ops fs (ops.DirName filename ++ "/" ++ inc) st.confMap with
        | mk r confMap =>
          cases r with
          | none => simp [hconf] at h
          | some e1 =>
            simp only [hconf, LoadStep.stop.injEq] at h
            obtain ⟨h1, h2⟩ := h
            subst h1
            refine Or.inl ⟨inc, confMap, ?_, ?_, ?_, ?_, ?_⟩
            all_goals first | rfl | assumption | exact h2.symm
      | none =>
        simp only [hi] at h
        cases hf : ops.IsFuncLine line with
        | some nb =>
          obtain ⟨name, lb⟩ := nb
          simp only [hf] at h
          cases hd : st.procAtLineNo.contains name with
          | true =>
            simp only [hd, ↓reduceIte, LoadStep.stop.injEq] at h
            refine Or.inr (Or.inl ⟨name, lb, ?_, ?_, ?_, ?_, ?_, ?_, ?_⟩)
            all_goals first | rfl | assumption | exact h.1.symm | exact h.2.symm
          | false =>
            simp only [hd, Bool.false_eq_true, ↓reduceIte] at h
            cases hp : LoadProc ops st.pipeline rest name lb with
            | mk r x =>
              obtain ⟨pipeline, rest2⟩ := x
              cases r with
              | none => simp [hp] at h
              | some e1 =>
                simp only [hp, LoadStep.stop.injEq] at h
                obtain ⟨h1, h2⟩ := h
                subst h1
                refine Or.inr (Or.inr (Or.inl
                  ⟨name, lb, pipeline, rest2, ?_, ?_, ?_, ?_, ?_, ?_, ?_⟩))
                all_goals first | rfl | assumption | exact h2.symm
        | none =>
          simp only [hf] at h
          cases ha : st.pipeline.appendDefault ops line with
          | mk b pipeline =>
            cases b with
            | true => simp [ha] at h
            | false =>
              simp only [ha, LoadStep.stop.injEq] at h
              refine Or.inr (Or.inr (Or.inr ⟨pipeline, ?_, ?_, ?_, ?_, ?_, ?_, ?_⟩))
              all_goals first | rfl | assumption | exact h.1.symm | exact h.2.symm

theorem loadLine_next_length (ops : Ops) (fs : FileSystem) (filename : String) (st : LoadState)
    (line : String) (rest : List String) (st1 : LoadState) (rest1 : List String)
    (h : loadLine ops fs filename st line rest = LoadStep.next st1 rest1) :
    rest1.length ≤ rest.length := by
  rcases loadLine_next_cases ops fs filename st line rest st1 rest1 h with
    ⟨_, h2, _⟩ | ⟨_, _, _, _, _, _, _, h2⟩ | ⟨name, lb, pipeline, _, _, _, _, _, hp, _⟩ |
    ⟨_, _, _, _, _, _, _, h2⟩
  · rw [h2]
  · rw [h2]
  · have hlen := LoadProc_length ops st.pipeline rest name lb
    rw [hp] at hlen
    exact hlen
  · rw [h2]

theorem loadLoop_fuel (ops : Ops) (fs : FileSystem) (filename : String) (n m : Nat)
    (st : LoadState) (lines : List String) (hn : lines.length ≤ n) (hm : lines.length ≤ m) :
    loadLoop ops fs filename n st lines = loadLoop ops fs filename m st lines := by
  induction n generalizing m st lines with
  | zero =>
    have hnil : lines = [] := List.length_eq_zero.mp (Nat.le_zero.mp hn)
    subst hnil
    cases m <;> simp [loadLoop]
  | succ n ih =>
    cases lines with
    | nil => cases m <;> simp [loadLoop]
    | cons line rest =>
      cases m with
      | zero => simp at hm
      | succ m =>
        simp only [loadLoop]
        cases hstep : loadLine ops fs filename st line rest with
        | next st1 rest1 =>
          have hlen := loadLine_next_length ops fs filename st line rest st1 rest1 hstep
          simp only [List.length_cons] at hn hm
          exact ih m st1 rest1 (by omega) (by omega)
        | stop e st1 => rfl

theorem StrMap.mem_insert {V : Type} (m : StrMap V) (k : String) (v : V) (entry : String × V)
    (h : entry ∈ m.insert k v) : entry = (k, v) ∨ entry ∈ m := by
  induction m with
  | nil =>
    simp only [StrMap.insert, List.mem_singleton] at h
    exact Or.inl h
  | cons hd tl ih =>
    obtain ⟨k', v'⟩ := hd
    unfold StrMap.insert at h
    by_cases h1 : k.data < k'.data
    · simp only [h1, if_true, List.mem_cons] at h
      rcases h with h | h | h
      · exact Or.inl h
      · exact Or.inr (by simp [h])
      · exact Or.inr (List.mem_cons_of_mem _ h)
    · by_cases h2 : k = k'
      · subst h2
        simp only [h1, ↓reduceIte, List.mem_cons] at h
        rcases h with h | h
        · exact Or.inl h
        · exact Or.inr (List.mem_cons_of_mem _ h)
      · simp only [h1, h2, if_false, List.mem_cons] at h
        rcases h with h | h
        · exact Or.inr (by simp [h])
        · rcases ih h with h | h
          · exact Or.inl h
          · exact Or.inr (List.mem_cons_of_mem _ h)

theorem LoadProc_fail_pipeline (ops : Ops) (p : Pipeline) (lines : List String) (name lb : String)
    (e : LoadError) (p1 : Pipeline) (rest : List String)
    (h : LoadProc ops p lines name lb = (some e, p1, rest)) : p1 = p := by
  rcases LoadProc_cases ops p lines name lb with ⟨e1, r1, h1⟩ | ⟨b, r1, h1⟩
  · rw [h1] at h
    simp only [Prod.mk.injEq] at h
    exact h.2.1.symm
  · rw [h1] at h
    simp at h

theorem appendDefault_cases (ops : Ops) (p : Pipeline) (line : String) :
    p.appendDefault ops line = (false, p) ∨
    ∃ block0 blocks cmd arguments, p.blockList_ = block0 :: blocks ∧
      ops.ParseCommandLine line = some (cmd, arguments) ∧
      p.appendDefault ops line =
        (true,
          { p with
            blockList_ :=
              { block0 with
                items_ := block0.items_ ++ [CommandItem.mkShell ops cmd arguments ""] } ::
                blocks }) := by
  unfold Pipeline.appendDefault
  cases hb : p.blockList_ with
  | nil => exact Or.inl rfl
  | cons block0 blocks =>
    simp only
    unfold Block.AppendCommand
    cases hp : ops.ParseCommandLine line with
    | none =>
      left
      simp only [Prod.mk.injEq, true_and]
      cases p
      simp only [Pipeline.mk.injEq, true_and] at hb ⊢
      exact hb.symm
    | some ca =>
      obtain ⟨cmd, arguments⟩ := ca
      exact Or.inr ⟨block0, blocks, cmd, arguments, rfl, rfl, rfl⟩

/-- A relation between pipelines that every step of the loader respects holds between the
pipeline `Load` starts its loop on and the one it leaves. -/
theorem loadLoop_rel (ops : Ops) (fs : FileSystem) (filename : String)
    (R : Pipeline → Pipeline → Prop) (hrefl : ∀ p, R p p)
    (htrans : ∀ a b c, R a b → R b c → R a c)
    (hproc : ∀ p lines name lb, R p (LoadProc ops p lines name lb).2.1)
    (happ : ∀ p line, R p (p.appendDefault ops line).2)
    (fuel : Nat) (st : LoadState) (lines : List String) :
    R st.pipeline (loadLoop ops fs filename fuel st lines).pipeline := by
  have hlast : ∀ st : LoadState, R st.pipeline
      (if fs.CheckFileExists (filename ++ ".conf") then
        match LoadConf ops fs (filename ++ ".conf") st.confMap with
        | (some e, confMap) =>
          ({ status := some e, pipeline := st.pipeline, confMap := confMap } : LoadResult)
        | (none, confMap) => { status := none, pipeline := st.pipeline, confMap := confMap }
      else { status := none, pipeline := st.pipeline, confMap := st.confMap }).pipeline := by
    intro st
    split
    · split <;> exact hrefl _
    · exact hrefl _
  induction fuel generalizing st lines with
  | zero =>
    unfold loadLoop
    exact hlast st
  | succ fuel ih =>
    cases lines with
    | nil =>
      unfold loadLoop
      exact hlast st
    | cons line rest =>
      simp only [loadLoop]
      cases hstep : loadLine ops fs filename st line rest with
      | next st1 rest1 =>
        simp only
        refine htrans _ _ _ ?_ (ih st1 rest1)
        rcases loadLine_next_cases ops fs filename st line rest st1 rest1 hstep with
          ⟨h1, _, _⟩ | ⟨_, _, _, _, _, _, h1, _⟩ | ⟨name, lb, pipeline, _, _, _, _, _, hp, h1⟩ |
          ⟨pipeline, _, _, _, _, ha, h1, _⟩
        · rw [h1]; exact hrefl _
        · rw [h1]; exact hrefl _
        · have := hproc st.pipeline rest name lb
          rw [hp] at this
          rw [h1]; exact this
        · have := happ st.pipeline line
          rw [ha] at this
          rw [h1]; exact this
      | stop e st1 =>
        simp only
        rcases loadLine_stop_cases ops fs filename st line rest e st1 hstep with
          ⟨_, _, _, _, _, _, h1⟩ | ⟨_, _, _, _, _, _, _, _, h1⟩ |
          ⟨name, lb, pipeline, rest1, _, _, _, _, _, hp, h1⟩ | ⟨pipeline, _, _, _, _, ha, _, h1⟩
        · rw [h1]; exact hrefl _
        · rw [h1]; exact hrefl _
        · have := hproc st.pipeline rest name lb
          rw [hp] at this
          rw [h1]; exact this
        · have := happ st.pipeline line
          rw [ha] at this
          rw [h1]; exact this

theorem Load_rel (ops : Ops) (fs : FileSystem) (filename : String)
    (R : Pipeline → Pipeline → Prop) (hrefl : ∀ p, R p p)
    (htrans : ∀ a b c, R a b → R b c → R a c)
    (hproc : ∀ p lines name lb, R p (LoadProc ops p lines name lb).2.1)
    (happ : ∀ p line, R p (p.appendDefault ops line).2) (p : Pipeline) :
    R p (p.Load ops fs filename).pipeline := by
  unfold Pipeline.Load
  cases fs.content filename with
  | none => exact hrefl p
  | some lines =>
    exact loadLoop_rel ops fs filename R hrefl htrans hproc happ lines.length
      { pipeline := p, confMap := [], procAtLineNo := [] } lines

theorem LoadProc_IndicesInRange (ops : Ops) (p : Pipeline) (lines : List String)
    (name lb : String) (h : p.IndicesInRange) :
    (LoadProc ops p lines name lb).2.1.IndicesInRange := by
  rcases LoadProc_cases ops p lines name lb with ⟨e1, r1, h1⟩ | ⟨b, r1, h1⟩
  · rw [h1]; exact h
  · rw [h1]
    intro entry hentry
    simp only [List.length_append, List.length_singleton]
    rcases StrMap.mem_insert _ _ _ _ hentry with heq | hmem
    · rw [heq]
      exact Nat.lt_succ_self _
    · exact Nat.lt_succ_of_lt (h entry hmem)

theorem appendDefault_IndicesInRange (ops : Ops) (p : Pipeline) (line : String)
    (h : p.IndicesInRange) : (p.appendDefault ops line).2.IndicesInRange := by
  rcases appendDefault_cases ops p line with h1 | ⟨block0, blocks, cmd, arguments, hb, _, h1⟩
  · rw [h1]; exact h
  · rw [h1]
    intro entry hentry
    have := h entry hentry
    rw [hb] at this
    exact this

theorem Load_IndicesInRange (ops : Ops) (fs : FileSystem) (filename : String) (p : Pipeline)
    (h : p.IndicesInRange) : (p.Load ops fs filename).pipeline.IndicesInRange :=
  Load_rel ops fs filename (fun a b => a.IndicesInRange → b.IndicesInRange)
    (fun _ h => h) (fun _ _ _ hab hbc h => hbc (hab h))
    (fun p lines name lb => LoadProc_IndicesInRange ops p lines name lb)
    (fun p line => appendDefault_IndicesInRange ops p line) p h

/-- C10: every procedure's block index is in range. In every pipeline that any sequence of
`Load`, `LoadProc`, `FinalCheckAfterLoad` and `SetDefaultBlock` calls makes of a fresh
pipeline (whether they succeed or fail), every procedure of the procedure map has a block
index strictly below the length of the block pool. -/
theorem C10_block_index_in_range (ops : Ops) (p : Pipeline) (h : Reachable ops p) :
    ∀ entry ∈ p.procList_, entry.2.blockIndex_ < p.blockList_.length := by
  have key : p.IndicesInRange := by
    induction h with
    | fresh =>
      intro entry hentry
      simp [Pipeline.fresh] at hentry
    | load fs filename p _ ih => exact Load_IndicesInRange ops fs filename p ih
    | loadProc lines name lb p _ ih => exact LoadProc_IndicesInRange ops p lines name lb ih
    | finalCheck p _ ih =>
      intro entry hentry
      have := ih entry hentry
      simpa [Pipeline.FinalCheckAfterLoad] using this
    | setDefaultBlock cmdList parallel p _ ih =>
      intro entry hentry
      unfold Pipeline.SetDefaultBlock at hentry ⊢
      cases hb : p.blockList_ with
      | nil =>
        simp only [hb] at hentry ⊢
        have := ih entry hentry
        rw [hb] at this
        exact this
      | cons block0 blocks =>
        simp only [hb] at hentry ⊢
        have hlt : entry.2.blockIndex_ < (block0 :: blocks).length := by
          rw [← hb]
          apply ih
          revert hentry
          split <;> exact fun h => h
        revert hlt
        split <;> exact fun h => h
    | setDefaultBlockArgs cmd arguments p _ ih =>
      intro entry hentry
      unfold Pipeline.SetDefaultBlockArgs at hentry ⊢
      cases hb : p.blockList_ with
      | nil =>
        simp only [hb] at hentry ⊢
        have := ih entry hentry
        rw [hb] at this
        exact this
      | cons block0 blocks =>
        simp only [hb] at hentry ⊢
        have := ih entry hentry
        rw [hb] at this
        exact this
    | setDefaultBlockProc procName procArgs procArgsOrder p _ ih =>
      intro entry hentry
      unfold Pipeline.SetDefaultBlockProc at hentry ⊢
      cases hb : p.blockList_ with
      | nil =>
        simp only [hb] at hentry ⊢
        have := ih entry hentry
        rw [hb] at this
        exact this
      | cons block0 blocks =>
        simp only [hb] at hentry ⊢
        have := ih entry hentry
        rw [hb] at this
        exact this
  exact key

/-- Witness of C10: a pipeline reached by `Load`, `FinalCheckAfterLoad` and
`SetDefaultBlock`. -/
theorem C10_block_index_in_range_witness :
    Reachable specOps
        ((loadLines fileBuildFast).pipeline.FinalCheckAfterLoad.SetDefaultBlock specOps
          ["build", "echo done"] true).2 ∧
      ∀ entry ∈
          ((loadLines fileBuildFast).pipeline.FinalCheckAfterLoad.SetDefaultBlock specOps
            ["build", "echo done"] true).2.procList_,
        entry.2.blockIndex_ <
          ((loadLines fileBuildFast).pipeline.FinalCheckAfterLoad.SetDefaultBlock specOps
            ["build", "echo done"] true).2.blockList_.length :=
  ⟨Reachable.setDefaultBlock _ _ _ (Reachable.finalCheck _ (Reachable.load _ _ _ Reachable.fresh)),
   C10_block_index_in_range specOps _
     (Reachable.setDefaultBlock _ _ _
       (Reachable.finalCheck _ (Reachable.load _ _ _ Reachable.fresh)))⟩

/-! ### The turns of the loop of `Load` -/

theorem ReadLeftBracket_suffix (ops : Ops) (lines : List String) (lb : String) :
    (ReadLeftBracket ops lines lb).2.2 <:+ lines := by
  induction lines with
  | nil => simp [ReadLeftBracket]
  | cons line rest ih =>
    unfold ReadLeftBracket
    split
    · exact ih.trans (List.suffix_cons line rest)
    · split
      · split
        · exact List.suffix_cons line rest
        · exact ih.trans (List.suffix_cons line rest)
      · split <;> exact List.suffix_cons line rest

theorem LoadBlock_suffix (ops : Ops) (lines : List String) (block : Block) (parallel : Bool) :
    (LoadBlock ops lines block parallel).2.2 <:+ lines := by
  induction lines generalizing block with
  | nil => simp [LoadBlock]
  | cons line rest ih =>
    unfold LoadBlock
    split
    · split
      · exact List.suffix_cons line rest
      · split <;> exact List.suffix_cons line rest
    · exact (ih _).trans (List.suffix_cons line rest)

theorem LoadProc_suffix (ops : Ops) (p : Pipeline) (lines : List String) (name lb : String) :
    (LoadProc ops p lines name lb).2.2 <:+ lines := by
  unfold LoadProc
  have h1 : (if lb = "" then ReadLeftBracket ops lines lb else (none, lb, lines)).2.2 <:+
      lines := by
    split
    · exact ReadLeftBracket_suffix ops lines lb
    · exact List.suffix_refl lines
  split
  · rename_i e x lines1 heq
    rw [heq] at h1
    exact h1
  · rename_i lb1 lines1 heq
    rw [heq] at h1
    have h2 := LoadBlock_suffix ops lines1 Block.empty (lb1 == "\x7b\x7b")
    split
    · rename_i e x lines2 heq2
      rw [heq2] at h2
      exact h2.trans h1
    · rename_i block lines2 heq2
      rw [heq2] at h2
      exact h2.trans h1

theorem loadLine_next_suffix (ops : Ops) (fs : FileSystem) (filename : String) (st : LoadState)
    (line : String) (rest : List String) (st1 : LoadState) (rest1 : List String)
    (h : loadLine ops fs filename st line rest = LoadStep.next st1 rest1) :
    rest1 <:+ rest := by
  rcases loadLine_next_cases ops fs filename st line rest st1 rest1 h with
    ⟨_, h2, _⟩ | ⟨_, _, _, _, _, _, _, h2⟩ | ⟨name, lb, pipeline, _, _, _, _, _, hp, _⟩ |
    ⟨_, _, _, _, _, _, _, h2⟩
  · rw [h2]
  · rw [h2]
  · have hsuf := LoadProc_suffix ops st.pipeline rest name lb
    rw [hp] at hsuf
    exact hsuf
  · rw [h2]

theorem loadTurns_succ (ops : Ops) (fs : FileSystem) (filename : String) (k : Nat)
    (st : LoadState) (line : String) (rest : List String) (st2 : LoadState)
    (lines2 : List String)
    (h : loadTurns ops fs filename (k + 1) st (line :: rest) = some (st2, lines2)) :
    ∃ st1 rest1, loadLine ops fs filename st line rest = LoadStep.next st1 rest1 ∧
      loadTurns ops fs filename k st1 rest1 = some (st2, lines2) := by
  simp only [loadTurns] at h
  cases hstep : loadLine ops fs filename st line rest with
  | next st1 rest1 =>
    rw [hstep] at h
    exact ⟨st1, rest1, rfl, h⟩
  | stop e st1 =>
    rw [hstep] at h
    cases h

theorem loadTurns_suffix (ops : Ops) (fs : FileSystem) (filename : String) (k : Nat)
    (st : LoadState) (lines : List String) (st2 : LoadState) (lines2 : List String)
    (h : loadTurns ops fs filename k st lines = some (st2, lines2)) : lines2 <:+ lines := by
  induction k generalizing st lines with
  | zero =>
    simp only [loadTurns, Option.some.injEq, Prod.mk.injEq] at h
    rw [h.2]
  | succ k ih =>
    cases lines with
    | nil => simp [loadTurns] at h
    | cons line rest =>
      obtain ⟨st1, rest1, hstep, hk⟩ := loadTurns_succ ops fs filename k st line rest st2 lines2 h
      exact ((ih st1 rest1 hk).trans
        (loadLine_next_suffix ops fs filename st line rest st1 rest1 hstep)).trans
        (List.suffix_cons line rest)

theorem loadTurns_add (ops : Ops) (fs : FileSystem) (filename : String) (i k : Nat)
    (st : LoadState) (lines : List String) (st1 : LoadState) (lines1 : List String)
    (h : loadTurns ops fs filename i st lines = some (st1, lines1)) :
    loadTurns ops fs filename (i + k) st lines = loadTurns ops fs filename k st1 lines1 := by
  induction i generalizing st lines with
  | zero =>
    simp only [loadTurns, Option.some.injEq, Prod.mk.injEq] at h
    rw [h.1, h.2, Nat.zero_add]
  | succ i ih =>
    cases lines with
    | nil => simp [loadTurns] at h
    | cons line rest =>
      obtain ⟨st', rest', hstep, hi⟩ := loadTurns_succ ops fs filename i st line rest st1 lines1 h
      rw [Nat.add_right_comm]
      simp only [loadTurns, hstep]
      exact ih st' rest' hi

theorem loadLine_next_procAt (ops : Ops) (fs : FileSystem) (filename : String) (st : LoadState)
    (line : String) (rest : List String) (st1 : LoadState) (rest1 : List String)
    (h : loadLine ops fs filename st line rest = LoadStep.next st1 rest1) (name : String) :
    st1.procAtLineNo.contains name = true ↔
      (st.procAtLineNo.contains name = true ∨ IsHeaderFor ops line name) := by
  rcases loadLine_next_cases ops fs filename st line rest st1 rest1 h with
    ⟨h1, _, hskip⟩ | ⟨inc, _, _, _, hi, _, h1, _⟩ |
    ⟨name1, lb, pipeline, he, hc, hi, hf, hd, hp, h1⟩ | ⟨_, _, _, _, hf, _, h1, _⟩
  · have : ¬ IsHeaderFor ops line name := by
      rintro ⟨h2, h3, _⟩
      rcases hskip with h4 | h4
      · rw [h4] at h2; cases h2
      · rw [h4] at h3; cases h3
    simp [h1, this]
  · have : ¬ IsHeaderFor ops line name := by
      rintro ⟨_, _, h2, _⟩
      rw [hi] at h2; cases h2
    simp [h1, this]
  · rw [h1]
    simp only [StrMap.contains_insert]
    have : IsHeaderFor ops line name ↔ name = name1 := by
      constructor
      · rintro ⟨_, _, _, h2⟩
        rw [hf] at h2
        simp only [Option.map_some', Option.some.injEq] at h2
        exact h2.symm
      · intro hn
        subst hn
        exact ⟨he, hc, hi, by rw [hf]; rfl⟩
    simp only [this, Bool.or_eq_true, decide_eq_true_eq]
    exact Or.comm
  · have : ¬ IsHeaderFor ops line name := by
      rintro ⟨_, _, _, h2⟩
      rw [hf] at h2; cases h2
    simp [h1, this]

theorem loadTurns_procAt_mono (ops : Ops) (fs : FileSystem) (filename : String) (k : Nat)
    (st : LoadState) (lines : List String) (st2 : LoadState) (lines2 : List String)
    (h : loadTurns ops fs filename k st lines = some (st2, lines2)) (name : String)
    (hn : st.procAtLineNo.contains name = true) : st2.procAtLineNo.contains name = true := by
  induction k generalizing st lines with
  | zero =>
    simp only [loadTurns, Option.some.injEq, Prod.mk.injEq] at h
    rw [← h.1]
    exact hn
  | succ k ih =>
    cases lines with
    | nil => simp [loadTurns] at h
    | cons line rest =>
      obtain ⟨st1, rest1, hstep, hk⟩ := loadTurns_succ ops fs filename k st line rest st2 lines2 h
      apply ih st1 rest1 hk
      exact (loadLine_next_procAt ops fs filename st line rest st1 rest1 hstep name).mpr
        (Or.inl hn)

theorem loadTurns_procAt_origin (ops : Ops) (fs : FileSystem) (filename : String) (k : Nat)
    (st : LoadState) (lines : List String) (st2 : LoadState) (lines2 : List String)
    (h : loadTurns ops fs filename k st lines = some (st2, lines2)) (name : String)
    (hn : st2.procAtLineNo.contains name = true) :
    st.procAtLineNo.contains name = true ∨
      ∃ i st1 h1 r1, i < k ∧ loadTurns ops fs filename i st lines = some (st1, h1 :: r1) ∧
        IsHeaderFor ops h1 name := by
  induction k generalizing st lines with
  | zero =>
    simp only [loadTurns, Option.some.injEq, Prod.mk.injEq] at h
    rw [h.1]
    exact Or.inl hn
  | succ k ih =>
    cases lines with
    | nil => simp [loadTurns] at h
    | cons line rest =>
      obtain ⟨st1, rest1, hstep, hk⟩ := loadTurns_succ ops fs filename k st line rest st2 lines2 h
      rcases ih st1 rest1 hk with h1 | ⟨i, st', h', r', hi, hturn, hhead⟩
      · rcases (loadLine_next_procAt ops fs filename st line rest st1 rest1 hstep name).mp h1
          with h1 | h1
        · exact Or.inl h1
        · exact Or.inr ⟨0, st, line, rest, Nat.succ_pos k, rfl, h1⟩
      · refine Or.inr ⟨i + 1, st', h', r', Nat.succ_lt_succ hi, ?_, hhead⟩
        simp only [loadTurns, hstep]
        exact hturn

theorem loadLoop_of_loadTurns (ops : Ops) (fs : FileSystem) (filename : String) (k : Nat)
    (st : LoadState) (lines : List String) (st2 : LoadState) (lines2 : List String)
    (h : loadTurns ops fs filename k st lines = some (st2, lines2)) (fuel : Nat)
    (hfuel : lines.length ≤ fuel) :
    loadLoop ops fs filename fuel st lines =
      loadLoop ops fs filename lines2.length st2 lines2 := by
  induction k generalizing st lines fuel with
  | zero =>
    simp only [loadTurns, Option.some.injEq, Prod.mk.injEq] at h
    rw [← h.1, ← h.2]
    exact loadLoop_fuel ops fs filename fuel lines.length st lines hfuel (le_refl _)
  | succ k ih =>
    cases lines with
    | nil => simp [loadTurns] at h
    | cons line rest =>
      obtain ⟨st1, rest1, hstep, hk⟩ := loadTurns_succ ops fs filename k st line rest st2 lines2 h
      cases fuel with
      | zero => simp at hfuel
      | succ fuel =>
        simp only [loadLoop, hstep]
        apply ih st1 rest1 hk fuel
        have := loadLine_next_length ops fs filename st line rest st1 rest1 hstep
        simp only [List.length_cons] at hfuel
        omega

theorem loadConfLines_error (ops : Ops) (lines : List String) (confMap : StrMap String)
    (e : LoadError) (h : (loadConfLines ops lines confMap).1 = some e) :
    e = LoadError.invalidConf := by
  induction lines generalizing confMap with
  | nil => simp [loadConfLines] at h
  | cons line rest ih =>
    unfold loadConfLines at h
    split at h
    · exact ih _ h
    · split at h
      · simp only [Option.some.injEq] at h
        exact h.symm
      · exact ih _ h

theorem LoadConf_error (ops : Ops) (fs : FileSystem) (filename : String)
    (confMap : StrMap String) (e : LoadError) (h : (LoadConf ops fs filename confMap).1 = some e) :
    e = LoadError.cannotOpen ∨ e = LoadError.invalidConf := by
  unfold LoadConf at h
  split at h
  · simp only [Option.some.injEq] at h
    exact Or.inl h.symm
  · exact Or.inr (loadConfLines_error ops _ confMap e h)

theorem ReadLeftBracket_error (ops : Ops) (lines : List String) (lb : String) (e : LoadError)
    (h : (ReadLeftBracket ops lines lb).1 = some e) :
    e = LoadError.unexpectedAttribute ∨ e = LoadError.unexpectedLine := by
  induction lines with
  | nil => simp [ReadLeftBracket] at h
  | cons line rest ih =>
    unfold ReadLeftBracket at h
    split at h
    · exact ih h
    · split at h
      · split at h
        · simp only [Option.some.injEq] at h
          exact Or.inl h.symm
        · exact ih h
      · split at h
        · simp only [Option.some.injEq] at h
          exact Or.inr h.symm
        · cases h

theorem LoadBlock_error (ops : Ops) (lines : List String) (block : Block) (parallel : Bool)
    (e : LoadError) (h : (LoadBlock ops lines block parallel).1 = some e) :
    e = LoadError.unexpectedRightBracket := by
  induction lines generalizing block with
  | nil => simp [LoadBlock] at h
  | cons line rest ih =>
    unfold LoadBlock at h
    split at h
    · split at h
      · simp only [Option.some.injEq] at h
        exact h.symm
      · split at h
        · simp only [Option.some.injEq] at h
          exact h.symm
        · cases h
    · exact ih _ h

theorem LoadProc_error (ops : Ops) (p : Pipeline) (lines : List String) (name lb : String)
    (e : LoadError) (h : (LoadProc ops p lines name lb).1 = some e) :
    e = LoadError.unexpectedAttribute ∨ e = LoadError.unexpectedLine ∨
      e = LoadError.unexpectedRightBracket := by
  unfold LoadProc at h
  split at h
  · rename_i e1 x lines1 heq
    simp only [Option.some.injEq] at h
    subst h
    split at heq
    · have := ReadLeftBracket_error ops lines lb e1 (by rw [heq])
      rcases this with h1 | h1
      · exact Or.inl h1
      · exact Or.inr (Or.inl h1)
    · cases heq
  · rename_i lb1 lines1 heq
    split at h
    · rename_i e1 x lines2 heq2
      simp only [Option.some.injEq] at h
      subst h
      exact Or.inr (Or.inr (LoadBlock_error ops lines1 Block.empty _ e1 (by rw [heq2])))
    · cases h

theorem loadLoop_duplicated (ops : Ops) (fs : FileSystem) (filename : String) (fuel : Nat)
    (st : LoadState) (lines : List String)
    (h : (loadLoop ops fs filename fuel st lines).status = some LoadError.duplicatedProcedure) :
    ∃ j st2 h2 r2 name, loadTurns ops fs filename j st lines = some (st2, h2 :: r2) ∧
      IsHeaderFor ops h2 name ∧ st2.procAtLineNo.contains name = true := by
  have hlast : ∀ st : LoadState,
      (if fs.CheckFileExists (filename ++ ".conf") then
        match LoadConf ops fs (filename ++ ".conf") st.confMap with
        | (some e, confMap) =>
          ({ status := some e, pipeline := st.pipeline, confMap := confMap } : LoadResult)
        | (none, confMap) => { status := none, pipeline := st.pipeline, confMap := confMap }
      else { status := none, pipeline := st.pipeline, confMap := st.confMap }).status ≠
        some LoadError.duplicatedProcedure := by
    intro st
    split
    · split
      · rename_i e confMap heq
        intro hs
        simp only [Option.some.injEq] at hs
        subst hs
        rcases LoadConf_error ops fs _ _ _ (by rw [heq]) with h1 | h1 <;> cases h1
      · simp
    · simp
  induction fuel generalizing st lines with
  | zero =>
    unfold loadLoop at h
    exact absurd h (hlast st)
  | succ fuel ih =>
    cases lines with
    | nil =>
      unfold loadLoop at h
      exact absurd h (hlast st)
    | cons line rest =>
      simp only [loadLoop] at h
      cases hstep : loadLine ops fs filename st line rest with
      | next st1 rest1 =>
        rw [hstep] at h
        obtain ⟨j, st2, h2, r2, name, hj, hhead, hcont⟩ := ih st1 rest1 h
        refine ⟨j + 1, st2, h2, r2, name, ?_, hhead, hcont⟩
        simp only [loadTurns, hstep]
        exact hj
      | stop e st1 =>
        rw [hstep] at h
        simp only [Option.some.injEq] at h
        subst h
        rcases loadLine_stop_cases ops fs filename st line rest _ st1 hstep with
          ⟨_, _, _, _, _, hconf, _⟩ | ⟨name, lb, he, hc, hi, hf, hd, _, _⟩ |
          ⟨name, lb, pipeline, rest1, _, _, _, _, _, hp, _⟩ | ⟨_, _, _, _, _, _, he, _⟩
        · rcases LoadConf_error ops fs _ _ _ (by rw [hconf]) with h1 | h1 <;> cases h1
        · exact ⟨0, st, line, rest, name, rfl, ⟨he, hc, hi, by rw [hf]; rfl⟩, hd⟩
        · rcases LoadProc_error ops _ _ _ _ _ (by rw [hp]) with h1 | h1 | h1 <;> cases h1
        · cases he

theorem loadLoop_at_duplicate (ops : Ops) (fs : FileSystem) (filename : String)
    (st : LoadState) (line : String) (rest : List String) (name : String)
    (hhead : IsHeaderFor ops line name) (hcont : st.procAtLineNo.contains name = true) :
    (loadLoop ops fs filename (line :: rest).length st (line :: rest)).status =
        some LoadError.duplicatedProcedure ∧
      (loadLoop ops fs filename (line :: rest).length st (line :: rest)).pipeline =
        st.pipeline := by
  obtain ⟨he, hc, hi, hf⟩ := hhead
  cases hfl : ops.IsFuncLine line with
  | none => simp [hfl] at hf
  | some nb =>
    obtain ⟨name1, lb⟩ := nb
    simp only [hfl, Option.map_some', Option.some.injEq] at hf
    subst hf
    simp [loadLoop, loadLine, he, hc, hi, hfl, hcont]

/-- C7: duplicate procedure definitions are rejected. A header is a line the loop of `Load`
reads as a procedure header (lines inside a procedure body are commands of that body). If
two turns of the loop read headers naming the same procedure, `Load` fails as a duplicate
definition, and the pipeline it leaves is the one it had when it read the second header:
the second body is not loaded. Conversely `Load` fails as a duplicate definition only if
two turns read headers of the same name; in particular never on a file in which the lines
classified as headers have pairwise distinct names. -/
theorem C7_duplicate_procedure_rejected (ops : Ops) (fs : FileSystem) (filename : String)
    (p : Pipeline) (lines : List String) (hfile : fs.content filename = some lines) :
    (∀ i j st1 h1 r1 st2 h2 r2 name, i < j →
      loadTurns ops fs filename i (LoadState.init p) lines = some (st1, h1 :: r1) →
      IsHeaderFor ops h1 name →
      loadTurns ops fs filename j (LoadState.init p) lines = some (st2, h2 :: r2) →
      IsHeaderFor ops h2 name →
      (p.Load ops fs filename).status = some LoadError.duplicatedProcedure ∧
        (p.Load ops fs filename).pipeline = st2.pipeline) ∧
    ((p.Load ops fs filename).status = some LoadError.duplicatedProcedure →
      ∃ i j st1 h1 r1 st2 h2 r2 name, i < j ∧
        loadTurns ops fs filename i (LoadState.init p) lines = some (st1, h1 :: r1) ∧
        IsHeaderFor ops h1 name ∧
        loadTurns ops fs filename j (LoadState.init p) lines = some (st2, h2 :: r2) ∧
        IsHeaderFor ops h2 name) ∧
    ((headerNames ops lines).Nodup →
      (p.Load ops fs filename).status ≠ some LoadError.duplicatedProcedure) := by
  have hload : p.Load ops fs filename =
      loadLoop ops fs filename lines.length (LoadState.init p) lines := by
    unfold Pipeline.Load
    rw [hfile]
    rfl
  have hconv : (p.Load ops fs filename).status = some LoadError.duplicatedProcedure →
      ∃ i j st1 h1 r1 st2 h2 r2 name, i < j ∧
        loadTurns ops fs filename i (LoadState.init p) lines = some (st1, h1 :: r1) ∧
        IsHeaderFor ops h1 name ∧
        loadTurns ops fs filename j (LoadState.init p) lines = some (st2, h2 :: r2) ∧
        IsHeaderFor ops h2 name := by
    intro hdup
    rw [hload] at hdup
    obtain ⟨j, st2, h2, r2, name, hj, hhead, hcont⟩ :=
      loadLoop_duplicated ops fs filename _ _ _ hdup
    rcases loadTurns_procAt_origin ops fs filename j _ _ _ _ hj name hcont with
      h0 | ⟨i, st1, h1, r1, hi, hturn, hhead1⟩
    · simp [LoadState.init, StrMap.contains, StrMap.find] at h0
    · exact ⟨i, j, st1, h1, r1, st2, h2, r2, name, hi, hturn, hhead1, hj, hhead⟩
  refine ⟨?_, hconv, ?_⟩
  · intro i j st1 h1 r1 st2 h2 r2 name hij hi hhead1 hj hhead2
    obtain ⟨k, rfl⟩ : ∃ k, j = i + (k + 1) := ⟨j - i - 1, by omega⟩
    rw [loadTurns_add ops fs filename i (k + 1) _ _ _ _ hi] at hj
    obtain ⟨st', rest', hstep, hk⟩ := loadTurns_succ ops fs filename k st1 h1 r1 _ _ hj
    have hc1 : st'.procAtLineNo.contains name = true :=
      (loadLine_next_procAt ops fs filename st1 h1 r1 st' rest' hstep name).mpr (Or.inr hhead1)
    have hc2 := loadTurns_procAt_mono ops fs filename k st' rest' _ _ hk name hc1
    have hj' : loadTurns ops fs filename (i + (k + 1)) (LoadState.init p) lines =
        some (st2, h2 :: r2) := by
      rw [loadTurns_add ops fs filename i (k + 1) _ _ _ _ hi]
      exact hj
    rw [hload, loadLoop_of_loadTurns ops fs filename _ _ _ _ _ hj' lines.length (le_refl _)]
    exact loadLoop_at_duplicate ops fs filename st2 h2 r2 name hhead2 hc2
  · intro hnodup hdup
    obtain ⟨i, j, st1, h1, r1, st2, h2, r2, name, hij, hi, hhead1, hj, hhead2⟩ := hconv hdup
    obtain ⟨k, rfl⟩ : ∃ k, j = i + (k + 1) := ⟨j - i - 1, by omega⟩
    rw [loadTurns_add ops fs filename i (k + 1) _ _ _ _ hi] at hj
    obtain ⟨st', rest', hstep, hk⟩ := loadTurns_succ ops fs filename k st1 h1 r1 _ _ hj
    have hs1 : h1 :: r1 <:+ lines := loadTurns_suffix ops fs filename i _ _ _ _ hi
    have hs2 : h2 :: r2 <:+ r1 :=
      (loadTurns_suffix ops fs filename k _ _ _ _ hk).trans
        (loadLine_next_suffix ops fs filename st1 h1 r1 st' rest' hstep)
    obtain ⟨a, ha⟩ := hs1
    obtain ⟨b, hb⟩ := hs2
    have hn1 : (ops.IsFuncLine h1).map Prod.fst = some name := hhead1.2.2.2
    have hn2 : (ops.IsFuncLine h2).map Prod.fst = some name := hhead2.2.2.2
    rw [← ha, ← hb] at hnodup
    unfold headerNames at hnodup
    simp only [List.filterMap_append, List.filterMap_cons, hn1, hn2] at hnodup
    have h3 := (List.nodup_append.mp hnodup).2.1
    have h4 := (List.nodup_cons.mp h3).1
    apply h4
    simp

/-- Witness of C7: on `fileDuplicate` the second and the third turn of the loop read the two
headers of `f`; `Load` fails as a duplicate and leaves the pipeline it had at the second
header, with the first body only. -/
theorem C7_duplicate_procedure_rejected_witness :
    (oneFile "main.pipe" fileDuplicate).content "main.pipe" = some fileDuplicate ∧
    (loadTurns specOps (oneFile "main.pipe" fileDuplicate) "main.pipe" 1
        (LoadState.init Pipeline.fresh) fileDuplicate =
      some (stateAtFirstHeader, "f() \x7b" :: ["echo one", "\x7d", "f() \x7b", "echo two", "\x7d"]) ∧
      IsHeaderFor specOps "f() \x7b" "f") ∧
    (loadTurns specOps (oneFile "main.pipe" fileDuplicate) "main.pipe" 2
        (LoadState.init Pipeline.fresh) fileDuplicate =
      some (stateAtSecondHeader, "f() \x7b" :: ["echo two", "\x7d"]) ∧
      IsHeaderFor specOps "f() \x7b" "f") ∧
    (loadLines fileDuplicate).status = some LoadError.duplicatedProcedure ∧
    (loadLines fileDuplicate).pipeline = stateAtSecondHeader.pipeline :=
  ⟨rfl, ⟨by decide, by decide⟩, ⟨by decide, by decide⟩,
   (C7_duplicate_procedure_rejected specOps (oneFile "main.pipe" fileDuplicate) "main.pipe"
      Pipeline.fresh fileDuplicate rfl).1 1 2 stateAtFirstHeader "f() \x7b"
      ["echo one", "\x7d", "f() \x7b", "echo two", "\x7d"] stateAtSecondHeader "f() \x7b"
      ["echo two", "\x7d"] "f" (by decide) (by decide) (by decide) (by decide) (by decide)⟩

theorem loadLine_stop_pipeline (ops : Ops) (fs : FileSystem) (filename : String)
    (st : LoadState) (line : String) (rest : List String) (e : LoadError) (st1 : LoadState)
    (h : loadLine ops fs filename st line rest = LoadStep.stop e st1) :
    st1.pipeline = st.pipeline := by
  rcases loadLine_stop_cases ops fs filename st line rest e st1 h with
    ⟨_, _, _, _, _, _, h1⟩ | ⟨_, _, _, _, _, _, _, _, h1⟩ |
    ⟨name, lb, pipeline, rest1, _, _, _, _, _, hp, h1⟩ | ⟨pipeline, _, _, _, _, ha, _, h1⟩
  · rw [h1]
  · rw [h1]
  · rw [h1]
    exact LoadProc_fail_pipeline ops _ _ _ _ _ _ _ hp
  · rw [h1]
    rcases appendDefault_cases ops st.pipeline line with h2 | ⟨_, _, _, _, _, _, h2⟩
    · rw [h2] at ha
      simp only [Prod.mk.injEq, true_and] at ha
      exact ha.symm
    · rw [h2] at ha
      simp at ha

theorem loadLoop_failure (ops : Ops) (fs : FileSystem) (filename : String) (fuel : Nat)
    (st : LoadState) (lines : List String) (e : LoadError)
    (h : (loadLoop ops fs filename fuel st lines).status = some e)
    (hfuel : lines.length ≤ fuel) :
    ∃ k st2 rest, loadTurns ops fs filename k st lines = some (st2, rest) ∧
      (loadLoop ops fs filename fuel st lines).pipeline = st2.pipeline ∧
      (rest = [] ∨ ∃ line rest1 st1, rest = line :: rest1 ∧
        loadLine ops fs filename st2 line rest1 = LoadStep.stop e st1) := by
  have hlast : ∀ st : LoadState,
      (if fs.CheckFileExists (filename ++ ".conf") then
        match LoadConf ops fs (filename ++ ".conf") st.confMap with
        | (some e, confMap) =>
          ({ status := some e, pipeline := st.pipeline, confMap := confMap } : LoadResult)
        | (none, confMap) => { status := none, pipeline := st.pipeline, confMap := confMap }
      else { status := none, pipeline := st.pipeline, confMap := st.confMap }).pipeline =
        st.pipeline := by
    intro st
    split
    · split <;> rfl
    · rfl
  induction fuel generalizing st lines with
  | zero =>
    have hnil : lines = [] := List.length_eq_zero.mp (Nat.le_zero.mp hfuel)
    subst hnil
    refine ⟨0, st, [], rfl, ?_, Or.inl rfl⟩
    unfold loadLoop
    exact hlast st
  | succ fuel ih =>
    cases lines with
    | nil =>
      refine ⟨0, st, [], rfl, ?_, Or.inl rfl⟩
      unfold loadLoop
      exact hlast st
    | cons line rest =>
      simp only [loadLoop] at h ⊢
      cases hstep : loadLine ops fs filename st line rest with
      | next st1 rest1 =>
        rw [hstep] at h
        simp only
        have hlen := loadLine_next_length ops fs filename st line rest st1 rest1 hstep
        simp only [List.length_cons] at hfuel
        obtain ⟨k, st2, rest2, hk, hp, hrest⟩ := ih st1 rest1 h (by omega)
        refine ⟨k + 1, st2, rest2, ?_, hp, hrest⟩
        simp only [loadTurns, hstep]
        exact hk
      | stop e1 st1 =>
        rw [hstep] at h
        simp only [Option.some.injEq] at h
        subst h
        exact ⟨0, st, line :: rest, rfl,
          loadLine_stop_pipeline ops fs filename st line rest e1 st1 hstep,
          Or.inr ⟨line, rest, st1, rfl, hstep⟩⟩

/-- C5 (counterexample): `Load` of a file that defines `f` twice, after a top-level
command, fails, and the pipeline it leaves has the procedure `f` and two blocks: it is not
the fresh pipeline `Load` started on. -/
theorem C5_counterexample :
    (loadLines fileDuplicate).status = some LoadError.duplicatedProcedure ∧
    (loadLines fileDuplicate).pipeline.procList_ ≠ Pipeline.fresh.procList_ ∧
    (loadLines fileDuplicate).pipeline.blockList_ ≠ Pipeline.fresh.blockList_ ∧
    (loadLines fileDuplicate).pipeline =
      { procList_ := [("f", { name_ := "f", blockIndex_ := 1 })]
        blockList_ :=
          [{ items_ := [CommandItem.mkShell specOps "echo" ["a"] ""], parallel_ := false },
           { items_ := [CommandItem.mkShell specOps "echo" ["one"] ""], parallel_ := false }] } := by
  decide

/-- C5 (amended): a failed `Load` is not rolled back. When `Load` returns failure, either
the file could not be opened and the pipeline is as it was before the call, or the pipeline
is the one built by the turns of the loop that were completed before the failure: those
turns read a front part of the file, and the failure is that of the turn on the next line
(or, when the whole file was read, that of the sidecar configuration file). -/
theorem C5_failed_load_keeps_loaded_part (ops : Ops) (fs : FileSystem) (filename : String)
    (p : Pipeline) (e : LoadError) (hfail : (p.Load ops fs filename).status = some e) :
    (fs.content filename = none ∧ (p.Load ops fs filename).pipeline = p) ∨
    ∃ lines k st pre rest, fs.content filename = some lines ∧ lines = pre ++ rest ∧
      loadTurns ops fs filename k (LoadState.init p) lines = some (st, rest) ∧
      (p.Load ops fs filename).pipeline = st.pipeline ∧
      (rest = [] ∨ ∃ line rest1 st1, rest = line :: rest1 ∧
        loadLine ops fs filename st line rest1 = LoadStep.stop e st1) := by
  cases hfile : fs.content filename with
  | none =>
    left
    refine ⟨rfl, ?_⟩
    unfold Pipeline.Load
    rw [hfile]
  | some lines =>
    right
    have hload : p.Load ops fs filename =
        loadLoop ops fs filename lines.length (LoadState.init p) lines := by
      unfold Pipeline.Load
      rw [hfile]
      rfl
    rw [hload] at hfail ⊢
    obtain ⟨k, st2, rest, hk, hp, hrest⟩ :=
      loadLoop_failure ops fs filename _ _ _ e hfail (le_refl _)
    obtain ⟨pre, hpre⟩ := loadTurns_suffix ops fs filename k _ _ _ _ hk
    exact ⟨lines, k, st2, pre, rest, rfl, hpre.symm, hk, hp, hrest⟩

/-- Witness of C5 (amended): the failed `Load` of scenario 5. -/
theorem C5_failed_load_keeps_loaded_part_witness :
    (loadLines fileBracketMismatch).status = some LoadError.unexpectedRightBracket ∧
    (((oneFile "main.pipe" fileBracketMismatch).content "main.pipe" = none ∧
        (loadLines fileBracketMismatch).pipeline = Pipeline.fresh) ∨
      ∃ lines k st pre rest,
        (oneFile "main.pipe" fileBracketMismatch).content "main.pipe" = some lines ∧
        lines = pre ++ rest ∧
        loadTurns specOps (oneFile "main.pipe" fileBracketMismatch) "main.pipe" k
          (LoadState.init Pipeline.fresh) lines = some (st, rest) ∧
        (loadLines fileBracketMismatch).pipeline = st.pipeline ∧
        (rest = [] ∨ ∃ line rest1 st1, rest = line :: rest1 ∧
          loadLine specOps (oneFile "main.pipe" fileBracketMismatch) "main.pipe" st line rest1 =
            LoadStep.stop LoadError.unexpectedRightBracket st1)) :=
  ⟨by decide,
   C5_failed_load_keeps_loaded_part specOps (oneFile "main.pipe" fileBracketMismatch)
     "main.pipe" Pipeline.fresh LoadError.unexpectedRightBracket (by decide)⟩

/-! ### `Save` followed by `Load` -/

theorem StrMap.insert_sorted {V : Type} (m : StrMap V) (k : String) (v : V) (h : m.Sorted) :
    (m.insert k v).Sorted := by
  induction m with
  | nil => simp [StrMap.insert, StrMap.Sorted]
  | cons hd tl ih =>
    obtain ⟨k', v'⟩ := hd
    unfold StrMap.Sorted at h ih ⊢
    rw [List.pairwise_cons] at h
    unfold StrMap.insert
    by_cases h1 : k.data < k'.data
    · simp only [h1, if_true]
      rw [List.pairwise_cons, List.pairwise_cons]
      refine ⟨?_, h⟩
      intro a ha
      rcases List.mem_cons.mp ha with rfl | ha
      · exact h1
      · exact lt_trans h1 (h.1 a ha)
    · by_cases h2 : k = k'
      · subst h2
        simp only [h1, ↓reduceIte]
        rw [List.pairwise_cons]
        exact h
      · simp only [h1, h2, if_false]
        rw [List.pairwise_cons]
        refine ⟨?_, ih h.2⟩
        intro a ha
        rcases StrMap.mem_insert tl k v a ha with rfl | ha
        · have hne : k.data ≠ k'.data := fun hd => h2 (String.ext hd)
          exact lt_of_le_of_ne (not_lt.mp h1) (Ne.symm hne)
        · exact h.1 a ha

theorem StrMap.find_mem {V : Type} (m : StrMap V) (k : String) (v : V)
    (h : m.find k = some v) : (k, v) ∈ m := by
  induction m with
  | nil => simp [StrMap.find] at h
  | cons hd tl ih =>
    obtain ⟨k', v'⟩ := hd
    unfold StrMap.find at h
    by_cases hk : k = k'
    · subst hk
      simp only [if_true, Option.some.injEq] at h
      subst h
      exact List.mem_cons_self _ _
    · simp only [hk, if_false] at h
      exact List.mem_cons_of_mem _ (ih h)

theorem StrMap.contains_iff {V : Type} (m : StrMap V) (k : String) :
    m.contains k = true ↔ ∃ v, (k, v) ∈ m := by
  induction m with
  | nil => simp [StrMap.contains, StrMap.find]
  | cons hd tl ih =>
    obtain ⟨k', v'⟩ := hd
    unfold StrMap.contains at ih ⊢
    unfold StrMap.find
    by_cases hk : k = k'
    · subst hk
      simp only [if_true, Option.isSome_some, true_iff]
      exact ⟨v', List.mem_cons_self _ _⟩
    · simp only [hk, if_false, ih, List.mem_cons, Prod.mk.injEq, false_and, false_or]

theorem finalCheckItem_shellCmd (procList : StrMap Procedure) (item : CommandItem) :
    (finalCheckItem procList item).shellCmd_ = item.shellCmd_ ∧
      (finalCheckItem procList item).shellArgs_ = item.shellArgs_ ∧
      (finalCheckItem procList item).cmdLine_ = item.cmdLine_ := by
  unfold finalCheckItem
  split
  · split
    · split <;> exact ⟨rfl, rfl, rfl⟩
    · exact ⟨rfl, rfl, rfl⟩
  · exact ⟨rfl, rfl, rfl⟩

theorem finalCheckItem_congr (m1 m2 : StrMap Procedure)
    (h : ∀ name, m1.contains name = m2.contains name) (item : CommandItem) :
    finalCheckItem m1 item = finalCheckItem m2 item := by
  unfold finalCheckItem
  rw [h]

theorem LoadBlock_block (ops : Ops) (lines : List String) (block : Block) (parallel : Bool) :
    (LoadBlock ops lines block parallel).2.1.parallel_ = block.parallel_ ∧
      ∃ items, (LoadBlock ops lines block parallel).2.1.items_ = block.items_ ++ items ∧
        ∀ item ∈ items, item = CommandItem.mkShell ops item.shellCmd_ item.shellArgs_ "" := by
  induction lines generalizing block with
  | nil => exact ⟨rfl, [], by simp [LoadBlock], by simp⟩
  | cons line rest ih =>
    unfold LoadBlock
    split
    · split
      · exact ⟨rfl, [], by simp, by simp⟩
      · split <;> exact ⟨rfl, [], by simp, by simp⟩
    · obtain ⟨h1, items, h2, h3⟩ := ih (block.AppendCommand ops line).2
      unfold Block.AppendCommand at h1 h2 ⊢
      cases hp : ops.ParseCommandLine line with
      | none =>
        simp only [hp] at h1 h2 ⊢
        exact ⟨h1, items, h2, h3⟩
      | some ca =>
        obtain ⟨cmd, arguments⟩ := ca
        simp only [hp] at h1 h2 ⊢
        refine ⟨h1, CommandItem.mkShell ops cmd arguments "" :: items, ?_, ?_⟩
        · rw [h2]
          simp
        · intro item hitem
          rcases List.mem_cons.mp hitem with rfl | hitem
          · rfl
          · exact h3 item hitem

theorem LoadProc_AsLoaded (ops : Ops) (p : Pipeline) (lines : List String) (name lb : String)
    (h : p.AsLoaded ops) : (LoadProc ops p lines name lb).2.1.AsLoaded ops := by
  unfold LoadProc
  split
  · exact h
  · rename_i lb1 lines1 heq
    have hb := LoadBlock_block ops lines1 Block.empty (lb1 == "\x7b\x7b")
    split
    · exact h
    · rename_i block lines2 heq2
      rw [heq2] at hb
      obtain ⟨hpar, items, hitems, hform⟩ := hb
      refine ⟨StrMap.insert_sorted _ _ _ h.1, ?_⟩
      intro b hbmem
      simp only [List.mem_append, List.mem_singleton] at hbmem
      rcases hbmem with hbmem | rfl
      · exact h.2 b hbmem
      · refine ⟨hpar, ?_⟩
        intro item hitem
        simp only at hitems
        rw [hitems] at hitem
        simp only [Block.empty, List.nil_append] at hitem
        exact hform item hitem

theorem appendDefault_AsLoaded (ops : Ops) (p : Pipeline) (line : String)
    (h : p.AsLoaded ops) : (p.appendDefault ops line).2.AsLoaded ops := by
  rcases appendDefault_cases ops p line with h1 | ⟨block0, blocks, cmd, arguments, hb, _, h1⟩
  · rw [h1]; exact h
  · rw [h1]
    refine ⟨h.1, ?_⟩
    intro b hbmem
    simp only [List.mem_cons] at hbmem
    have h0 := h.2 block0 (by rw [hb]; exact List.mem_cons_self _ _)
    rcases hbmem with rfl | hbmem
    · refine ⟨h0.1, ?_⟩
      intro item hitem
      simp only [List.mem_append, List.mem_singleton] at hitem
      rcases hitem with hitem | rfl
      · exact h0.2 item hitem
      · rfl
    · exact h.2 b (by rw [hb]; exact List.mem_cons_of_mem _ hbmem)

theorem Load_AsLoaded (ops : Ops) (fs : FileSystem) (filename : String) (p : Pipeline)
    (h : p.AsLoaded ops) : (p.Load ops fs filename).pipeline.AsLoaded ops :=
  Load_rel ops fs filename (fun a b => a.AsLoaded ops → b.AsLoaded ops)
    (fun _ h => h) (fun _ _ _ hab hbc h => hbc (hab h))
    (fun p lines name lb => LoadProc_AsLoaded ops p lines name lb)
    (fun p line => appendDefault_AsLoaded ops p line) p h

theorem fresh_AsLoaded (ops : Ops) : Pipeline.fresh.AsLoaded ops := by
  refine ⟨List.Pairwise.nil, ?_⟩
  intro b hb
  simp only [Pipeline.fresh, List.mem_singleton] at hb
  subst hb
  exact ⟨rfl, by simp [Block.empty]⟩

theorem LoadBlock_saved_body (ops : Ops) (items : List CommandItem) (block : Block)
    (tail : List String) (hrb : ops.IsRightBracket "\x7d" = some "\x7d")
    (hitems : ∀ item ∈ items,
      ops.IsRightBracket ("\t" ++ item.cmdLine_) = none ∧
      ops.ParseCommandLine ("\t" ++ item.cmdLine_) = some (item.shellCmd_, item.shellArgs_)) :
    LoadBlock ops ((items.map fun cmd => "\t" ++ cmd.cmdLine_) ++ "\x7d" :: tail) block false =
      (none,
        { block with
          items_ := block.items_ ++
            items.map fun item => CommandItem.mkShell ops item.shellCmd_ item.shellArgs_ "" },
        tail) := by
  induction items generalizing block with
  | nil =>
    simp only [List.map_nil, List.nil_append, LoadBlock, hrb, List.append_nil]
    have : ("\x7d" == "\x7d\x7d") = false := by decide
    simp [this]
  | cons item rest ih =>
    obtain ⟨h1, h2⟩ := hitems item (List.mem_cons_self _ _)
    simp only [List.map_cons, List.cons_append]
    rw [LoadBlock]
    simp only [h1, Block.AppendCommand, h2]
    rw [ih _ (fun it hit => hitems it (List.mem_cons_of_mem _ hit))]
    simp

theorem loadTurns_saved_proc (ops : Ops) (fs : FileSystem) (filename : String)
    (st : LoadState) (name : String) (b : Block) (tail : List String)
    (hrb : ops.IsRightBracket "\x7d" = some "\x7d")
    (he : ops.IsEmptyLine (name ++ "() \x7b") = false)
    (hc : ops.IsCommentLine (name ++ "() \x7b") = false)
    (hi : ops.IsIncLine (name ++ "() \x7b") = none)
    (hf : ops.IsFuncLine (name ++ "() \x7b") = some (name, "\x7b"))
    (hitems : ∀ item ∈ b.items_,
      ops.IsRightBracket ("\t" ++ item.cmdLine_) = none ∧
      ops.ParseCommandLine ("\t" ++ item.cmdLine_) = some (item.shellCmd_, item.shellArgs_))
    (hnew : st.procAtLineNo.contains name = false) :
    loadTurns ops fs filename 1 st
        ((name ++ "() \x7b") :: ((b.items_.map fun cmd => "\t" ++ cmd.cmdLine_) ++
          "\x7d" :: tail)) =
      some
        ({ pipeline :=
            { procList_ := st.pipeline.procList_.insert name
                { name_ := name, blockIndex_ := st.pipeline.blockList_.length }
              blockList_ := st.pipeline.blockList_ ++ [b.reload ops] }
           confMap := recordVarLine ops st.confMap (name ++ "() \x7b")
           procAtLineNo := st.procAtLineNo.insert name () },
         tail) := by
  have hlb : ¬ ("\x7b" = "") := by decide
  have hpar : ("\x7b" == "\x7b\x7b") = false := by decide
  have hblock := LoadBlock_saved_body ops b.items_ Block.empty tail hrb hitems
  simp only [loadTurns, loadLine, he, hc, hi, hf, hnew, LoadProc, hlb, hpar, hblock,
    Bool.false_eq_true, if_false]
  simp [Block.reload, Block.empty]

theorem loadTurns_empty_line (ops : Ops) (fs : FileSystem) (filename : String)
    (st : LoadState) (rest : List String) (he : ops.IsEmptyLine "" = true) :
    loadTurns ops fs filename 1 st ("" :: rest) = some (st, rest) := by
  simp [loadTurns, loadLine, he]

theorem loadTurns_saved_procs (ops : Ops) (fs : FileSystem) (filename : String) (p : Pipeline)
    (procs : StrMap Procedure) (first : Bool) (st : LoadState) (tail : List String)
    (hsorted : procs.Sorted)
    (hempty : ops.IsEmptyLine "" = true)
    (hrb : ops.IsRightBracket "\x7d" = some "\x7d")
    (hprocs : ∀ entry ∈ procs,
      ops.IsEmptyLine (entry.1 ++ "() \x7b") = false ∧
      ops.IsCommentLine (entry.1 ++ "() \x7b") = false ∧
      ops.IsIncLine (entry.1 ++ "() \x7b") = none ∧
      ops.IsFuncLine (entry.1 ++ "() \x7b") = some (entry.1, "\x7b") ∧
      ∀ item ∈ (p.blockAt entry.2.blockIndex_).items_,
        ops.IsRightBracket ("\t" ++ item.cmdLine_) = none ∧
        ops.ParseCommandLine ("\t" ++ item.cmdLine_) = some (item.shellCmd_, item.shellArgs_))
    (hnew : ∀ entry ∈ procs, st.procAtLineNo.contains entry.1 = false) :
    ∃ k st1, loadTurns ops fs filename k st (saveProcs p procs first ++ tail) = some (st1, tail) ∧
      st1.pipeline = reloadProcs ops p procs st.pipeline := by
  induction procs generalizing first st with
  | nil => exact ⟨0, st, rfl, rfl⟩
  | cons entry rest ih =>
    obtain ⟨name, proc⟩ := entry
    obtain ⟨he, hc, hi, hf, hitems⟩ := hprocs (name, proc) (List.mem_cons_self _ _)
    have hn := hnew (name, proc) (List.mem_cons_self _ _)
    unfold StrMap.Sorted at hsorted
    rw [List.pairwise_cons] at hsorted
    have hturn := loadTurns_saved_proc ops fs filename st name (p.blockAt proc.blockIndex_)
      (saveProcs p rest false ++ tail) hrb he hc hi hf hitems hn
    obtain ⟨k, st1, hk, hp⟩ := ih false
      { pipeline :=
          { procList_ := st.pipeline.procList_.insert name
              { name_ := name, blockIndex_ := st.pipeline.blockList_.length }
            blockList_ := st.pipeline.blockList_ ++ [(p.blockAt proc.blockIndex_).reload ops] }
        confMap := recordVarLine ops st.confMap (name ++ "() \x7b")
        procAtLineNo := st.procAtLineNo.insert name () } hsorted.2
      (fun e hmem => hprocs e (List.mem_cons_of_mem _ hmem))
      (fun e hmem => by
        show (st.procAtLineNo.insert name ()).contains e.1 = false
        rw [StrMap.contains_insert, hnew e (List.mem_cons_of_mem _ hmem)]
        have hlt := hsorted.1 e hmem
        have hne : e.1 ≠ name := by
          intro heq
          rw [heq] at hlt
          exact lt_irrefl _ hlt
        simp [hne])
    have hlines : saveProcs p ((name, proc) :: rest) first ++ tail =
        (if first then [] else [""]) ++
          ((name ++ "() \x7b") ::
            (((p.blockAt proc.blockIndex_).items_.map fun cmd => "\t" ++ cmd.cmdLine_) ++
              "\x7d" :: (saveProcs p rest false ++ tail))) := by
      simp [saveProcs]
    rw [hlines]
    cases first with
    | true =>
      refine ⟨1 + k, st1, ?_, hp⟩
      simp only [if_true, List.nil_append]
      rw [loadTurns_add ops fs filename 1 k _ _ _ _ hturn]
      exact hk
    | false =>
      refine ⟨1 + (1 + k), st1, ?_, hp⟩
      simp only [Bool.false_eq_true, if_false, List.singleton_append]
      rw [loadTurns_add ops fs filename 1 (1 + k) _ _ _ _
        (loadTurns_empty_line ops fs filename st _ hempty)]
      rw [loadTurns_add ops fs filename 1 k _ _ _ _ hturn]
      exact hk

theorem loadTurns_saved_default (ops : Ops) (fs : FileSystem) (filename : String)
    (items : List CommandItem) (st : LoadState) (b0 : Block) (bs : List Block)
    (hb : st.pipeline.blockList_ = b0 :: bs)
    (hitems : ∀ item ∈ items,
      ops.IsEmptyLine (item.ToString ops) = false ∧
      ops.IsCommentLine (item.ToString ops) = false ∧
      ops.IsIncLine (item.ToString ops) = none ∧
      ops.IsFuncLine (item.ToString ops) = none ∧
      ops.ParseCommandLine (item.ToString ops) = some (item.shellCmd_, item.shellArgs_)) :
    ∃ st1, loadTurns ops fs filename items.length st (items.map fun item => item.ToString ops) =
        some (st1, []) ∧
      st1.pipeline.procList_ = st.pipeline.procList_ ∧
      st1.pipeline.blockList_ =
        { b0 with
          items_ := b0.items_ ++
            items.map fun item => CommandItem.mkShell ops item.shellCmd_ item.shellArgs_ "" } ::
          bs := by
  induction items generalizing st b0 with
  | nil =>
    refine ⟨st, rfl, rfl, ?_⟩
    simp [hb]
  | cons item rest ih =>
    obtain ⟨he, hc, hi, hf, hp⟩ := hitems item (List.mem_cons_self _ _)
    obtain ⟨st1, h1, h2, h3⟩ := ih
      { st with
        pipeline :=
          { st.pipeline with
            blockList_ :=
              { b0 with
                items_ := b0.items_ ++ [CommandItem.mkShell ops item.shellCmd_ item.shellArgs_ ""] } ::
                bs }
        confMap := recordVarLine ops st.confMap (item.ToString ops) }
      { b0 with
        items_ := b0.items_ ++ [CommandItem.mkShell ops item.shellCmd_ item.shellArgs_ ""] }
      rfl (fun it hit => hitems it (List.mem_cons_of_mem _ hit))
    refine ⟨st1, ?_, h2, ?_⟩
    · simp only [List.length_cons, List.map_cons, loadTurns, loadLine, he, hc, hi, hf,
        Pipeline.appendDefault, hb, Block.AppendCommand, hp, Bool.false_eq_true, if_false]
      exact h1
    · rw [h3]
      simp

theorem blockAt_eq (p : Pipeline) (i : Nat) :
    p.blockAt i = (p.blockList_[i]?).getD Block.empty := by
  unfold Pipeline.blockAt
  exact List.getD_eq_getElem?_getD _ _ _

theorem reloadProcs_blockList (ops : Ops) (p : Pipeline) (procs : StrMap Procedure)
    (q : Pipeline) :
    (reloadProcs ops p procs q).blockList_ =
      q.blockList_ ++ procs.map fun e => (p.blockAt e.2.blockIndex_).reload ops := by
  induction procs generalizing q with
  | nil => simp [reloadProcs]
  | cons entry rest ih =>
    obtain ⟨name, proc⟩ := entry
    simp only [reloadProcs, ih, List.map_cons, List.append_assoc, List.singleton_append]

theorem reloadProcs_find_of_not_mem (ops : Ops) (p : Pipeline) (procs : StrMap Procedure)
    (q : Pipeline) (name : String) (h : ∀ e ∈ procs, e.1 ≠ name) :
    (reloadProcs ops p procs q).procList_.find name = q.procList_.find name := by
  induction procs generalizing q with
  | nil => rfl
  | cons entry rest ih =>
    obtain ⟨name1, proc⟩ := entry
    simp only [reloadProcs]
    rw [ih _ (fun e he => h e (List.mem_cons_of_mem _ he))]
    simp only
    apply StrMap.find_insert_of_ne
    exact fun heq => h (name1, proc) (List.mem_cons_self _ _) heq.symm

theorem reloadProcs_contains (ops : Ops) (p : Pipeline) (procs : StrMap Procedure)
    (q : Pipeline) (name : String) :
    (reloadProcs ops p procs q).procList_.contains name = true ↔
      (q.procList_.contains name = true ∨ procs.contains name = true) := by
  induction procs generalizing q with
  | nil => simp [reloadProcs, StrMap.contains, StrMap.find]
  | cons entry rest ih =>
    obtain ⟨name1, proc⟩ := entry
    simp only [reloadProcs]
    rw [ih]
    simp only [StrMap.contains_insert, Bool.or_eq_true, decide_eq_true_eq]
    have : StrMap.contains ((name1, proc) :: rest) name = true ↔
        (name = name1 ∨ StrMap.contains rest name = true) := by
      unfold StrMap.contains
      simp only [StrMap.find]
      by_cases hn : name = name1
      · simp [hn]
      · simp [hn]
    rw [this]
    tauto

theorem reloadProcs_bound (ops : Ops) (p : Pipeline) (procs : StrMap Procedure)
    (q : Pipeline) (hsorted : procs.Sorted) (name : String) (proc : Procedure)
    (hmem : (name, proc) ∈ procs) :
    ∃ pq, (reloadProcs ops p procs q).procList_.find name = some pq ∧
      q.blockList_.length ≤ pq.blockIndex_ ∧
      (reloadProcs ops p procs q).blockList_[pq.blockIndex_]? =
        some ((p.blockAt proc.blockIndex_).reload ops) := by
  induction procs generalizing q with
  | nil => simp at hmem
  | cons entry rest ih =>
    obtain ⟨name1, proc1⟩ := entry
    unfold StrMap.Sorted at hsorted
    rw [List.pairwise_cons] at hsorted
    rcases List.mem_cons.mp hmem with heq | hrest
    · simp only [Prod.mk.injEq] at heq
      obtain ⟨rfl, rfl⟩ := heq
      refine ⟨{ name_ := name, blockIndex_ := q.blockList_.length }, ?_, le_refl _, ?_⟩
      · simp only [reloadProcs]
        rw [reloadProcs_find_of_not_mem]
        · exact StrMap.find_insert_self _ _ _
        · intro e he heq
          have hlt := hsorted.1 e he
          rw [heq] at hlt
          exact lt_irrefl _ hlt
      · rw [reloadProcs_blockList]
        simp only [List.map_cons]
        rw [List.getElem?_append_right (le_refl _)]
        simp
    · obtain ⟨pq, h1, h2, h3⟩ := ih
        { procList_ := q.procList_.insert name1
            { name_ := name1, blockIndex_ := q.blockList_.length }
          blockList_ := q.blockList_ ++ [(p.blockAt proc1.blockIndex_).reload ops] }
        hsorted.2 hrest
      refine ⟨pq, h1, ?_, h3⟩
      simp only [List.length_append, List.length_singleton] at h2
      omega

theorem Load_of_saved (ops : Ops) (fs : FileSystem) (filename : String) (p : Pipeline)
    (hsorted : p.procList_.Sorted) (hback : ReadsBack ops p)
    (hsaved : fs.content filename = some (p.Save ops))
    (hconf : fs.CheckFileExists (filename ++ ".conf") = true →
      ∀ confMap, (LoadConf ops fs (filename ++ ".conf") confMap).1 = none) :
    (Pipeline.fresh.Load ops fs filename).status = none ∧
    (Pipeline.fresh.Load ops fs filename).pipeline.procList_ =
      (reloadProcs ops p p.procList_ Pipeline.fresh).procList_ ∧
    (Pipeline.fresh.Load ops fs filename).pipeline.blockList_ =
      (p.blockAt 0).reload ops ::
        p.procList_.map fun e => (p.blockAt e.2.blockIndex_).reload ops := by
  obtain ⟨hempty, hrb, hprocs, hdef⟩ := hback
  obtain ⟨k1, st1, hk1, hst1⟩ := loadTurns_saved_procs ops fs filename p p.procList_ true
    (LoadState.init Pipeline.fresh)
    (if (p.blockAt 0).items_ ≠ [] then
      (if p.procList_ ≠ [] then [""] else []) ++ (p.blockAt 0).items_.map fun item => item.ToString ops
     else [])
    hsorted hempty hrb hprocs (fun e _ => rfl)
  have hbl1 : st1.pipeline.blockList_ =
      Block.empty :: p.procList_.map fun e => (p.blockAt e.2.blockIndex_).reload ops := by
    rw [hst1, reloadProcs_blockList]
    rfl
  have hstep2 : ∃ k2 st2,
      loadTurns ops fs filename k2 st1
        (if (p.blockAt 0).items_ ≠ [] then
          (if p.procList_ ≠ [] then [""] else []) ++
            (p.blockAt 0).items_.map fun item => item.ToString ops
         else []) = some (st2, []) ∧
      st2.pipeline.procList_ = st1.pipeline.procList_ ∧
      st2.pipeline.blockList_ =
        (p.blockAt 0).reload ops ::
          p.procList_.map fun e => (p.blockAt e.2.blockIndex_).reload ops := by
    by_cases hitems : (p.blockAt 0).items_ = []
    · refine ⟨0, st1, ?_, rfl, ?_⟩
      · simp [hitems, loadTurns]
      · rw [hbl1]
        simp [Block.reload, Block.empty, hitems]
    · obtain ⟨st2, h1, h2, h3⟩ := loadTurns_saved_default ops fs filename (p.blockAt 0).items_
        st1 Block.empty _ hbl1 hdef
      have h3' : st2.pipeline.blockList_ =
          (p.blockAt 0).reload ops ::
            p.procList_.map fun e => (p.blockAt e.2.blockIndex_).reload ops := by
        rw [h3]
        simp [Block.reload, Block.empty]
      by_cases hp : p.procList_ = []
      · refine ⟨(p.blockAt 0).items_.length, st2, ?_, h2, h3'⟩
        simp only [hitems, hp, ne_eq, not_false_eq_true, not_true_eq_false, if_true, if_false,
          List.nil_append]
        exact h1
      · refine ⟨1 + (p.blockAt 0).items_.length, st2, ?_, h2, h3'⟩
        simp only [hitems, hp, ne_eq, not_false_eq_true, if_true, List.singleton_append]
        rw [loadTurns_add ops fs filename 1 _ _ _ _ _
          (loadTurns_empty_line ops fs filename st1 _ hempty)]
        exact h1
  obtain ⟨k2, st2, hk2, hpl2, hbl2⟩ := hstep2
  have hturns : loadTurns ops fs filename (k1 + k2) (LoadState.init Pipeline.fresh) (p.Save ops) =
      some (st2, []) := by
    unfold Pipeline.Save
    rw [loadTurns_add ops fs filename k1 k2 _ _ _ _ hk1]
    exact hk2
  have hload : Pipeline.fresh.Load ops fs filename =
      loadLoop ops fs filename 0 st2 [] := by
    unfold Pipeline.Load
    rw [hsaved]
    exact loadLoop_of_loadTurns ops fs filename _ _ _ _ _ hturns _ (le_refl _)
  rw [hload]
  unfold loadLoop
  cases hex : fs.CheckFileExists (filename ++ ".conf") with
  | true =>
    have hc := hconf hex st2.confMap
    cases hlc : LoadConf ops fs (filename ++ ".conf") st2.confMap with
    | mk r c =>
      rw [hlc] at hc
      simp only at hc
      subst hc
      simp only [if_true]
      refine ⟨?_, ?_, ?_⟩
      · trivial
      · rw [hpl2, hst1]
        rfl
      · exact hbl2
  | false =>
    simp only [Bool.false_eq_true, if_false]
    refine ⟨?_, ?_, ?_⟩
    · trivial
    · rw [hpl2, hst1]
      rfl
    · exact hbl2

theorem finalCheck_reload (ops : Ops) (p0 : Pipeline) (h : p0.AsLoaded ops)
    (m : StrMap Procedure) (hm : ∀ name, m.contains name = p0.procList_.contains name)
    (i : Nat) :
    ({ (p0.FinalCheckAfterLoad.blockAt i).reload ops with
        items_ := ((p0.FinalCheckAfterLoad.blockAt i).reload ops).items_.map (finalCheckItem m) } :
      Block) = p0.FinalCheckAfterLoad.blockAt i := by
  rw [blockAt_eq]
  unfold Pipeline.FinalCheckAfterLoad
  simp only [List.getElem?_map]
  cases hb : p0.blockList_[i]? with
  | none => simp [Block.reload, Block.empty]
  | some b =>
    have hmem : b ∈ p0.blockList_ := List.getElem?_mem hb
    obtain ⟨hpar, hitems⟩ := h.2 b hmem
    simp only [Option.map_some', Option.getD_some, Block.reload, List.map_map, Block.mk.injEq]
    refine ⟨?_, hpar.symm⟩
    apply List.map_congr_left
    intro item hitem
    simp only [Function.comp_apply]
    rw [(finalCheckItem_shellCmd p0.procList_ item).1,
      (finalCheckItem_shellCmd p0.procList_ item).2.1, ← hitems item hitem]
    exact finalCheckItem_congr m p0.procList_ hm item

theorem FinalCheckAfterLoad_blockAt (q : Pipeline) (j : Nat) (b : Block)
    (h : q.blockList_[j]? = some b) :
    q.FinalCheckAfterLoad.blockAt j =
      { b with items_ := b.items_.map (finalCheckItem q.procList_) } := by
  rw [blockAt_eq]
  unfold Pipeline.FinalCheckAfterLoad
  simp [List.getElem?_map, h]

/-- When the text `Save` writes for a loaded pipeline reads back as written, `Load` of it
followed by `FinalCheckAfterLoad` gives a pipeline structurally equal to the saved one. -/
theorem round_trip_of_ReadsBack (ops : Ops) (fs0 : FileSystem) (file0 : String)
    (fs : FileSystem) (filename : String)
    (hback : ReadsBack ops (Pipeline.fresh.Load ops fs0 file0).pipeline.FinalCheckAfterLoad)
    (hsaved : fs.content filename =
      some ((Pipeline.fresh.Load ops fs0 file0).pipeline.FinalCheckAfterLoad.Save ops))
    (hconf : fs.CheckFileExists (filename ++ ".conf") = true →
      ∀ confMap, (LoadConf ops fs (filename ++ ".conf") confMap).1 = none) :
    (Pipeline.fresh.Load ops fs filename).status = none ∧
    SameStructure (Pipeline.fresh.Load ops fs filename).pipeline.FinalCheckAfterLoad
      (Pipeline.fresh.Load ops fs0 file0).pipeline.FinalCheckAfterLoad := by
  have hAs : (Pipeline.fresh.Load ops fs0 file0).pipeline.AsLoaded ops :=
    Load_AsLoaded ops fs0 file0 _ (fresh_AsLoaded ops)
  generalize (Pipeline.fresh.Load ops fs0 file0).pipeline = p0 at hAs hback hsaved ⊢
  obtain ⟨hst, hpl, hbl⟩ :=
    Load_of_saved ops fs filename p0.FinalCheckAfterLoad hAs.1 hback hsaved hconf
  generalize (Pipeline.fresh.Load ops fs filename).pipeline = q at hpl hbl ⊢
  have hcont : ∀ name, q.procList_.contains name = p0.procList_.contains name := by
    intro name
    rw [Bool.eq_iff_iff, hpl, reloadProcs_contains]
    simp [Pipeline.fresh, StrMap.contains, StrMap.find, Pipeline.FinalCheckAfterLoad]
  have hrl : (reloadProcs ops p0.FinalCheckAfterLoad p0.FinalCheckAfterLoad.procList_
      Pipeline.fresh).blockList_ =
      Block.empty :: p0.FinalCheckAfterLoad.procList_.map fun e =>
        (p0.FinalCheckAfterLoad.blockAt e.2.blockIndex_).reload ops := by
    rw [reloadProcs_blockList]
    rfl
  refine ⟨hst, ?_, ?_, ?_⟩
  · intro name
    exact hcont name
  · intro name pq pp hq hp
    have hmem := StrMap.find_mem _ _ _ hp
    obtain ⟨pq1, h1, h2, h3⟩ := reloadProcs_bound ops p0.FinalCheckAfterLoad
      p0.FinalCheckAfterLoad.procList_ Pipeline.fresh hAs.1 name pp hmem
    have hq' : q.procList_.find name = some pq := hq
    rw [hpl, h1] at hq'
    simp only [Option.some.injEq] at hq'
    subst hq'
    have hidx : ∃ j, pq1.blockIndex_ = j + 1 := by
      refine ⟨pq1.blockIndex_ - 1, ?_⟩
      simp only [Pipeline.fresh, List.length_singleton] at h2
      omega
    obtain ⟨j, hj⟩ := hidx
    have hqb : q.blockList_[pq1.blockIndex_]? =
        some ((p0.FinalCheckAfterLoad.blockAt pp.blockIndex_).reload ops) := by
      rw [hrl, hj, List.getElem?_cons_succ] at h3
      rw [hbl, hj, List.getElem?_cons_succ]
      exact h3
    rw [FinalCheckAfterLoad_blockAt q _ _ hqb]
    exact finalCheck_reload ops p0 hAs q.procList_ hcont pp.blockIndex_
  · have hqb : q.blockList_[0]? = some ((p0.FinalCheckAfterLoad.blockAt 0).reload ops) := by
      rw [hbl]
      simp
    rw [FinalCheckAfterLoad_blockAt q _ _ hqb]
    exact finalCheck_reload ops p0 hAs q.procList_ hcont 0

/-! ### Promoted items -/

theorem parseProcArgs_some_order (args : List String) (m : StrMap String) (o : List String)
    (m1 : StrMap String) (o1 : List String) (h : parseProcArgs args m o = some (m1, o1)) :
    (∀ arg ∈ args, (regexMatchKeyValue arg).isSome = true) ∧
      o1 = o ++ args.filterMap fun arg => (regexMatchKeyValue arg).map Prod.fst := by
  have hall : ∀ arg ∈ args, (regexMatchKeyValue arg).isSome = true := by
    intro arg harg
    cases hr : regexMatchKeyValue arg with
    | none =>
      rw [parseProcArgs_eq_none args m o ⟨arg, harg, hr⟩] at h
      cases h
    | some kv => rfl
  obtain ⟨m2, hm2⟩ := parseProcArgs_eq_some args m o hall
  rw [h] at hm2
  simp only [Option.some.injEq, Prod.mk.injEq] at hm2
  exact ⟨hall, hm2.2⟩

/-- What `finalCheckItem` does to an item: nothing, or the promotion of a shell item. -/
theorem finalCheckItem_cases (procList : StrMap Procedure) (item : CommandItem) :
    finalCheckItem procList item = item ∨
    (item.type_ = CommandType.TYPE_SHELL ∧ procList.contains item.shellCmd_ = true ∧
      ∃ m, parseProcArgs item.shellArgs_ [] [] =
          some (m, item.shellArgs_.filterMap fun arg => (regexMatchKeyValue arg).map Prod.fst) ∧
        finalCheckItem procList item =
          { item with
            type_ := CommandType.TYPE_PROC
            procName_ := item.shellCmd_
            procArgs_ := m
            procArgsOrder_ :=
              item.shellArgs_.filterMap fun arg => (regexMatchKeyValue arg).map Prod.fst }) := by
  unfold finalCheckItem
  by_cases ht : item.type_ = CommandType.TYPE_SHELL
  · by_cases hp : procList.contains item.shellCmd_ = true
    · cases hargs : parseProcArgs item.shellArgs_ [] [] with
      | none => simp [ht, hp]
      | some r =>
        obtain ⟨m, o⟩ := r
        have ho := (parseProcArgs_some_order _ _ _ _ _ hargs).2
        simp only [List.nil_append] at ho
        subst ho
        right
        exact ⟨ht, hp, m, rfl, by simp [ht, hp]⟩
    · simp [ht, hp]
  · simp [ht]

/-- An item that `FinalCheckAfterLoad` has promoted: what it was and what it is. -/
theorem promoted_item (p : Pipeline) (i j : Nat) (item r : CommandItem)
    (hitem : p.itemAt i j = some item) (hs : item.type_ = CommandType.TYPE_SHELL)
    (hr : p.FinalCheckAfterLoad.itemAt i j = some r) (hp : r.type_ = CommandType.TYPE_PROC) :
    ∃ m, parseProcArgs item.shellArgs_ [] [] =
        some (m, item.shellArgs_.filterMap fun arg => (regexMatchKeyValue arg).map Prod.fst) ∧
      r = { item with
            type_ := CommandType.TYPE_PROC
            procName_ := item.shellCmd_
            procArgs_ := m
            procArgsOrder_ :=
              item.shellArgs_.filterMap fun arg => (regexMatchKeyValue arg).map Prod.fst } := by
  rw [FinalCheckAfterLoad_itemAt, hitem] at hr
  simp only [Option.map_some', Option.some.injEq] at hr
  rcases finalCheckItem_cases p.procList_ item with h | ⟨_, _, m, hm, h⟩
  · rw [h] at hr
    subst hr
    rw [hs] at hp
    cases hp
  · rw [h] at hr
    exact ⟨m, hm, hr.symm⟩

/-- C11 (counterexample): with a procedure `build`, the call `build 1a=x` is promoted with
the key `1a`, which starts with a digit and so does not match `[A-Za-z_][A-Za-z0-9_]*`. -/
theorem C11_counterexample :
    (loadLines fileDigitKey).status = none ∧
    (loadLines fileDigitKey).pipeline.itemAt 0 0 =
      some (CommandItem.mkShell specOps "build" ["1a=x"] "") ∧
    (loadLines fileDigitKey).pipeline.FinalCheckAfterLoad.itemAt 0 0 =
      some { CommandItem.mkShell specOps "build" ["1a=x"] "" with
             type_ := CommandType.TYPE_PROC, procName_ := "build"
             procArgs_ := [("1a", "x")], procArgsOrder_ := ["1a"] } ∧
    matchesTokenPattern "1a" = false := by
  decide

/-- C11 (amended): every key of a procedure-call item produced by `FinalCheckAfterLoad` is a
non-empty run of word characters (letters, digits, underscores): it matches
`[A-Za-z0-9_]+`, the first group of the pattern the arguments are matched against. -/
theorem C11_keys_are_word_runs (p : Pipeline) (i j : Nat) (item r : CommandItem)
    (hitem : p.itemAt i j = some item) (hs : item.type_ = CommandType.TYPE_SHELL)
    (hr : p.FinalCheckAfterLoad.itemAt i j = some r) (hp : r.type_ = CommandType.TYPE_PROC) :
    ∀ key ∈ r.procArgsOrder_, key ≠ "" ∧ ∀ c ∈ key.data, isWordChar c = true := by
  obtain ⟨m, hm, rfl⟩ := promoted_item p i j item r hitem hs hr hp
  intro key hkey
  simp only [List.mem_filterMap, Option.map_eq_some', Prod.exists, exists_and_right,
    exists_eq_right] at hkey
  obtain ⟨arg, _, value, hkv⟩ := hkey
  have hform := (regexMatchKeyValue_iff arg key value).mp hkv
  exact ⟨hform.2.1, hform.2.2.1⟩

/-- Witness of C11 (amended): the promoted call `build 1a=x` and its key `1a`. -/
theorem C11_keys_are_word_runs_witness :
    ((loadLines fileDigitKey).pipeline.itemAt 0 0 =
        some (CommandItem.mkShell specOps "build" ["1a=x"] "") ∧
      (loadLines fileDigitKey).pipeline.FinalCheckAfterLoad.itemAt 0 0 =
        some { CommandItem.mkShell specOps "build" ["1a=x"] "" with
               type_ := CommandType.TYPE_PROC, procName_ := "build"
               procArgs_ := [("1a", "x")], procArgsOrder_ := ["1a"] }) ∧
    ∀ key ∈ ["1a"], key ≠ "" ∧ ∀ c ∈ key.data, isWordChar c = true :=
  ⟨⟨by decide, by decide⟩,
   C11_keys_are_word_runs (loadLines fileDigitKey).pipeline 0 0
     (CommandItem.mkShell specOps "build" ["1a=x"] "")
     { CommandItem.mkShell specOps "build" ["1a=x"] "" with
       type_ := CommandType.TYPE_PROC, procName_ := "build"
       procArgs_ := [("1a", "x")], procArgsOrder_ := ["1a"] }
     (by decide) rfl (by decide) rfl⟩

/-- The item `AppendCommand(line)` appends for a line that tokenizes: a shell item whose
command-line text (the value `ToString` returns) is rebuilt as the program name followed,
for each argument in order, by a space and the shell encoding of the argument. -/
theorem AppendCommand_rebuilds_cmdLine (ops : Ops) (block : Block) (line cmd : String)
    (arguments : List String) (h : ops.ParseCommandLine line = some (cmd, arguments)) :
    ∃ item, block.AppendCommand ops line =
        (true, { block with items_ := block.items_ ++ [item] }) ∧
      item.type_ = CommandType.TYPE_SHELL ∧ item.shellCmd_ = cmd ∧
      item.shellArgs_ = arguments ∧
      item.cmdLine_ = arguments.foldl (fun s arg => s ++ (" " ++ ops.EncodeShell arg)) cmd ∧
      item.ToString ops = arguments.foldl (fun s arg => s ++ (" " ++ ops.EncodeShell arg)) cmd := by
  refine ⟨CommandItem.mkShell ops cmd arguments "", ?_, rfl, rfl, rfl, ?_, ?_⟩
  · simp [Block.AppendCommand, h]
  · simp [CommandItem.mkShell]
  · simp [CommandItem.ToString, CommandItem.mkShell]

/-- C12 (the code at the failing input): the lines `sleep 0.2 && echo A` and `echo "a b"`
tokenize, and the items appended for them have the command-line texts
`sleep 0.2 '&&' echo A` and `echo 'a b'`; these are what `ToString` returns and `Save`
writes, not the original lines. -/
theorem C12_original_line_is_not_kept :
    (specOps.ParseCommandLine lineAndAnd = some ("sleep", ["0.2", "&&", "echo", "A"]) ∧
      (loadLines [lineAndAnd]).status = none ∧
      ((loadLines [lineAndAnd]).pipeline.itemAt 0 0).map (fun item => item.cmdLine_) =
        some ("sleep 0.2 " ++ String.mk [Char.ofNat 39] ++ "&&" ++ String.mk [Char.ofNat 39] ++
          " echo A") ∧
      ((loadLines [lineAndAnd]).pipeline.itemAt 0 0).map (fun item => item.ToString specOps) ≠
        some lineAndAnd ∧
      (loadLines [lineAndAnd]).pipeline.Save specOps ≠ [lineAndAnd]) ∧
    (specOps.ParseCommandLine lineDoubleQuoted = some ("echo", ["a b"]) ∧
      (loadLines [lineDoubleQuoted]).status = none ∧
      ((loadLines [lineDoubleQuoted]).pipeline.itemAt 0 0).map (fun item => item.cmdLine_) =
        some ("echo " ++ String.mk [Char.ofNat 39] ++ "a b" ++ String.mk [Char.ofNat 39]) ∧
      ((loadLines [lineDoubleQuoted]).pipeline.itemAt 0 0).map
          (fun item => item.ToString specOps) ≠ some lineDoubleQuoted ∧
      (loadLines [lineDoubleQuoted]).pipeline.Save specOps ≠ [lineDoubleQuoted]) := by
  decide

theorem FinalCheckAfterLoad_blockAt_all (p : Pipeline) (i : Nat) :
    p.FinalCheckAfterLoad.blockAt i =
      { p.blockAt i with items_ := (p.blockAt i).items_.map (finalCheckItem p.procList_) } := by
  rw [blockAt_eq, blockAt_eq]
  unfold Pipeline.FinalCheckAfterLoad
  simp only [List.getElem?_map]
  cases p.blockList_[i]? with
  | none => simp [Block.empty]
  | some b => simp

/-- C17: `FinalCheckAfterLoad` changes only the classification of items. The procedure map
and the number of blocks are the same as before; every block keeps its parallel flag and
its number of items; the item at every position keeps its command-line text, program name
and argument sequence, and it is either unchanged or a shell item that became a procedure
call and differs from what it was in nothing but the type, the procedure name, the argument
map and the argument-key order. -/
theorem C17_FinalCheck_changes_only_classification (p : Pipeline) :
    p.FinalCheckAfterLoad.procList_ = p.procList_ ∧
    p.FinalCheckAfterLoad.blockList_.length = p.blockList_.length ∧
    (∀ i, (p.FinalCheckAfterLoad.blockAt i).parallel_ = (p.blockAt i).parallel_ ∧
      (p.FinalCheckAfterLoad.blockAt i).items_.length = (p.blockAt i).items_.length) ∧
    (∀ i j, (p.FinalCheckAfterLoad.itemAt i j).isSome = (p.itemAt i j).isSome) ∧
    (∀ i j item, p.itemAt i j = some item →
      ∃ r, p.FinalCheckAfterLoad.itemAt i j = some r ∧
        r.cmdLine_ = item.cmdLine_ ∧ r.shellCmd_ = item.shellCmd_ ∧
        r.shellArgs_ = item.shellArgs_ ∧
        (r = item ∨
          (item.type_ = CommandType.TYPE_SHELL ∧ r.type_ = CommandType.TYPE_PROC ∧
            r = { item with
                  type_ := r.type_
                  procName_ := r.procName_
                  procArgs_ := r.procArgs_
                  procArgsOrder_ := r.procArgsOrder_ }))) := by
  refine ⟨rfl, by simp [Pipeline.FinalCheckAfterLoad], ?_, ?_, ?_⟩
  · intro i
    rw [FinalCheckAfterLoad_blockAt_all]
    simp
  · intro i j
    rw [FinalCheckAfterLoad_itemAt]
    simp
  · intro i j item hitem
    refine ⟨finalCheckItem p.procList_ item, ?_, ?_⟩
    · rw [FinalCheckAfterLoad_itemAt, hitem]
      rfl
    · obtain ⟨h1, h2, h3⟩ := finalCheckItem_shellCmd p.procList_ item
      refine ⟨h3, h1, h2, ?_⟩
      rcases finalCheckItem_cases p.procList_ item with h | ⟨hs, _, m, _, h⟩
      · exact Or.inl h
      · right
        refine ⟨hs, ?_, ?_⟩
        · rw [h]
        · rw [h]

/-- Witness of C17: the promoted call of scenario 4. -/
theorem C17_FinalCheck_changes_only_classification_witness :
    (loadLines fileScenario4).pipeline.itemAt 0 0 = some itemBuildCall ∧
    ∃ r, (loadLines fileScenario4).pipeline.FinalCheckAfterLoad.itemAt 0 0 = some r ∧
      r.cmdLine_ = itemBuildCall.cmdLine_ ∧ r.shellCmd_ = itemBuildCall.shellCmd_ ∧
      r.shellArgs_ = itemBuildCall.shellArgs_ ∧
      (r = itemBuildCall ∨
        (itemBuildCall.type_ = CommandType.TYPE_SHELL ∧ r.type_ = CommandType.TYPE_PROC ∧
          r = { itemBuildCall with
                type_ := r.type_
                procName_ := r.procName_
                procArgs_ := r.procArgs_
                procArgsOrder_ := r.procArgsOrder_ })) :=
  ⟨by decide,
   (C17_FinalCheck_changes_only_classification (loadLines fileScenario4).pipeline).2.2.2.2 0 0
     itemBuildCall (by decide)⟩

theorem parseProcArgs_contains_mono (args : List String) (m : StrMap String) (o : List String)
    (m1 : StrMap String) (o1 : List String) (h : parseProcArgs args m o = some (m1, o1))
    (key : String) (hk : m.contains key = true) : m1.contains key = true := by
  induction args generalizing m o with
  | nil =>
    simp only [parseProcArgs, Option.some.injEq, Prod.mk.injEq] at h
    rw [← h.1]
    exact hk
  | cons a rest ih =>
    unfold parseProcArgs at h
    cases ha : regexMatchKeyValue a with
    | none => simp [ha] at h
    | some kv =>
      obtain ⟨k, v⟩ := kv
      simp only [ha] at h
      apply ih _ _ h
      rw [StrMap.contains_insert, hk]
      simp

/-- An argument list whose keys include `key` has a last argument carrying `key`. -/
theorem last_occurrence (args : List String) (key : String)
    (h : key ∈ args.filterMap fun arg => (regexMatchKeyValue arg).map Prod.fst) :
    ∃ pre arg post value, args = pre ++ arg :: post ∧
      regexMatchKeyValue arg = some (key, value) ∧
      ∀ a ∈ post, ∀ v, regexMatchKeyValue a ≠ some (key, v) := by
  induction args with
  | nil => simp at h
  | cons a rest ih =>
    by_cases hrest : key ∈ rest.filterMap fun arg => (regexMatchKeyValue arg).map Prod.fst
    · obtain ⟨pre, arg, post, value, h1, h2, h3⟩ := ih hrest
      exact ⟨a :: pre, arg, post, value, by rw [h1]; rfl, h2, h3⟩
    · simp only [List.filterMap_cons] at h
      cases ha : regexMatchKeyValue a with
      | none =>
        simp only [ha, Option.map_none'] at h
        exact absurd h hrest
      | some kv =>
        obtain ⟨k, v⟩ := kv
        simp only [ha, Option.map_some', List.mem_cons] at h
        rcases h with h | h
        · subst h
          refine ⟨[], a, rest, v, rfl, ha, ?_⟩
          intro b hb w hbw
          apply hrest
          simp only [List.mem_filterMap, Option.map_eq_some', Prod.exists, exists_and_right,
            exists_eq_right]
          exact ⟨b, hb, w, hbw⟩
        · exact absurd h hrest

theorem forall₂_of_forall_exists {α β : Type} (R : α → β → Prop) (l : List α)
    (h : ∀ a ∈ l, ∃ b, R a b) : ∃ bs, List.Forall₂ R l bs := by
  induction l with
  | nil => exact ⟨[], List.Forall₂.nil⟩
  | cons a rest ih =>
    obtain ⟨b, hb⟩ := h a (List.mem_cons_self _ _)
    obtain ⟨bs, hbs⟩ := ih (fun x hx => h x (List.mem_cons_of_mem _ hx))
    exact ⟨b :: bs, List.Forall₂.cons hb hbs⟩

theorem FormatProcCalling_of_found (ops : Ops) (m : StrMap String) (order values : List String)
    (init : String) (h : List.Forall₂ (fun key value => m.find key = some value) order values) :
    order.foldl
        (fun s name => s ++ (" " ++ name ++ "=" ++ ops.EncodeShell ((m.find name).getD ""))) init =
      (order.zip values).foldl
        (fun s kv => s ++ (" " ++ kv.1 ++ "=" ++ ops.EncodeShell kv.2)) init := by
  induction h generalizing init with
  | nil => rfl
  | cons hkv _ ih =>
    simp only [List.foldl_cons, List.zip_cons_cons, hkv, Option.getD_some]
    exact ih _

/-- C19: the argument lookup of `FormatProcCalling` never misses for promoted items. For
every item promoted by `FinalCheckAfterLoad`: every name of the argument-key order list is a
key of the argument map; the list has one entry per original argument; and `ToString` of
the item is the procedure name followed, for each entry of the list in order, by ` key=`
and the shell encoding of the value the map holds for the key, which is the value of the
last argument carrying that key. -/
theorem C19_lookup_never_misses (ops : Ops) (p : Pipeline) (i j : Nat) (item r : CommandItem)
    (hitem : p.itemAt i j = some item) (hs : item.type_ = CommandType.TYPE_SHELL)
    (hr : p.FinalCheckAfterLoad.itemAt i j = some r) (hp : r.type_ = CommandType.TYPE_PROC) :
    (∀ key ∈ r.procArgsOrder_, r.procArgs_.contains key = true) ∧
    r.procArgsOrder_.length = item.shellArgs_.length ∧
    ∃ values,
      List.Forall₂
        (fun key value => r.procArgs_.find key = some value ∧
          ∃ pre arg post, item.shellArgs_ = pre ++ arg :: post ∧ KeyValueForm arg key value ∧
            ∀ a ∈ post, ∀ v, ¬ KeyValueForm a key v)
        r.procArgsOrder_ values ∧
      r.ToString ops =
        (r.procArgsOrder_.zip values).foldl
          (fun s kv => s ++ (" " ++ kv.1 ++ "=" ++ ops.EncodeShell kv.2)) r.procName_ := by
  obtain ⟨m, hm, rfl⟩ := promoted_item p i j item r hitem hs hr hp
  obtain ⟨hall, _⟩ := parseProcArgs_some_order _ _ _ _ _ hm
  have hfind : ∀ key ∈ item.shellArgs_.filterMap fun arg => (regexMatchKeyValue arg).map Prod.fst,
      ∃ value, m.find key = some value ∧
        ∃ pre arg post, item.shellArgs_ = pre ++ arg :: post ∧ KeyValueForm arg key value ∧
          ∀ a ∈ post, ∀ v, ¬ KeyValueForm a key v := by
    intro key hkey
    obtain ⟨pre, arg, post, value, h1, h2, h3⟩ := last_occurrence item.shellArgs_ key hkey
    refine ⟨value, (parseProcArgs_find _ _ _ _ _ hm).2 pre arg post key value h1 h2 h3,
      pre, arg, post, h1, (regexMatchKeyValue_iff arg key value).mp h2, ?_⟩
    intro a ha v hv
    exact h3 a ha v ((regexMatchKeyValue_iff a key v).mpr hv)
  refine ⟨?_, ?_, ?_⟩
  · intro key hkey
    obtain ⟨value, hv, _⟩ := hfind key hkey
    simp [StrMap.contains, hv]
  · simp only
    have hlen : ∀ args : List String, (∀ arg ∈ args, (regexMatchKeyValue arg).isSome = true) →
        (args.filterMap fun arg => (regexMatchKeyValue arg).map Prod.fst).length = args.length := by
      intro args
      induction args with
      | nil => intro _; rfl
      | cons a rest ih =>
        intro hargs
        have ha := hargs a (List.mem_cons_self _ _)
        cases hra : regexMatchKeyValue a with
        | none => simp [hra] at ha
        | some kv =>
          simp only [List.filterMap_cons, hra, Option.map_some', List.length_cons]
          rw [ih (fun x hx => hargs x (List.mem_cons_of_mem _ hx))]
    exact hlen item.shellArgs_ hall
  · obtain ⟨values, hvalues⟩ := forall₂_of_forall_exists _ _ hfind
    refine ⟨values, hvalues, ?_⟩
    have hfound : List.Forall₂ (fun key value => m.find key = some value)
        (item.shellArgs_.filterMap fun arg => (regexMatchKeyValue arg).map Prod.fst) values :=
      hvalues.imp fun _ _ h => h.1
    simp only [CommandItem.ToString, FormatProcCalling]
    rw [if_neg (by simp)]
    exact FormatProcCalling_of_found ops m _ values _ hfound

/-- Witness of C19: the call `build a=1 b=2 a=3` is promoted with the keys `a`, `b`, `a`
and is written `build a=3 b=2 a=3`. -/
theorem C19_lookup_never_misses_witness :
    ((loadLines fileRepeatedKey).pipeline.itemAt 0 0 =
        some (CommandItem.mkShell specOps "build" ["a=1", "b=2", "a=3"] "") ∧
      (loadLines fileRepeatedKey).pipeline.FinalCheckAfterLoad.itemAt 0 0 =
        some { CommandItem.mkShell specOps "build" ["a=1", "b=2", "a=3"] "" with
               type_ := CommandType.TYPE_PROC, procName_ := "build"
               procArgs_ := [("a", "3"), ("b", "2")], procArgsOrder_ := ["a", "b", "a"] } ∧
      CommandItem.ToString specOps
          { CommandItem.mkShell specOps "build" ["a=1", "b=2", "a=3"] "" with
            type_ := CommandType.TYPE_PROC, procName_ := "build"
            procArgs_ := [("a", "3"), ("b", "2")], procArgsOrder_ := ["a", "b", "a"] } =
        "build a=3 b=2 a=3") ∧
    (∀ key ∈ ["a", "b", "a"], StrMap.contains [("a", "3"), ("b", "2")] key = true) ∧
    ["a", "b", "a"].length = ["a=1", "b=2", "a=3"].length ∧
    ∃ values,
      List.Forall₂
        (fun key value => StrMap.find [("a", "3"), ("b", "2")] key = some value ∧
          ∃ pre arg post, ["a=1", "b=2", "a=3"] = pre ++ arg :: post ∧
            KeyValueForm arg key value ∧ ∀ a ∈ post, ∀ v, ¬ KeyValueForm a key v)
        ["a", "b", "a"] values ∧
      CommandItem.ToString specOps
          { CommandItem.mkShell specOps "build" ["a=1", "b=2", "a=3"] "" with
            type_ := CommandType.TYPE_PROC, procName_ := "build"
            procArgs_ := [("a", "3"), ("b", "2")], procArgsOrder_ := ["a", "b", "a"] } =
        (["a", "b", "a"].zip values).foldl
          (fun s kv => s ++ (" " ++ kv.1 ++ "=" ++ specOps.EncodeShell kv.2)) "build" :=
  ⟨⟨by decide, by decide, by decide⟩,
   C19_lookup_never_misses specOps (loadLines fileRepeatedKey).pipeline 0 0
     (CommandItem.mkShell specOps "build" ["a=1", "b=2", "a=3"] "")
     { CommandItem.mkShell specOps "build" ["a=1", "b=2", "a=3"] "" with
       type_ := CommandType.TYPE_PROC, procName_ := "build"
       procArgs_ := [("a", "3"), ("b", "2")], procArgsOrder_ := ["a", "b", "a"] }
     (by decide) rfl (by decide) rfl⟩

/-! ### `SetDefaultBlock` and `LoadConf` -/

theorem appendCommands_all (ops : Ops) (cmdList : List String) (block : Block)
    (h : ∀ c ∈ cmdList, (ops.ParseCommandLine c).isSome = true) :
    ∃ items, appendCommands ops cmdList block =
        (true, { block with items_ := block.items_ ++ items }) ∧
      List.Forall₂ (IsItemOf ops) cmdList items := by
  induction cmdList generalizing block with
  | nil => exact ⟨[], by simp [appendCommands], List.Forall₂.nil⟩
  | cons c rest ih =>
    have hc := h c (List.mem_cons_self _ _)
    cases hp : ops.ParseCommandLine c with
    | none => simp [hp] at hc
    | some ca =>
      obtain ⟨cmd, arguments⟩ := ca
      obtain ⟨items, h1, h2⟩ := ih
        { block with items_ := block.items_ ++ [CommandItem.mkShell ops cmd arguments ""] }
        (fun x hx => h x (List.mem_cons_of_mem _ hx))
      refine ⟨CommandItem.mkShell ops cmd arguments "" :: items, ?_,
        List.Forall₂.cons ⟨cmd, arguments, hp, rfl⟩ h2⟩
      simp only [appendCommands, Block.AppendCommand, hp, h1]
      simp

theorem appendCommands_first_bad (ops : Ops) (pre : List String) (bad : String)
    (post : List String) (block : Block)
    (hpre : ∀ c ∈ pre, (ops.ParseCommandLine c).isSome = true)
    (hbad : ops.ParseCommandLine bad = none) :
    ∃ items, appendCommands ops (pre ++ bad :: post) block =
        (false, { block with items_ := block.items_ ++ items }) ∧
      List.Forall₂ (IsItemOf ops) pre items := by
  induction pre generalizing block with
  | nil =>
    refine ⟨[], ?_, List.Forall₂.nil⟩
    simp [appendCommands, Block.AppendCommand, hbad]
  | cons c rest ih =>
    have hc := hpre c (List.mem_cons_self _ _)
    cases hp : ops.ParseCommandLine c with
    | none => simp [hp] at hc
    | some ca =>
      obtain ⟨cmd, arguments⟩ := ca
      obtain ⟨items, h1, h2⟩ := ih
        { block with items_ := block.items_ ++ [CommandItem.mkShell ops cmd arguments ""] }
        (fun x hx => hpre x (List.mem_cons_of_mem _ hx))
      refine ⟨CommandItem.mkShell ops cmd arguments "" :: items, ?_,
        List.Forall₂.cons ⟨cmd, arguments, hp, rfl⟩ h2⟩
      rw [List.cons_append, appendCommands]
      simp only [Block.AppendCommand, hp]
      rw [h1]
      simp

/-- C18: `SetDefaultBlock(cmdList, parallel)` replaces block 0 and nothing else. On every
pipeline (its pool is `block0 :: blocks`): the procedure map and the blocks at index 1 and
above are unchanged. If every command tokenizes, it returns success and block 0 holds
exactly the shell items of the elements of `cmdList`, one per element and in order, with the
parallel flag equal to the argument. If some command fails to tokenize, it returns failure
and block 0 holds the items of the commands before the first failing one, with the parallel
flag `false`. What block 0 held before is gone in both cases. -/
theorem C18_SetDefaultBlock_replaces_block0 (ops : Ops) (p : Pipeline) (block0 : Block)
    (blocks : List Block) (cmdList : List String) (parallel : Bool)
    (hb : p.blockList_ = block0 :: blocks) :
    (p.SetDefaultBlock ops cmdList parallel).2.procList_ = p.procList_ ∧
    (p.SetDefaultBlock ops cmdList parallel).2.blockList_.tail = blocks ∧
    ((∀ c ∈ cmdList, (ops.ParseCommandLine c).isSome = true) →
      (p.SetDefaultBlock ops cmdList parallel).1 = true ∧
      ∃ items, (p.SetDefaultBlock ops cmdList parallel).2.blockList_ =
          { items_ := items, parallel_ := parallel } :: blocks ∧
        List.Forall₂ (IsItemOf ops) cmdList items) ∧
    (∀ pre bad post, cmdList = pre ++ bad :: post →
      (∀ c ∈ pre, (ops.ParseCommandLine c).isSome = true) →
      ops.ParseCommandLine bad = none →
      (p.SetDefaultBlock ops cmdList parallel).1 = false ∧
      ∃ items, (p.SetDefaultBlock ops cmdList parallel).2.blockList_ =
          { items_ := items, parallel_ := false } :: blocks ∧
        List.Forall₂ (IsItemOf ops) pre items) := by
  unfold Pipeline.SetDefaultBlock
  rw [hb]
  simp only
  refine ⟨?_, ?_, ?_, ?_⟩
  · split <;> rfl
  · split <;> rfl
  · intro hall
    obtain ⟨items, h1, h2⟩ := appendCommands_all ops cmdList block0.Clear hall
    rw [h1]
    exact ⟨rfl, items, by simp [Block.SetParallel, Block.Clear], h2⟩
  · intro pre bad post hsplit hpre hbad
    obtain ⟨items, h1, h2⟩ := appendCommands_first_bad ops pre bad post block0.Clear hpre hbad
    rw [hsplit, h1]
    exact ⟨rfl, items, by simp [Block.Clear], h2⟩

/-- Witness of C18: on the pipeline of scenario 4, two commands that tokenize, and a list
whose second command has an unterminated quote. -/
theorem C18_SetDefaultBlock_replaces_block0_witness :
    (loadLines fileScenario4).pipeline.blockList_ =
      { items_ := [itemBuildCall], parallel_ := false } ::
        [{ items_ := [CommandItem.mkShell specOps "echo" ["building $name with $opts"] ""]
           parallel_ := false }] ∧
    ((loadLines fileScenario4).pipeline.SetDefaultBlock specOps ["echo a", "echo b"] true).2 =
      { procList_ := (loadLines fileScenario4).pipeline.procList_
        blockList_ :=
          { items_ := [CommandItem.mkShell specOps "echo" ["a"] "",
                       CommandItem.mkShell specOps "echo" ["b"] ""]
            parallel_ := true } ::
          [{ items_ := [CommandItem.mkShell specOps "echo" ["building $name with $opts"] ""]
             parallel_ := false }] } ∧
    (((loadLines fileScenario4).pipeline.SetDefaultBlock specOps
        ["echo a", "echo " ++ String.mk [Char.ofNat 39] ++ "x", "echo c"] true).1 = false ∧
      ∃ items, ((loadLines fileScenario4).pipeline.SetDefaultBlock specOps
          ["echo a", "echo " ++ String.mk [Char.ofNat 39] ++ "x", "echo c"] true).2.blockList_ =
          { items_ := items, parallel_ := false } ::
            [{ items_ := [CommandItem.mkShell specOps "echo" ["building $name with $opts"] ""]
               parallel_ := false }] ∧
        List.Forall₂ (IsItemOf specOps) ["echo a"] items) :=
  ⟨by decide, by decide,
   (C18_SetDefaultBlock_replaces_block0 specOps (loadLines fileScenario4).pipeline
      { items_ := [itemBuildCall], parallel_ := false }
      [{ items_ := [CommandItem.mkShell specOps "echo" ["building $name with $opts"] ""]
         parallel_ := false }]
      ["echo a", "echo " ++ String.mk [Char.ofNat 39] ++ "x", "echo c"] true
      (by decide)).2.2.2 ["echo a"] ("echo " ++ String.mk [Char.ofNat 39] ++ "x") ["echo c"]
      rfl (by decide) (by decide)⟩

theorem loadConfLines_ok_iff (ops : Ops) (lines : List String) (confMap : StrMap String) :
    (loadConfLines ops lines confMap).1 = none ↔
      ∀ line ∈ lines, (ops.IsVarLine line).isSome = true ∨ ops.IsEmptyLine line = true ∨
        ops.IsCommentLine line = true := by
  induction lines generalizing confMap with
  | nil => simp [loadConfLines]
  | cons line rest ih =>
    unfold loadConfLines
    cases hv : ops.IsVarLine line with
    | some nv =>
      obtain ⟨name, value⟩ := nv
      simp only [ih, List.mem_cons, forall_eq_or_imp, hv, Option.isSome_some, true_or, true_and]
    | none =>
      cases he : ops.IsEmptyLine line with
      | true =>
        simp only [Bool.not_true, Bool.false_and, Bool.false_eq_true, if_false, ih, List.mem_cons,
          forall_eq_or_imp, hv, he, or_true, true_or, true_and]
      | false =>
        cases hc : ops.IsCommentLine line with
        | true =>
          simp only [Bool.not_true, Bool.and_false, Bool.false_eq_true, if_false, ih,
            List.mem_cons, forall_eq_or_imp, hv, he, hc, or_true, true_and]
        | false =>
          simp [hv, he, hc]

theorem loadConfLines_find (ops : Ops) (lines : List String) (confMap confMap1 : StrMap String)
    (h : loadConfLines ops lines confMap = (none, confMap1)) :
    (∀ name, (∀ l ∈ lines, ∀ v, ops.IsVarLine l ≠ some (name, v)) →
        confMap1.find name = confMap.find name) ∧
    (∀ pre line post name value, lines = pre ++ line :: post →
        ops.IsVarLine line = some (name, value) →
        (∀ l ∈ post, ∀ v, ops.IsVarLine l ≠ some (name, v)) →
        confMap1.find name = some value) := by
  induction lines generalizing confMap with
  | nil =>
    simp only [loadConfLines, Prod.mk.injEq, true_and] at h
    subst h
    refine ⟨fun _ _ => rfl, ?_⟩
    intro pre line post name value hsplit
    simp at hsplit
  | cons a rest ih =>
    unfold loadConfLines at h
    cases hv : ops.IsVarLine a with
    | some nv =>
      obtain ⟨k, v⟩ := nv
      simp only [hv] at h
      obtain ⟨ih1, ih2⟩ := ih (confMap.insert k v) h
      constructor
      · intro name hname
        rw [ih1 name (fun l hl w => hname l (List.mem_cons_of_mem _ hl) w)]
        apply StrMap.find_insert_of_ne
        intro hkk
        subst hkk
        exact hname a (List.mem_cons_self _ _) v hv
      · intro pre line post name value hsplit hline hpost
        cases pre with
        | nil =>
          simp only [List.nil_append, List.cons.injEq] at hsplit
          obtain ⟨rfl, rfl⟩ := hsplit
          rw [hv] at hline
          simp only [Option.some.injEq, Prod.mk.injEq] at hline
          obtain ⟨rfl, rfl⟩ := hline
          rw [ih1 k hpost]
          exact StrMap.find_insert_self _ _ _
        | cons b pre1 =>
          simp only [List.cons_append, List.cons.injEq] at hsplit
          obtain ⟨rfl, hrest⟩ := hsplit
          exact ih2 pre1 line post name value hrest hline hpost
    | none =>
      simp only [hv] at h
      split at h
      · simp at h
      · obtain ⟨ih1, ih2⟩ := ih confMap h
        constructor
        · intro name hname
          exact ih1 name (fun l hl w => hname l (List.mem_cons_of_mem _ hl) w)
        · intro pre line post name value hsplit hline hpost
          cases pre with
          | nil =>
            simp only [List.nil_append, List.cons.injEq] at hsplit
            obtain ⟨rfl, rfl⟩ := hsplit
            rw [hv] at hline
            cases hline
          | cons b pre1 =>
            simp only [List.cons_append, List.cons.injEq] at hsplit
            obtain ⟨rfl, hrest⟩ := hsplit
            exact ih2 pre1 line post name value hrest hline hpost

/-- C14: a configuration file admits only variables, empty lines and comments. For the
lines of every configuration file that could be opened, `LoadConf` returns success if and
only if every line is a variable line, an empty line or a comment line; so a line that is
none of the three (an include line, a command line) makes it fail. On success the
configuration map binds each variable name that occurs to the value of its last
occurrence, and the binding of every name that does not occur is as before. -/
theorem C14_LoadConf_admits_only_variables (ops : Ops) (fs : FileSystem) (filename : String)
    (lines : List String) (confMap : StrMap String) (hfile : fs.content filename = some lines) :
    ((LoadConf ops fs filename confMap).1 = none ↔
      ∀ line ∈ lines, (ops.IsVarLine line).isSome = true ∨ ops.IsEmptyLine line = true ∨
        ops.IsCommentLine line = true) ∧
    (∀ line ∈ lines, ops.IsVarLine line = none → ops.IsEmptyLine line = false →
      ops.IsCommentLine line = false →
      (LoadConf ops fs filename confMap).1 = some LoadError.invalidConf) ∧
    ((LoadConf ops fs filename confMap).1 = none →
      (∀ pre line post name value, lines = pre ++ line :: post →
        ops.IsVarLine line = some (name, value) →
        (∀ l ∈ post, ∀ v, ops.IsVarLine l ≠ some (name, v)) →
        (LoadConf ops fs filename confMap).2.find name = some value) ∧
      (∀ name, (∀ l ∈ lines, ∀ v, ops.IsVarLine l ≠ some (name, v)) →
        (LoadConf ops fs filename confMap).2.find name = confMap.find name)) := by
  have hconf : LoadConf ops fs filename confMap = loadConfLines ops lines confMap := by
    unfold LoadConf
    rw [hfile]
  rw [hconf]
  have hiff := loadConfLines_ok_iff ops lines confMap
  refine ⟨hiff, ?_, ?_⟩
  · intro line hline hv he hc
    cases hr : (loadConfLines ops lines confMap).1 with
    | none =>
      rcases hiff.mp hr line hline with h | h | h
      · simp [hv] at h
      · rw [he] at h; cases h
      · rw [hc] at h; cases h
    | some e => rw [loadConfLines_error ops lines confMap e hr]
  · intro hok
    have hpair : loadConfLines ops lines confMap =
        (none, (loadConfLines ops lines confMap).2) := by
      rw [← hok]
    obtain ⟨h1, h2⟩ := loadConfLines_find ops lines confMap _ hpair
    exact ⟨h2, h1⟩

/-- Witness of C14: a configuration file of variables, a comment and an empty line loads
and binds `A` to its last value; one with an include line in it is refused. -/
theorem C14_LoadConf_admits_only_variables_witness :
    ((oneFile "main.pipe.conf" confGood).content "main.pipe.conf" = some confGood ∧
      LoadConf specOps (oneFile "main.pipe.conf" confGood) "main.pipe.conf" [("C", "0")] =
        (none, [("A", "3"), ("B", "2"), ("C", "0")]) ∧
      (LoadConf specOps (oneFile "main.pipe.conf" confWithInclude) "main.pipe.conf" []).1 =
        some LoadError.invalidConf) ∧
    ((LoadConf specOps (oneFile "main.pipe.conf" confGood) "main.pipe.conf" [("C", "0")]).1 =
        none ↔
      ∀ line ∈ confGood, (specOps.IsVarLine line).isSome = true ∨
        specOps.IsEmptyLine line = true ∨ specOps.IsCommentLine line = true) :=
  ⟨⟨rfl, by decide, by decide⟩,
   (C14_LoadConf_admits_only_variables specOps (oneFile "main.pipe.conf" confGood)
      "main.pipe.conf" confGood [("C", "0")] rfl).1⟩

/-! ### The pool during `Load` -/

theorem StrMap.insert_perm {V : Type} (m : StrMap V) (k : String) (v : V)
    (h : m.contains k = false) : (m.insert k v).Perm ((k, v) :: m) := by
  induction m with
  | nil => exact List.Perm.refl _
  | cons hd tl ih =>
    obtain ⟨k', v'⟩ := hd
    have hne : k ≠ k' := by
      intro heq
      subst heq
      simp [StrMap.contains, StrMap.find] at h
    have htl : StrMap.contains tl k = false := by
      simpa [StrMap.contains, StrMap.find, hne] using h
    unfold StrMap.insert
    by_cases h1 : k.data < k'.data
    · simp only [h1, if_true]
      exact List.Perm.refl _
    · simp only [h1, hne, if_false]
      exact ((ih htl).cons (k', v')).trans (List.Perm.swap _ _ _)

theorem PoolGrows_refl (p : Pipeline) : PoolGrows p p := by
  intro block0 blocks hb
  exact ⟨[], [], by simp [hb]⟩

theorem PoolGrows_trans (a b c : Pipeline) (hab : PoolGrows a b) (hbc : PoolGrows b c) :
    PoolGrows a c := by
  intro block0 blocks hb
  obtain ⟨i1, e1, h1⟩ := hab block0 blocks hb
  obtain ⟨i2, e2, h2⟩ := hbc _ _ h1
  exact ⟨i1 ++ i2, e1 ++ e2, by rw [h2]; simp⟩

theorem LoadProc_PoolGrows (ops : Ops) (p : Pipeline) (lines : List String) (name lb : String) :
    PoolGrows p (LoadProc ops p lines name lb).2.1 := by
  rcases LoadProc_cases ops p lines name lb with ⟨e1, r1, h1⟩ | ⟨b, r1, h1⟩
  · rw [h1]
    exact PoolGrows_refl p
  · rw [h1]
    intro block0 blocks hb
    exact ⟨[], [b], by simp [hb]⟩

theorem appendDefault_PoolGrows (ops : Ops) (p : Pipeline) (line : String) :
    PoolGrows p (p.appendDefault ops line).2 := by
  rcases appendDefault_cases ops p line with h1 | ⟨b0, bs, cmd, arguments, hb0, _, h1⟩
  · rw [h1]
    exact PoolGrows_refl p
  · rw [h1]
    intro block0 blocks hb
    rw [hb0] at hb
    simp only [List.cons.injEq] at hb
    obtain ⟨rfl, rfl⟩ := hb
    exact ⟨[CommandItem.mkShell ops cmd arguments ""], [], by simp⟩

theorem loadLine_OneBlockPerProc (ops : Ops) (fs : FileSystem) (filename : String)
    (st : LoadState) (line : String) (rest : List String) (st1 : LoadState)
    (rest1 : List String) (h : loadLine ops fs filename st line rest = LoadStep.next st1 rest1)
    (hst : st.OneBlockPerProc) : st1.OneBlockPerProc := by
  rcases loadLine_next_cases ops fs filename st line rest st1 rest1 h with
    ⟨h1, _, _⟩ | ⟨_, _, _, _, _, _, h1, _⟩ | ⟨name, lb, pipeline, _, _, _, _, hd, hp, h1⟩ |
    ⟨pipeline, _, _, _, _, ha, h1, _⟩
  · rw [h1]; exact hst
  · rw [h1]; exact hst
  · obtain ⟨hlen, hidx, hnodup, hrec⟩ := hst
    have hnew : st.pipeline.procList_.contains name = false := by
      cases hc : st.pipeline.procList_.contains name with
      | false => rfl
      | true =>
        rw [hrec name hc] at hd
        cases hd
    rcases LoadProc_cases ops st.pipeline rest name lb with ⟨e1, r1, h2⟩ | ⟨b, r1, h2⟩
    · rw [h2] at hp
      simp at hp
    · rw [h2] at hp
      simp only [Prod.mk.injEq, true_and] at hp
      have hperm := StrMap.insert_perm st.pipeline.procList_ name
        ({ name_ := name, blockIndex_ := st.pipeline.blockList_.length } : Procedure) hnew
      rw [h1, ← hp.1]
      refine ⟨?_, ?_, ?_, ?_⟩
      · simp only [List.length_append, List.length_singleton, hperm.length_eq, List.length_cons,
          List.length_nil]
        omega
      · intro e he
        simp only [List.length_append, List.length_singleton]
        rcases List.mem_cons.mp (hperm.mem_iff.mp he) with rfl | hmem
        · simp only
          omega
        · have := hidx e hmem
          omega
      · rw [(hperm.map fun e => e.2.blockIndex_).nodup_iff]
        simp only [List.map_cons, List.nodup_cons]
        refine ⟨?_, hnodup⟩
        intro hmem
        obtain ⟨e, he, heq⟩ := List.mem_map.mp hmem
        have := (hidx e he).2
        omega
      · intro name1
        simp only [StrMap.contains_insert, Bool.or_eq_true, decide_eq_true_eq]
        rintro (h3 | h3)
        · exact Or.inl h3
        · exact Or.inr (hrec name1 h3)
  · obtain ⟨hlen, hidx, hnodup, hrec⟩ := hst
    rcases appendDefault_cases ops st.pipeline line with h2 | ⟨b0, bs, cmd, arguments, hb0, _, h2⟩
    · rw [h2] at ha
      simp at ha
    · rw [h2] at ha
      simp only [Prod.mk.injEq, true_and] at ha
      rw [h1, ← ha]
      rw [hb0] at hlen hidx
      exact ⟨hlen, hidx, hnodup, hrec⟩

theorem loadTurns_OneBlockPerProc (ops : Ops) (fs : FileSystem) (filename : String) (k : Nat)
    (st : LoadState) (lines : List String) (st2 : LoadState) (lines2 : List String)
    (h : loadTurns ops fs filename k st lines = some (st2, lines2))
    (hst : st.OneBlockPerProc) : st2.OneBlockPerProc := by
  induction k generalizing st lines with
  | zero =>
    simp only [loadTurns, Option.some.injEq, Prod.mk.injEq] at h
    rw [← h.1]
    exact hst
  | succ k ih =>
    cases lines with
    | nil => simp [loadTurns] at h
    | cons line rest =>
      obtain ⟨st1, rest1, hstep, hk⟩ := loadTurns_succ ops fs filename k st line rest st2 lines2 h
      exact ih st1 rest1 hk
        (loadLine_OneBlockPerProc ops fs filename st line rest st1 rest1 hstep hst)

/-- The pipeline `Load` leaves is the pipeline of the state after some number of completed
turns of its loop. -/
theorem loadLoop_pipeline_turns (ops : Ops) (fs : FileSystem) (filename : String) (fuel : Nat)
    (st : LoadState) (lines : List String) :
    ∃ k st2 rest, loadTurns ops fs filename k st lines = some (st2, rest) ∧
      (loadLoop ops fs filename fuel st lines).pipeline = st2.pipeline := by
  have hlast : ∀ st : LoadState,
      (if fs.CheckFileExists (filename ++ ".conf") then
        match LoadConf ops fs (filename ++ ".conf") st.confMap with
        | (some e, confMap) =>
          ({ status := some e, pipeline := st.pipeline, confMap := confMap } : LoadResult)
        | (none, confMap) => { status := none, pipeline := st.pipeline, confMap := confMap }
      else { status := none, pipeline := st.pipeline, confMap := st.confMap }).pipeline =
        st.pipeline := by
    intro st
    split
    · split <;> rfl
    · rfl
  induction fuel generalizing st lines with
  | zero =>
    refine ⟨0, st, lines, rfl, ?_⟩
    unfold loadLoop
    exact hlast st
  | succ fuel ih =>
    cases lines with
    | nil =>
      refine ⟨0, st, [], rfl, ?_⟩
      unfold loadLoop
      exact hlast st
    | cons line rest =>
      simp only [loadLoop]
      cases hstep : loadLine ops fs filename st line rest with
      | next st1 rest1 =>
        simp only
        obtain ⟨k, st2, rest2, hk, hp⟩ := ih st1 rest1
        refine ⟨k + 1, st2, rest2, ?_, hp⟩
        simp only [loadTurns, hstep]
        exact hk
      | stop e1 st1 =>
        exact ⟨0, st, line :: rest, rfl,
          loadLine_stop_pipeline ops fs filename st line rest e1 st1 hstep⟩

/-- C13: the block pool is append-only during load and block 0 always exists. For every
file and every pipeline whose pool is `block0 :: blocks`, whether `Load` succeeds or fails
the pool it leaves is block 0 with items appended (and the same parallel flag), then the
blocks that were there, unchanged and in order, then the new blocks: in particular it is not
empty. After a `Load` into a fresh pipeline the pool has exactly one block per procedure of
the procedure map plus block 0, every procedure is bound to an index at least 1 within the
pool, and procedures of different names are bound to different indices. -/
theorem C13_pool_is_append_only (ops : Ops) (fs : FileSystem) (filename : String)
    (p : Pipeline) (block0 : Block) (blocks : List Block)
    (hb : p.blockList_ = block0 :: blocks) :
    (∃ items extra, (p.Load ops fs filename).pipeline.blockList_ =
      { block0 with items_ := block0.items_ ++ items } :: (blocks ++ extra)) ∧
    (p.Load ops fs filename).pipeline.blockList_ ≠ [] ∧
    ((Pipeline.fresh.Load ops fs filename).pipeline.blockList_.length =
        (Pipeline.fresh.Load ops fs filename).pipeline.procList_.length + 1 ∧
      (∀ e ∈ (Pipeline.fresh.Load ops fs filename).pipeline.procList_,
        1 ≤ e.2.blockIndex_ ∧
        e.2.blockIndex_ < (Pipeline.fresh.Load ops fs filename).pipeline.blockList_.length) ∧
      ∀ e1 ∈ (Pipeline.fresh.Load ops fs filename).pipeline.procList_,
        ∀ e2 ∈ (Pipeline.fresh.Load ops fs filename).pipeline.procList_,
          e1.1 ≠ e2.1 → e1.2.blockIndex_ ≠ e2.2.blockIndex_) := by
  have hgrow : PoolGrows p (p.Load ops fs filename).pipeline :=
    Load_rel ops fs filename PoolGrows PoolGrows_refl PoolGrows_trans
      (LoadProc_PoolGrows ops) (appendDefault_PoolGrows ops) p
  obtain ⟨items, extra, hpool⟩ := hgrow block0 blocks hb
  refine ⟨⟨items, extra, hpool⟩, by rw [hpool]; simp, ?_⟩
  have hfresh : ∃ st : LoadState, st.OneBlockPerProc ∧
      (Pipeline.fresh.Load ops fs filename).pipeline = st.pipeline := by
    have h0 : (LoadState.init Pipeline.fresh).OneBlockPerProc := by
      refine ⟨rfl, ?_, ?_, ?_⟩
      · intro e he
        simp [LoadState.init, Pipeline.fresh] at he
      · simp [LoadState.init, Pipeline.fresh]
      · intro name hname
        simp [LoadState.init, Pipeline.fresh, StrMap.contains, StrMap.find] at hname
    unfold Pipeline.Load
    cases fs.content filename with
    | none => exact ⟨LoadState.init Pipeline.fresh, h0, rfl⟩
    | some lines =>
      obtain ⟨k, st2, rest, hk, hp⟩ := loadLoop_pipeline_turns ops fs filename lines.length
        (LoadState.init Pipeline.fresh) lines
      exact ⟨st2, loadTurns_OneBlockPerProc ops fs filename k _ _ _ _ hk h0, hp⟩
  obtain ⟨st, ⟨hlen, hidx, hnodup, _⟩, hpl⟩ := hfresh
  rw [hpl]
  refine ⟨hlen, hidx, ?_⟩
  intro e1 he1 e2 he2 hne heq
  have := List.inj_on_of_nodup_map hnodup he1 he2 heq
  exact hne (by rw [this])

/-- Witness of C13: `Load` of two procedures and two top-level commands into a pipeline that
already holds the call of scenario 4 and its procedure. -/
theorem C13_pool_is_append_only_witness :
    ((loadLines fileScenario4).pipeline.blockList_ =
        { items_ := [itemBuildCall], parallel_ := false } ::
          [{ items_ := [CommandItem.mkShell specOps "echo" ["building $name with $opts"] ""]
             parallel_ := false }] ∧
      ((loadLines fileScenario4).pipeline.Load specOps (oneFile "two.pipe" fileTwoProcs)
          "two.pipe").pipeline.blockList_ =
        { items_ := [itemBuildCall, CommandItem.mkShell specOps "echo" ["a"] "",
                     CommandItem.mkShell specOps "echo" ["b"] ""]
          parallel_ := false } ::
          ([{ items_ := [CommandItem.mkShell specOps "echo" ["building $name with $opts"] ""]
              parallel_ := false }] ++
           [{ items_ := [CommandItem.mkShell specOps "echo" ["one"] ""], parallel_ := false },
            { items_ := [], parallel_ := false }])) ∧
    (∃ items extra,
      ((loadLines fileScenario4).pipeline.Load specOps (oneFile "two.pipe" fileTwoProcs)
          "two.pipe").pipeline.blockList_ =
        { ({ items_ := [itemBuildCall], parallel_ := false } : Block) with
          items_ := [itemBuildCall] ++ items } ::
          ([{ items_ := [CommandItem.mkShell specOps "echo" ["building $name with $opts"] ""]
              parallel_ := false }] ++ extra)) :=
  ⟨⟨by decide, by decide⟩,
   (C13_pool_is_append_only specOps (oneFile "two.pipe" fileTwoProcs) "two.pipe"
      (loadLines fileScenario4).pipeline { items_ := [itemBuildCall], parallel_ := false }
      [{ items_ := [CommandItem.mkShell specOps "echo" ["building $name with $opts"] ""]
         parallel_ := false }] (by decide)).1⟩

/-! ### The end of the file inside a procedure -/

/-- C15 (the code at the failing input): the body of `f` runs to the end of the file without
any right bracket; `LoadBlock` returns success all the same, and so does `Load`, with `f`
bound to the block of the lines read. -/
theorem C15_unclosed_body_is_accepted :
    (∀ line ∈ ["echo a"], specOps.IsRightBracket line = none) ∧
    LoadBlock specOps ["echo a"] Block.empty false =
      (none, { items_ := [CommandItem.mkShell specOps "echo" ["a"] ""], parallel_ := false }, []) ∧
    (loadLines fileUnclosedBody).status = none ∧
    (loadLines fileUnclosedBody).pipeline =
      { procList_ := [("f", { name_ := "f", blockIndex_ := 1 })]
        blockList_ :=
          [Block.empty,
           { items_ := [CommandItem.mkShell specOps "echo" ["a"] ""], parallel_ := false }] } := by
  decide

/-- C16 (the code at the failing input): after the header `f()` the file ends before any
left bracket; `ReadLeftBracket` returns success with the bracket still empty, and `Load`
succeeds with `f` bound to an empty block. And when the bracket `{{` is found on the next
line, the block is loaded and closed as a parallel one but its parallel flag is left
`false`. -/
theorem C16_header_at_end_is_accepted :
    specOps.IsFuncLine "f()" = some ("f", "") ∧
    ReadLeftBracket specOps [] "" = (none, "", []) ∧
    (loadLines fileHeaderAtEnd).status = none ∧
    (loadLines fileHeaderAtEnd).pipeline =
      { procList_ := [("f", { name_ := "f", blockIndex_ := 1 })]
        blockList_ := [Block.empty, Block.empty] } ∧
    (loadLines fileParallelNextLine).status = none ∧
    (loadLines fileParallelNextLine).pipeline =
      { procList_ := [("f", { name_ := "f", blockIndex_ := 1 })]
        blockList_ :=
          [Block.empty,
           { items_ := [CommandItem.mkShell specOps "echo" ["a"] ""], parallel_ := false }] } := by
  decide

/-! ### The collaborators of the specification read encoded text back -/

theorem isShellSafe_not_special (c : Char) (h : isShellSafe c = true) :
    c.isWhitespace = false ∧ c ≠ Char.ofNat 39 ∧ c ≠ '"' ∧ c ≠ Char.ofNat 92 ∧ c ≠ '#' ∧
      c ≠ '\x7d' ∧ c ≠ '(' := by
  refine ⟨?_, ?_, ?_, ?_, ?_, ?_, ?_⟩
  · cases hw : c.isWhitespace with
    | false => rfl
    | true =>
      simp only [Char.isWhitespace, Bool.or_eq_true, beq_iff_eq, decide_eq_true_eq] at hw
      rcases hw with ((hw | hw) | hw) | hw <;> (subst hw; revert h; decide)
  all_goals (intro hc; subst hc; revert h; decide)

theorem isWordChar_isShellSafe (c : Char) (h : isWordChar c = true) : isShellSafe c = true := by
  unfold isWordChar at h
  unfold isShellSafe
  simp only [Bool.or_eq_true] at h ⊢
  rcases h with h | h
  · simp [h]
  · simp [h]

theorem specTokens_safe (w rest : List Char) (t : List Char) (done : List String)
    (hw : ∀ c ∈ w, isShellSafe c = true) :
    specTokens (w ++ rest) Quoting.plain (some t) done =
      specTokens rest Quoting.plain (some (t ++ w)) done := by
  induction w generalizing t with
  | nil => simp
  | cons c w ih =>
    obtain ⟨h1, h2, h3, h4, _⟩ := isShellSafe_not_special c (hw c (List.mem_cons_self _ _))
    rw [List.cons_append, specTokens]
    simp only [h1, h2, h3, h4, Bool.false_eq_true, ↓reduceIte, Option.getD_some]
    rw [ih _ (fun x hx => hw x (List.mem_cons_of_mem _ hx))]
    simp

theorem specTokens_quoted (v rest : List Char) (t : List Char) (done : List String) :
    specTokens (v.flatMap quoteChar ++ Char.ofNat 39 :: rest) Quoting.single (some t) done =
      specTokens rest Quoting.plain (some (t ++ v)) done := by
  induction v generalizing t with
  | nil =>
    simp only [List.flatMap_nil, List.nil_append, List.append_nil]
    rw [specTokens]
    simp
  | cons c v ih =>
    simp only [List.flatMap_cons]
    by_cases hc : c = Char.ofNat 39
    · subst hc
      have hq : quoteChar (Char.ofNat 39) =
          [Char.ofNat 39, Char.ofNat 92, Char.ofNat 39, Char.ofNat 39] := by decide
      rw [hq]
      simp only [List.cons_append, List.nil_append]
      rw [specTokens]
      simp only [↓reduceIte]
      rw [specTokens]
      have e1 : (Char.ofNat 92).isWhitespace = false := by decide
      have e2 : Char.ofNat 92 ≠ Char.ofNat 39 := by decide
      have e3 : Char.ofNat 92 ≠ '"' := by decide
      simp only [e1, e2, e3, Bool.false_eq_true, ↓reduceIte, Option.getD_some]
      rw [specTokens]
      simp only [Option.getD_some]
      rw [specTokens]
      have e4 : (Char.ofNat 39).isWhitespace = false := by decide
      simp only [e4, Bool.false_eq_true, ↓reduceIte, Option.getD_some]
      rw [ih]
      simp
    · have hq : quoteChar c = [c] := by simp [quoteChar, hc]
      rw [hq]
      simp only [List.cons_append, List.nil_append]
      rw [specTokens]
      simp only [hc, ↓reduceIte, Option.getD_some]
      rw [ih]
      simp
theorem specEncodeShell_cases (v : String) :
    (v.data ≠ [] ∧ (∀ c ∈ v.data, isShellSafe c = true) ∧ specEncodeShell v = v) ∨
    (specEncodeShell v).data = Char.ofNat 39 :: (v.data.flatMap quoteChar ++ [Char.ofNat 39]) := by
  unfold specEncodeShell
  split
  · rename_i h
    left
    exact ⟨h.1, fun c hc => List.all_eq_true.mp h.2 c hc, rfl⟩
  · right
    rfl

theorem specTokens_encoded (v : String) (rest : List Char) (cur : Option (List Char))
    (done : List String) :
    specTokens ((specEncodeShell v).data ++ rest) Quoting.plain cur done =
      specTokens rest Quoting.plain (some (cur.getD [] ++ v.data)) done := by
  rcases specEncodeShell_cases v with ⟨hne, hsafe, heq⟩ | heq
  · rw [heq]
    cases hv : v.data with
    | nil => exact absurd hv hne
    | cons c w =>
      rw [hv] at hsafe
      obtain ⟨h1, h2, h3, h4, _⟩ := isShellSafe_not_special c (hsafe c (List.mem_cons_self _ _))
      cases cur <;>
      · rw [List.cons_append, specTokens]
        simp only [h1, h2, h3, h4, Bool.false_eq_true, ↓reduceIte]
        rw [specTokens_safe w rest _ done (fun x hx => hsafe x (List.mem_cons_of_mem _ hx))]
        simp
  · have e4 : (Char.ofNat 39).isWhitespace = false := by decide
    cases cur <;>
    · rw [heq, List.cons_append, specTokens]
      simp only [e4, Bool.false_eq_true, ↓reduceIte]
      rw [List.append_assoc, List.singleton_append, specTokens_quoted]

theorem specTokens_prefixed (p : List Char) (v : String) (rest : List Char) (done : List String)
    (hp : ∀ c ∈ p, isShellSafe c = true) :
    specTokens (p ++ ((specEncodeShell v).data ++ rest)) Quoting.plain none done =
      specTokens rest Quoting.plain (some (p ++ v.data)) done := by
  cases p with
  | nil =>
    rw [List.nil_append, specTokens_encoded]
    simp
  | cons c w =>
    obtain ⟨h1, h2, h3, h4, _⟩ := isShellSafe_not_special c (hp c (List.mem_cons_self _ _))
    rw [List.cons_append, specTokens]
    simp only [h1, h2, h3, h4, Bool.false_eq_true, ↓reduceIte]
    rw [specTokens_safe w _ _ done (fun x hx => hp x (List.mem_cons_of_mem _ hx)),
      specTokens_encoded]
    simp

theorem IsKeyPrefix_safe (s : String) (h : IsKeyPrefix s) :
    ∀ c ∈ s.data, isShellSafe c = true := by
  intro c hc
  rcases h c hc with hw | he
  · exact isWordChar_isShellSafe c hw
  · subst he
    decide

theorem String_mk_append (a b : String) : String.mk (a.data ++ b.data) = a ++ b := by
  apply String.ext
  simp

theorem specTokens_segments (segs : List (String × String)) (t : List Char) (done : List String)
    (hsegs : ∀ seg ∈ segs, IsKeyPrefix seg.1) :
    specTokens (segs.flatMap fun seg => ' ' :: (seg.1.data ++ (specEncodeShell seg.2).data))
        Quoting.plain (some t) done =
      some (done ++ [String.mk t] ++ segs.map fun seg => seg.1 ++ seg.2) := by
  induction segs generalizing t done with
  | nil =>
    simp only [List.flatMap_nil, List.map_nil, List.append_nil]
    rw [specTokens]
  | cons seg segs ih =>
    simp only [List.flatMap_cons, List.cons_append, List.map_cons]
    rw [specTokens]
    have e1 : ' '.isWhitespace = true := by decide
    simp only [e1, ↓reduceIte]
    rw [List.append_assoc, specTokens_prefixed _ _ _ _
      (IsKeyPrefix_safe seg.1 (hsegs seg (List.mem_cons_self _ _))),
      ih _ _ (fun s hs => hsegs s (List.mem_cons_of_mem _ hs)), String_mk_append]
    simp

theorem foldl_append_data {α : Type} (f : α → String) (l : List α) (init : String) :
    (l.foldl (fun s a => s ++ f a) init).data = init.data ++ l.flatMap fun a => (f a).data := by
  induction l generalizing init with
  | nil => simp
  | cons a l ih =>
    simp only [List.foldl_cons, List.flatMap_cons]
    rw [ih]
    simp

theorem encodedLine_data (ops : Ops) (cmd : String) (segs : List (String × String)) :
    (encodedLine ops cmd segs).data =
      (ops.EncodeShell cmd).data ++
        segs.flatMap fun seg => ' ' :: (seg.1.data ++ (ops.EncodeShell seg.2).data) := by
  unfold encodedLine
  rw [foldl_append_data (fun seg : String × String => " " ++ seg.1 ++ ops.EncodeShell seg.2)]
  congr 1

theorem specParseCommandLine_encoded (cmd : String) (segs : List (String × String))
    (hsegs : ∀ seg ∈ segs, IsKeyPrefix seg.1) :
    specParseCommandLine (encodedLine specOps cmd segs) =
        some (cmd, segs.map fun seg => seg.1 ++ seg.2) ∧
      specParseCommandLine ("\t" ++ encodedLine specOps cmd segs) =
        some (cmd, segs.map fun seg => seg.1 ++ seg.2) := by
  have hdata := encodedLine_data specOps cmd segs
  have hmain : specTokens (encodedLine specOps cmd segs).data Quoting.plain none [] =
      some (cmd :: segs.map fun seg => seg.1 ++ seg.2) := by
    rw [hdata]
    show specTokens ((specEncodeShell cmd).data ++
      segs.flatMap fun seg => ' ' :: (seg.1.data ++ (specEncodeShell seg.2).data))
      Quoting.plain none [] = _
    rw [specTokens_encoded, specTokens_segments _ _ _ hsegs]
    simp
  refine ⟨?_, ?_⟩
  · unfold specParseCommandLine
    rw [hmain]
  · unfold specParseCommandLine
    have htab : ("\t" ++ encodedLine specOps cmd segs).data =
        '\t' :: (encodedLine specOps cmd segs).data := by
      rw [String.data_append]
      rfl
    rw [htab, specTokens]
    have e1 : '\t'.isWhitespace = true := by decide
    simp only [e1, ↓reduceIte]
    rw [hmain]
theorem specEncodeShell_head (v : String) :
    ∃ c r, (specEncodeShell v).data = c :: r ∧ (c = Char.ofNat 39 ∨ isShellSafe c = true) := by
  rcases specEncodeShell_cases v with ⟨hne, hsafe, heq⟩ | heq
  · rw [heq]
    cases hv : v.data with
    | nil => exact absurd hv hne
    | cons c w =>
      rw [hv] at hsafe
      exact ⟨c, w, rfl, Or.inr (hsafe c (List.mem_cons_self _ _))⟩
  · exact ⟨_, _, heq, Or.inl rfl⟩

theorem head_not_special (c : Char) (h : c = Char.ofNat 39 ∨ isShellSafe c = true) :
    c.isWhitespace = false ∧ c ≠ '#' ∧ c ≠ '\x7d' ∧ c ≠ '(' ∧ isWordChar c = true ∨
    c.isWhitespace = false ∧ c ≠ '#' ∧ c ≠ '\x7d' ∧ c ≠ '(' ∧ isWordChar c = false := by
  have h1 : c.isWhitespace = false ∧ c ≠ '#' ∧ c ≠ '\x7d' ∧ c ≠ '(' := by
    rcases h with h | h
    · subst h
      decide
    · obtain ⟨a, _, _, _, b, d, e⟩ := isShellSafe_not_special c h
      exact ⟨a, b, d, e⟩
  cases hw : isWordChar c with
  | true => exact Or.inl ⟨h1.1, h1.2.1, h1.2.2.1, h1.2.2.2, rfl⟩
  | false => exact Or.inr ⟨h1.1, h1.2.1, h1.2.2.1, h1.2.2.2, rfl⟩

/-- Two texts made of a run of characters of one kind followed by a character of another
kind have the same run. -/
theorem run_unique (good : Char → Bool) (w a s rest : List Char) (c : Char)
    (hw : ∀ x ∈ w, good x = true) (ha : ∀ x ∈ a, good x = true)
    (hs : s = [] ∨ ∃ y s1, s = y :: s1 ∧ good y = false) (hc : good c = false)
    (h : w ++ s = a ++ c :: rest) : w = a ∧ s = c :: rest := by
  induction w generalizing a with
  | nil =>
    cases a with
    | nil => exact ⟨rfl, h⟩
    | cons y a1 =>
      rcases hs with hs | ⟨z, s1, hs, hz⟩
      · rw [hs] at h
        cases h
      · rw [hs] at h
        simp only [List.nil_append, List.cons_append, List.cons.injEq] at h
        rw [h.1, ha y (List.mem_cons_self _ _)] at hz
        cases hz
  | cons x w1 ih =>
    cases a with
    | nil =>
      simp only [List.cons_append, List.nil_append, List.cons.injEq] at h
      rw [← h.1, hw x (List.mem_cons_self _ _)] at hc
      cases hc
    | cons y a1 =>
      simp only [List.cons_append, List.cons.injEq] at h
      obtain ⟨h1, h2⟩ := ih a1 (fun z hz => hw z (List.mem_cons_of_mem _ hz))
        (fun z hz => ha z (List.mem_cons_of_mem _ hz)) h.2
      exact ⟨by rw [h.1, h1], h2⟩

theorem segments_start (ops : Ops) (segs : List (String × String)) :
    (segs.flatMap fun seg => ' ' :: (seg.1.data ++ (ops.EncodeShell seg.2).data)) = [] ∨
    ∃ y s1, (segs.flatMap fun seg => ' ' :: (seg.1.data ++ (ops.EncodeShell seg.2).data)) =
      y :: s1 ∧ y = ' ' := by
  cases segs with
  | nil => exact Or.inl rfl
  | cons seg segs =>
    rw [List.flatMap_cons]
    exact Or.inr ⟨_, _, rfl, rfl⟩

theorem dropWhile_word_head (w s : List Char) (hw : ∀ c ∈ w, isShellSafe c = true)
    (hs : s = [] ∨ ∃ y s1, s = y :: s1 ∧ y = ' ') (r : List Char) :
    (w ++ s).dropWhile isWordChar ≠ '(' :: r := by
  induction w with
  | nil =>
    rcases hs with hs | ⟨y, s1, hs, hy⟩
    · rw [hs]
      simp
    · rw [hs, hy]
      simp [List.dropWhile, show isWordChar ' ' = false by decide]
  | cons c w ih =>
    cases hc : isWordChar c with
    | true =>
      simp only [List.cons_append, List.dropWhile_cons, hc, ↓reduceIte]
      exact ih (fun x hx => hw x (List.mem_cons_of_mem _ hx))
    | false =>
      simp only [List.cons_append, List.dropWhile_cons, hc, Bool.false_eq_true, ↓reduceIte]
      intro h
      simp only [List.cons.injEq] at h
      exact (isShellSafe_not_special c (hw c (List.mem_cons_self _ _))).2.2.2.2.2.2 h.1

theorem specClassifiers_encoded (cmd : String) (segs : List (String × String)) :
    specIsRightBracket ("\t" ++ encodedLine specOps cmd segs) = none ∧
    specIsEmptyLine (encodedLine specOps cmd segs) = false ∧
    specIsCommentLine (encodedLine specOps cmd segs) = false ∧
    specIsFuncLine (encodedLine specOps cmd segs) = none ∧
    (cmd ≠ "include" → specIsIncLine (encodedLine specOps cmd segs) = none) := by
  have hdata := encodedLine_data specOps cmd segs
  have hstart := segments_start specOps segs
  generalize (segs.flatMap fun seg => ' ' :: (seg.1.data ++ (specOps.EncodeShell seg.2).data)) = s
    at hdata hstart
  have henc : specOps.EncodeShell cmd = specEncodeShell cmd := rfl
  rw [henc] at hdata
  obtain ⟨c, r, hcr, hc⟩ := specEncodeShell_head cmd
  have hc1 : c.isWhitespace = false ∧ c ≠ '#' ∧ c ≠ '\x7d' ∧ c ≠ '(' := by
    rcases head_not_special c hc with h | h
    · exact ⟨h.1, h.2.1, h.2.2.1, h.2.2.2.1⟩
    · exact ⟨h.1, h.2.1, h.2.2.1, h.2.2.2.1⟩
  have hdrop : dropSpaces (encodedLine specOps cmd segs).data = c :: (r ++ s) := by
    rw [hdata, hcr]
    simp [dropSpaces, List.dropWhile, hc1.1]
  refine ⟨?_, ?_, ?_, ?_, ?_⟩
  · unfold specIsRightBracket
    have htab : dropSpaces ("\t" ++ encodedLine specOps cmd segs).data = c :: (r ++ s) := by
      rw [String.data_append, ← hdrop]
      show dropSpaces ('\t' :: _) = _
      simp [dropSpaces, List.dropWhile, show '\t'.isWhitespace = true by decide]
    rw [htab]
    simp [hc1.2.2.1]
  · unfold specIsEmptyLine
    rw [hdata, hcr]
    simp [hc1.1]
  · unfold specIsCommentLine
    rw [hdrop]
    split
    · rename_i heq
      simp only [List.cons.injEq] at heq
      exact absurd heq.1 hc1.2.1
    · rfl
  · unfold specIsFuncLine
    split
    · rename_i rest heq
      exfalso
      rw [hdata] at heq
      rcases specEncodeShell_cases cmd with ⟨_, hsafe, he⟩ | he
      · rw [he] at heq
        exact dropWhile_word_head _ _ hsafe hstart _ heq
      · rw [he] at heq
        simp [List.dropWhile, show isWordChar (Char.ofNat 39) = false by decide] at heq
    · rfl
  · intro hne
    unfold specIsIncLine
    split
    · rename_i c1 rest heq
      have hws : c1.isWhitespace = false := by
        cases hw : c1.isWhitespace with
        | false => rfl
        | true =>
          exfalso
          replace heq : (specEncodeShell cmd).data ++ s =
              ['i', 'n', 'c', 'l', 'u', 'd', 'e'] ++ c1 :: rest := by
            rw [hcr]
            exact hdrop.symm.trans heq
          rcases specEncodeShell_cases cmd with ⟨_, hsafe, he⟩ | he
          · rw [he] at heq
            have hc1safe : isShellSafe c1 = false := by
              cases hsf : isShellSafe c1 with
              | false => rfl
              | true =>
                rw [(isShellSafe_not_special c1 hsf).1] at hw
                cases hw
            have hs2 : s = [] ∨ ∃ y s1, s = y :: s1 ∧ isShellSafe y = false := by
              rcases hstart with h | ⟨y, s1, h1, h2⟩
              · exact Or.inl h
              · exact Or.inr ⟨y, s1, h1, by rw [h2]; decide⟩
            have := (run_unique isShellSafe cmd.data ['i', 'n', 'c', 'l', 'u', 'd', 'e'] s rest c1
              hsafe (by decide) hs2 hc1safe heq).1
            exact hne (String.ext this)
          · rw [he] at heq
            simp only [List.cons_append, List.cons.injEq] at heq
            exact absurd heq.1 (by decide)
      simp [hws]
    · rfl
theorem specIsFuncLine_name (line name lb : String) (h : specIsFuncLine line = some (name, lb)) :
    specIsName name.data = true := by
  unfold specIsFuncLine at h
  split at h
  · split at h
    · rename_i hcond
      simp only [Option.some.injEq, Prod.mk.injEq] at h
      rw [← h.1]
      exact hcond.1
    · cases h
  · cases h

theorem specIsName_chars (nm : List Char) (h : specIsName nm = true) :
    (∃ c r, nm = c :: r) ∧ ∀ c ∈ nm, isWordChar c = true := by
  unfold specIsName at h
  cases nm with
  | nil => cases h
  | cons c r =>
    simp only [Bool.and_eq_true] at h
    exact ⟨⟨c, r, rfl⟩, fun x hx => List.all_eq_true.mp h.2 x hx⟩

theorem specHeader_reads_back (line name lb : String)
    (h : specIsFuncLine line = some (name, lb)) :
    specIsEmptyLine (name ++ "() \x7b") = false ∧
    specIsCommentLine (name ++ "() \x7b") = false ∧
    specIsIncLine (name ++ "() \x7b") = none ∧
    specIsFuncLine (name ++ "() \x7b") = some (name, "\x7b") := by
  have hname := specIsFuncLine_name line name lb h
  obtain ⟨⟨c, r, hcr⟩, hword⟩ := specIsName_chars name.data hname
  have hdata : (name ++ "() \x7b").data = name.data ++ ['(', ')', ' ', '\x7b'] := by
    rw [String.data_append]
  have hc : isWordChar c = true := hword c (by rw [hcr]; exact List.mem_cons_self _ _)
  obtain ⟨hws, _, _, _, hhash, _, _⟩ := isShellSafe_not_special c (isWordChar_isShellSafe c hc)
  have hdrop : dropSpaces (name ++ "() \x7b").data = name.data ++ ['(', ')', ' ', '\x7b'] := by
    rw [hdata, hcr]
    simp [dropSpaces, List.dropWhile, hws]
  refine ⟨?_, ?_, ?_, ?_⟩
  · unfold specIsEmptyLine
    rw [hdata, hcr]
    simp [hws]
  · unfold specIsCommentLine
    rw [hdrop, hcr]
    split
    · rename_i heq
      simp only [List.cons_append, List.cons.injEq] at heq
      exact absurd heq.1 hhash
    · rfl
  · unfold specIsIncLine
    split
    · rename_i c1 rest heq
      have hws1 : c1.isWhitespace = false := by
        cases hw : c1.isWhitespace with
        | false => rfl
        | true =>
          exfalso
          replace heq : name.data ++ ['(', ')', ' ', '\x7b'] =
              ['i', 'n', 'c', 'l', 'u', 'd', 'e'] ++ c1 :: rest := hdrop.symm.trans heq
          have hc1 : isWordChar c1 = false := by
            cases hwc : isWordChar c1 with
            | false => rfl
            | true =>
              rw [(isShellSafe_not_special c1 (isWordChar_isShellSafe c1 hwc)).1] at hw
              cases hw
          have h2 := (run_unique isWordChar name.data ['i', 'n', 'c', 'l', 'u', 'd', 'e']
            ['(', ')', ' ', '\x7b'] rest c1 hword (by decide)
            (Or.inr ⟨'(', _, rfl, by decide⟩) hc1 heq).2
          simp only [List.cons.injEq] at h2
          rw [← h2.1] at hw
          revert hw
          decide
      simp [hws1]
    · rfl
  · unfold specIsFuncLine
    have htake : (name ++ "() \x7b").data.takeWhile isWordChar = name.data := by
      rw [hdata, List.takeWhile_append_of_pos hword]
      simp [List.takeWhile, show isWordChar '(' = false by decide]
    have hdropw : (name ++ "() \x7b").data.dropWhile isWordChar = ['(', ')', ' ', '\x7b'] := by
      rw [hdata, List.dropWhile_append_of_pos hword]
      simp [List.dropWhile, show isWordChar '(' = false by decide]
    rw [hdropw, htake]
    have hsp : dropSpaces [' ', '\x7b'] = ['\x7b'] := by decide
    simp only [hname, hsp, true_and]
    simp

/-- The collaborators as the specification describes them read encoded text back. -/
theorem specOps_ReadsEncodedText : specOps.ReadsEncodedText where
  emptyLine := by decide
  rightBracket := by decide
  header := specHeader_reads_back
  command := fun cmd segs hsegs =>
    ⟨(specParseCommandLine_encoded cmd segs hsegs).1,
      (specParseCommandLine_encoded cmd segs hsegs).2,
      (specClassifiers_encoded cmd segs).1,
      (specClassifiers_encoded cmd segs).2.1,
      (specClassifiers_encoded cmd segs).2.2.1,
      (specClassifiers_encoded cmd segs).2.2.2.1,
      (specClassifiers_encoded cmd segs).2.2.2.2⟩

/-! ### The text `Save` writes for a loaded pipeline is encoded text -/

theorem loadTurns_names (ops : Ops) (fs : FileSystem) (filename : String) (k : Nat)
    (st : LoadState) (lines : List String) (st2 : LoadState) (rest : List String)
    (h : loadTurns ops fs filename k st lines = some (st2, rest))
    (hst : ∀ e ∈ st.pipeline.procList_, IsProcName ops e.1) :
    ∀ e ∈ st2.pipeline.procList_, IsProcName ops e.1 := by
  induction k generalizing st lines with
  | zero =>
    simp only [loadTurns, Option.some.injEq, Prod.mk.injEq] at h
    rw [← h.1]
    exact hst
  | succ k ih =>
    cases lines with
    | nil => simp [loadTurns] at h
    | cons line rest0 =>
      obtain ⟨st1, rest1, hstep, hk⟩ := loadTurns_succ ops fs filename k st line rest0 st2 rest h
      refine ih st1 rest1 hk ?_
      rcases loadLine_next_cases ops fs filename st line rest0 st1 rest1 hstep with
        ⟨h1, _, _⟩ | ⟨_, _, _, _, _, _, h1, _⟩ | ⟨name, lb, pipeline, _, _, _, hf, _, hp, h1⟩ |
        ⟨pipeline, _, _, _, _, ha, h1, _⟩
      · rw [h1]; exact hst
      · rw [h1]; exact hst
      · rw [h1]
        rcases LoadProc_cases ops st.pipeline rest0 name lb with ⟨e1, r1, h2⟩ | ⟨b, r1, h2⟩
        · rw [h2] at hp
          cases hp
        · rw [h2] at hp
          simp only [Prod.mk.injEq, true_and] at hp
          rw [← hp.1]
          intro e he
          rcases StrMap.mem_insert _ _ _ _ he with heq | hmem
          · rw [heq]
            exact ⟨line, lb, hf⟩
          · exact hst e hmem
      · rw [h1]
        rcases appendDefault_cases ops st.pipeline line with h2 | ⟨_, _, _, _, _, _, h2⟩
        · rw [h2] at ha
          cases ha
        · rw [h2] at ha
          simp only [Prod.mk.injEq, true_and] at ha
          rw [← ha]
          exact hst

theorem Load_names (ops : Ops) (fs : FileSystem) (filename : String) :
    ∀ e ∈ (Pipeline.fresh.Load ops fs filename).pipeline.procList_, IsProcName ops e.1 := by
  unfold Pipeline.Load
  cases fs.content filename with
  | none =>
    intro e he
    simp [Pipeline.fresh] at he
  | some lines =>
    obtain ⟨k, st2, rest, hk, hp⟩ := loadLoop_pipeline_turns ops fs filename lines.length
      { pipeline := Pipeline.fresh, confMap := [], procAtLineNo := [] } lines
    simp only
    rw [hp]
    refine loadTurns_names ops fs filename k _ lines st2 rest hk ?_
    intro e he
    simp [Pipeline.fresh] at he

theorem mkShell_cmdLine (ops : Ops) (cmd : String) (arguments : List String)
    (h : ops.EncodeShell cmd = cmd) :
    (CommandItem.mkShell ops cmd arguments "").cmdLine_ =
      encodedLine ops cmd (arguments.map fun arg => ("", arg)) := by
  unfold CommandItem.mkShell encodedLine
  simp only [↓reduceIte, List.foldl_map, h]
  congr 1

theorem plain_segments (arguments : List String) :
    (∀ seg ∈ arguments.map (fun arg => (("", arg) : String × String)), IsKeyPrefix seg.1) ∧
    ((arguments.map fun arg => (("", arg) : String × String)).map fun seg => seg.1 ++ seg.2) =
      arguments := by
  refine ⟨?_, ?_⟩
  · intro seg hseg
    simp only [List.mem_map] at hseg
    obtain ⟨arg, _, rfl⟩ := hseg
    intro c hc
    simp at hc
  · induction arguments with
    | nil => rfl
    | cons a l ih =>
      simp only [List.map_cons, List.cons.injEq]
      exact ⟨by simp, ih⟩

theorem keyed_segments (arguments : List String)
    (hall : ∀ arg ∈ arguments, (regexMatchKeyValue arg).isSome = true) :
    (∀ seg ∈ (arguments.filterMap regexMatchKeyValue).map
        (fun kv => ((kv.1 ++ "=", kv.2) : String × String)), IsKeyPrefix seg.1) ∧
    (((arguments.filterMap regexMatchKeyValue).map
        (fun kv => ((kv.1 ++ "=", kv.2) : String × String))).map fun seg => seg.1 ++ seg.2) =
      arguments := by
  induction arguments with
  | nil => simp
  | cons arg rest ih =>
    obtain ⟨ih1, ih2⟩ := ih (fun a ha => hall a (List.mem_cons_of_mem _ ha))
    have hsome := hall arg (List.mem_cons_self _ _)
    cases hm : regexMatchKeyValue arg with
    | none => rw [hm] at hsome; cases hsome
    | some kv =>
      obtain ⟨key, value⟩ := kv
      obtain ⟨harg, _, hkey, _⟩ := (regexMatchKeyValue_iff arg key value).mp hm
      simp only [List.filterMap_cons, hm, List.map_cons, List.mem_cons, forall_eq_or_imp,
        List.cons.injEq]
      refine ⟨⟨?_, ih1⟩, harg.symm, ih2⟩
      intro c hc
      simp only [String.data_append, List.mem_append] at hc
      rcases hc with hc | hc
      · exact Or.inl (hkey c hc)
      · right
        simpa using hc

theorem FormatProcCalling_encoded (ops : Ops) (m : StrMap String) (arguments : List String)
    (init : String)
    (hall : ∀ arg ∈ arguments, (regexMatchKeyValue arg).isSome = true)
    (hkeep : ∀ arg ∈ arguments, ∀ kv ∈ regexMatchKeyValue arg, m.find kv.1 = some kv.2) :
    (arguments.filterMap fun arg => (regexMatchKeyValue arg).map Prod.fst).foldl
        (fun s name => s ++ (" " ++ name ++ "=" ++ ops.EncodeShell ((m.find name).getD ""))) init =
      ((arguments.filterMap regexMatchKeyValue).map
          (fun kv => ((kv.1 ++ "=", kv.2) : String × String))).foldl
        (fun s seg => s ++ (" " ++ seg.1 ++ ops.EncodeShell seg.2)) init := by
  induction arguments generalizing init with
  | nil => rfl
  | cons arg rest ih =>
    have hsome := hall arg (List.mem_cons_self _ _)
    cases hm : regexMatchKeyValue arg with
    | none => rw [hm] at hsome; cases hsome
    | some kv =>
      have hfind := hkeep arg (List.mem_cons_self _ _) kv hm
      simp only [List.filterMap_cons, hm, Option.map_some', List.map_cons, List.foldl_cons,
        hfind, Option.getD_some]
      rw [ih _ (fun a ha => hall a (List.mem_cons_of_mem _ ha))
        (fun a ha => hkeep a (List.mem_cons_of_mem _ ha))]
      have hassoc : " " ++ kv.1 ++ "=" = " " ++ (kv.1 ++ "=") := String.append_assoc _ _ _
      rw [hassoc]
theorem finalChecked_item (ops : Ops) (p0 : Pipeline) (hAs : p0.AsLoaded ops) (i : Nat)
    (item : CommandItem) (hitem : item ∈ (p0.FinalCheckAfterLoad.blockAt i).items_) :
    (∃ b ∈ p0.FinalCheckAfterLoad.blockList_, item ∈ b.items_) ∧
    ∃ item0, item0 = CommandItem.mkShell ops item0.shellCmd_ item0.shellArgs_ "" ∧
      item = finalCheckItem p0.procList_ item0 := by
  rw [FinalCheckAfterLoad_blockAt_all, blockAt_eq] at hitem
  cases hb : p0.blockList_[i]? with
  | none =>
    rw [hb] at hitem
    simp [Block.empty] at hitem
  | some b0 =>
    rw [hb] at hitem
    simp only [Option.getD_some, List.mem_map] at hitem
    obtain ⟨item0, hmem0, rfl⟩ := hitem
    have hb0 : b0 ∈ p0.blockList_ := List.getElem?_mem hb
    refine ⟨⟨{ b0 with items_ := b0.items_.map (finalCheckItem p0.procList_) }, ?_, ?_⟩,
      item0, (hAs.2 b0 hb0).2 item0 hmem0, rfl⟩
    · unfold Pipeline.FinalCheckAfterLoad
      exact List.mem_map.mpr ⟨b0, hb0, rfl⟩
    · exact List.mem_map.mpr ⟨item0, hmem0, rfl⟩

/-- What `Save` writes for an item of a loaded pipeline whose program name the shell
encoding leaves as it is: the command-line text of the item is the encoded form of its
program name and arguments, and the item is a shell item or a promoted one. -/
theorem saved_item_text (ops : Ops) (p0 : Pipeline) (hAs : p0.AsLoaded ops)
    (hprog : ∀ b ∈ p0.FinalCheckAfterLoad.blockList_, ∀ item ∈ b.items_,
      ops.EncodeShell item.shellCmd_ = item.shellCmd_)
    (i : Nat) (item : CommandItem) (hitem : item ∈ (p0.FinalCheckAfterLoad.blockAt i).items_) :
    ops.EncodeShell item.shellCmd_ = item.shellCmd_ ∧
    item.cmdLine_ = encodedLine ops item.shellCmd_ (item.shellArgs_.map fun arg => ("", arg)) ∧
    (item.type_ = CommandType.TYPE_SHELL ∨
      (item.type_ = CommandType.TYPE_PROC ∧ item.procName_ = item.shellCmd_ ∧
        item.procArgsOrder_ =
          item.shellArgs_.filterMap (fun arg => (regexMatchKeyValue arg).map Prod.fst) ∧
        ∀ arg ∈ item.shellArgs_, (regexMatchKeyValue arg).isSome = true)) := by
  obtain ⟨⟨b, hb, hib⟩, item0, h0, hfc⟩ := finalChecked_item ops p0 hAs i item hitem
  have hcmd := hprog b hb item hib
  obtain ⟨e1, e2, e3⟩ := finalCheckItem_shellCmd p0.procList_ item0
  rw [← hfc] at e1 e2 e3
  have hline : item0.cmdLine_ =
      encodedLine ops item0.shellCmd_ (item0.shellArgs_.map fun arg => ("", arg)) := by
    have := mkShell_cmdLine ops item0.shellCmd_ item0.shellArgs_ (by rw [← e1]; exact hcmd)
    rw [← h0] at this
    exact this
  refine ⟨hcmd, ?_, ?_⟩
  · rw [e3, e1, e2]
    exact hline
  · rcases finalCheckItem_cases p0.procList_ item0 with h | ⟨_, _, m, hm, h⟩
    · left
      rw [hfc, h, h0]
      rfl
    · right
      rw [hfc, h]
      exact ⟨rfl, rfl, rfl, (parseProcArgs_some_order _ _ _ _ _ hm).1⟩

/-- The text `Save` writes for a loaded pipeline reads back as written, when the
collaborators read encoded text back, no program name needs encoding, and in block 0 no
program is called `include` and every promoted item keeps the values of its arguments. -/
theorem ReadsBack_of_encoded (ops : Ops) (p0 : Pipeline) (hops : ops.ReadsEncodedText)
    (hAs : p0.AsLoaded ops) (hnames : ∀ e ∈ p0.procList_, IsProcName ops e.1)
    (hprog : ∀ b ∈ p0.FinalCheckAfterLoad.blockList_, ∀ item ∈ b.items_,
      ops.EncodeShell item.shellCmd_ = item.shellCmd_)
    (hdef : ∀ item ∈ (p0.FinalCheckAfterLoad.blockAt 0).items_,
      item.shellCmd_ ≠ "include" ∧ (item.type_ = CommandType.TYPE_PROC → item.KeepsValues)) :
    ReadsBack ops p0.FinalCheckAfterLoad := by
  refine ⟨hops.emptyLine, hops.rightBracket, ?_, ?_⟩
  · intro entry hentry
    obtain ⟨line, lb, hline⟩ := hnames entry hentry
    obtain ⟨h1, h2, h3, h4⟩ := hops.header line entry.1 lb hline
    refine ⟨h1, h2, h3, h4, ?_⟩
    intro item hitem
    obtain ⟨_, htext, _⟩ := saved_item_text ops p0 hAs hprog _ item hitem
    obtain ⟨_, c2, c3, _⟩ := hops.command item.shellCmd_
      (item.shellArgs_.map fun arg => ("", arg)) (plain_segments item.shellArgs_).1
    rw [(plain_segments item.shellArgs_).2] at c2
    rw [htext]
    exact ⟨c3, c2⟩
  · intro item hitem
    obtain ⟨hcmd, htext, htype⟩ := saved_item_text ops p0 hAs hprog 0 item hitem
    obtain ⟨hinc, hkeep⟩ := hdef item hitem
    rcases htype with hshell | ⟨hproc, hname, horder, hall⟩
    · obtain ⟨c1, _, _, c4, c5, c6, c7⟩ := hops.command item.shellCmd_
        (item.shellArgs_.map fun arg => ("", arg)) (plain_segments item.shellArgs_).1
      rw [(plain_segments item.shellArgs_).2] at c1
      have hs : item.ToString ops = item.cmdLine_ := by
        unfold CommandItem.ToString
        rw [if_pos hshell]
      rw [hs, htext]
      exact ⟨c4, c5, c7 hinc, c6, c1⟩
    · obtain ⟨c1, _, _, c4, c5, c6, c7⟩ := hops.command item.shellCmd_
        ((item.shellArgs_.filterMap regexMatchKeyValue).map
          fun kv => ((kv.1 ++ "=", kv.2) : String × String))
        (keyed_segments item.shellArgs_ hall).1
      rw [(keyed_segments item.shellArgs_ hall).2] at c1
      have hs : item.ToString ops = encodedLine ops item.shellCmd_
          ((item.shellArgs_.filterMap regexMatchKeyValue).map
            fun kv => ((kv.1 ++ "=", kv.2) : String × String)) := by
        unfold CommandItem.ToString FormatProcCalling encodedLine
        rw [if_neg (by rw [hproc]; decide), hname, horder, hcmd]
        exact FormatProcCalling_encoded ops item.procArgs_ item.shellArgs_ _ hall (hkeep hproc)
      rw [hs]
      exact ⟨c4, c5, c7 hinc, c6, c1⟩
end SeqPipe
